import Mathlib

/-
Verification of the ccimport C++ source scanner (ccimport/source_iter.py and
the class-export parsing loop of ccimport/core.py).

The Python code is shallowly embedded: the source text is a `List Char`,
positions are `Nat`, Python exceptions become an explicit `Except PyErr`,
and the mutable cursor `(pos, bracket_state)` is threaded explicitly.
Python stdlib calls (`re` tokenization, `bisect.bisect_left`, `list.sort`)
are modelled by their documented semantics: the regex by a deterministic
leftmost, first-alternative matcher over the exact alternation of
CPP_SIMPLE_TOKEN, `bisect_left` by its contract on sorted input, and the
stable `sort` by a structurally recursive stable insertion sort.
-/

namespace CcImport

/-- Characters that are awkward inside Lean literals are named once. -/
def squote : Char := Char.ofNat 39

def dquote : Char := Char.ofNat 34

def bslash : Char := Char.ofNat 92

def lcurly : Char := Char.ofNat 123

def rcurly : Char := Char.ofNat 125

def vtab : Char := Char.ofNat 11

def charAt (s : List Char) (p : Nat) : Char := s.getD p (Char.ofNat 0)

/-! ## Tokenizer: model of CPP_SIMPLE_TOKEN_RE / cpp_simple_tokenize -/

def isIdentStartChar (c : Char) : Bool :=
  ('a' ≤ c && c ≤ 'z') || ('A' ≤ c && c ≤ 'Z') || c = '_'

def isIdentChar (c : Char) : Bool :=
  isIdentStartChar c || ('0' ≤ c && c ≤ '9')

def isOctDigit (c : Char) : Bool := '0' ≤ c && c ≤ '7'

def isHexDigit (c : Char) : Bool :=
  ('0' ≤ c && c ≤ '9') || ('a' ≤ c && c ≤ 'f') || ('A' ≤ c && c ≤ 'F')

/-- The single-character escapes of the regex class ['\x22?\x5cabfnrtv] (plus quote). -/
def simpleEscapeChars : List Char :=
  [squote, dquote, '?', bslash, 'a', 'b', 'f', 'n', 'r', 't', 'v']

/-- Match one escape sequence (the part after the backslash):
simple escape, 1-3 octal digits, x + 1-2 hex digits, u + 4 hex, U + 8 hex. -/
def matchEscape : List Char → Option Nat
  | [] => none
  | c :: cs =>
    if simpleEscapeChars.contains c then some 1
    else if isOctDigit c then some (1 + min 2 (cs.takeWhile isOctDigit).length)
    else if c = 'x' then
      let n := min 2 (cs.takeWhile isHexDigit).length
      if n = 0 then none else some (1 + n)
    else if c = 'u' then
      if (cs.take 4).length = 4 && (cs.take 4).all isHexDigit then some 5 else none
    else if c = 'U' then
      if (cs.take 8).length = 8 && (cs.take 8).all isHexDigit then some 9 else none
    else none

/-- Body of a quoted literal after the opening quote: a sequence of items
(escape sequences or ordinary characters other than the quote, backslash, CR, LF)
terminated by the closing quote. Char literals need at least one item
(`allowEmpty = false`), strings allow zero. Returns the number of characters
consumed including the closing quote. -/
def litBody (q : Char) (allowEmpty : Bool) : Nat → Bool → List Char → Option Nat
  | 0, _, _ => none
  | fuel + 1, seen, c :: cs =>
    if c = q then (if allowEmpty || seen then some 1 else none)
    else if c = bslash then
      match matchEscape cs with
      | some k =>
        match litBody q allowEmpty fuel true (cs.drop k) with
        | some m => some (1 + k + m)
        | none => none
      | none => none
    else if c = '\r' || c = '\n' then none
    else
      match litBody q allowEmpty fuel true cs with
      | some m => some (1 + m)
      | none => none
  | _ + 1, _, [] => none

/-- Encoding prefixes in regex alternation order: u8, u, U, L, empty. -/
def litPrefixes : List (List Char) := [['u', '8'], ['u'], ['U'], ['L'], []]

/-- Ordinary quoted literal with optional encoding prefix. At most one prefix
choice can be followed by the opening quote, so trying them in regex order is
exact. -/
def matchQuotedLit (q : Char) (allowEmpty : Bool) (cs : List Char) : Option Nat :=
  litPrefixes.findSome? fun p =>
    if (p ++ [q]).isPrefixOf cs then
      let rest := cs.drop (p.length + 1)
      match litBody q allowEmpty (rest.length + 1) false rest with
      | some m => some (p.length + 1 + m)
      | none => none
    else none

/-- First index at which `pat` occurs in the list (non-greedy search). -/
def findSub (pat : List Char) : List Char → Option Nat
  | [] => if pat.isPrefixOf ([] : List Char) then some 0 else none
  | c :: tl =>
    if pat.isPrefixOf (c :: tl) then some 0
    else match findSub pat tl with
      | some i => some (i + 1)
      | none => none

/-- Raw-string delimiter characters: anything but space, parens, backslash,
tab, vertical tab, CR, LF. -/
def isRawDelimChar (c : Char) : Bool :=
  !(c = ' ' || c = '(' || c = ')' || c = bslash || c = '\t' || c = vtab
    || c = '\r' || c = '\n')

/-- C++11 raw string literal with optional encoding prefix:
R + quote + delim + open paren + shortest body + close paren + delim + quote. -/
def matchRawString (cs : List Char) : Option Nat :=
  litPrefixes.findSome? fun p =>
    if (p ++ ['R', dquote]).isPrefixOf cs then
      let rest := cs.drop (p.length + 2)
      let delim := rest.takeWhile isRawDelimChar
      match rest.drop delim.length with
      | c :: body =>
        if c = '(' then
          match findSub (')' :: (delim ++ [dquote])) body with
          | some i => some (p.length + 2 + delim.length + 1 + i + 2 + delim.length)
          | none => none
        else none
      | [] => none
    else none

/-- Line comment: two slashes then everything up to (not including) the next LF. -/
def matchLineComment : List Char → Option Nat
  | c1 :: c2 :: cs =>
    if c1 = '/' && c2 = '/' then some (2 + (cs.takeWhile (fun c => !(c = '\n'))).length)
    else none
  | _ => none

/-- Block comment: slash-star through the first star-slash (non-greedy). -/
def matchBlockComment : List Char → Option Nat
  | c1 :: c2 :: cs =>
    if c1 = '/' && c2 = '*' then
      match findSub ['*', '/'] cs with
      | some i => some (2 + i + 2)
      | none => none
    else none
  | _ => none

def matchIdentifier : List Char → Option Nat
  | [] => none
  | c :: cs => if isIdentStartChar c then some (1 + (cs.takeWhile isIdentChar).length) else none

inductive TokenType where
  | str
  | comment
  | ident
deriving DecidableEq

/-- One attempt at the regex alternation, in the order of CPP_SIMPLE_TOKEN:
comments, char literal, ordinary string, raw string, identifier. -/
def tryToken (cs : List Char) : Option (TokenType × Nat) :=
  match matchLineComment cs with
  | some k => some (TokenType.comment, k)
  | none =>
    match matchBlockComment cs with
    | some k => some (TokenType.comment, k)
    | none =>
      match matchQuotedLit squote false cs with
      | some k => some (TokenType.str, k)
      | none =>
        match matchQuotedLit dquote true cs with
        | some k => some (TokenType.str, k)
        | none =>
          match matchRawString cs with
          | some k => some (TokenType.str, k)
          | none =>
            match matchIdentifier cs with
            | some k => some (TokenType.ident, k)
            | none => none

structure Token where
  kind : TokenType
  start : Nat
  stop : Nat
  text : List Char
deriving DecidableEq

/-- finditer semantics: scan left to right; at each position try the
alternation; on a match emit it and continue at its end, else move one
character right. -/
def tokenizeAux : Nat → List Char → Nat → List Token
  | 0, _, _ => []
  | _ + 1, [], _ => []
  | fuel + 1, c :: tl, pos =>
    match tryToken (c :: tl) with
    | some (ty, k) =>
      ⟨ty, pos, pos + k, (c :: tl).take k⟩ :: tokenizeAux fuel ((c :: tl).drop k) (pos + k)
    | none => tokenizeAux fuel tl (pos + 1)

def cpp_simple_tokenize (source : List Char) : List Token :=
  tokenizeAux source.length source 0

/-- The effect of a Python `for` loop that appends `f x` results and lets
exceptions propagate: a filterMap in the Except monad, written out
structurally. -/
def exceptFilterMap (f : α → Except ε (Option β)) : List α → Except ε (List β)
  | [] => Except.ok []
  | x :: xs =>
    match f x with
    | Except.error e => Except.error e
    | Except.ok none => exceptFilterMap f xs
    | Except.ok (some b) =>
      match exceptFilterMap f xs with
      | Except.error e => Except.error e
      | Except.ok bs => Except.ok (b :: bs)

/-! ## Python runtime errors raised by the scanner -/

inductive PyErr where
  /-- ValueError "unbalanced bracket c(pos) in your source." raised mid-scan. -/
  | unbalanced_bracket (c : Char) (pos : Nat)
  /-- assert at end of scan: "unbalanced bracket k in your source." -/
  | unbalanced_end (k : Char)
  /-- a Python `assert` failed (find_identifier_range, core.py asserts). -/
  | assertion_error
  /-- KeyError from a dict lookup keyed by a character. -/
  | key_error (c : Char)
  /-- KeyError from _start_to_bracket_pair on a position. -/
  | missing_pair (pos : Nat)
deriving DecidableEq

/-! ## Python string comparison and bisect -/

/-- Python `<` on strings: lexicographic by code point. -/
def str_lt : List Char → List Char → Bool
  | [], [] => false
  | [], _ :: _ => true
  | _ :: _, [] => false
  | a :: as_, b :: bs => if a < b then true else if b < a then false else str_lt as_ bs

def str_le (a b : List Char) : Bool := !(str_lt b a)

/-- Python bisect.bisect_left on Nat lists, modelled by its contract on
sorted input: index of the first element not below the key, which equals
the number of leading elements strictly below it. All call sites pass the
full list range. -/
def bisect_left_nat (data : List Nat) (x : Nat) : Nat :=
  (data.takeWhile (fun y => decide (y < x))).length

/-- Python bisect.bisect_left on string lists (same contract). -/
def bisect_left_str (data : List (List Char)) (x : List Char) : Nat :=
  (data.takeWhile (fun y => str_lt y x)).length

/-! ## Python list.sort: a stable sort.  Insertion sort is stable (an element
is inserted before every equal element that occurred later in the input), so
it models Python sort exactly. -/

def ordered_insert (le : α → α → Bool) (x : α) : List α → List α
  | [] => [x]
  | y :: ys => if le x y then x :: y :: ys else y :: ordered_insert le x ys

def py_sort (le : α → α → Bool) : List α → List α
  | [] => []
  | x :: xs => ordered_insert le x (py_sort le xs)

/-! ## Association lists standing for Python dicts -/

def assoc_get? [BEq α] (d : List (α × β)) (k : α) : Option β :=
  (d.find? (fun kv => kv.1 == k)).map (fun kv => kv.2)

/-- Assignment `d[k] = v`: overwrite in place, else append (dict semantics). -/
def assoc_set [BEq α] : List (α × β) → α → β → List (α × β)
  | [], k, v => [(k, v)]
  | kv :: rest, k, v =>
    if kv.1 == k then (k, v) :: rest else kv :: assoc_set rest k v

/-- In-place mutation of the value stored under an existing key. -/
def assoc_modify [BEq α] (d : List (α × β)) (k : α) (f : β → β) : List (α × β) :=
  d.map (fun kv => if kv.1 == k then (kv.1, f kv.2) else kv)

/-! ## Derived token tables (CppSourceIterator.__init__ lines 100-121) -/

structure IdentifierMeta where
  name : List Char
  start : Nat
  stop : Nat
deriving DecidableEq, Inhabited

structure ClassDef where
  name : List Char
  keyword_pos : Nat
  body_start : Nat
  body_end : Nat
  local_id : List Char
  is_template : Bool
deriving DecidableEq, Inhabited

structure FunctionDef where
  name : List Char
  identifier_pos : Nat
  param_start : Nat
  param_end : Nat
  body_start : Int
  body_end : Int
  local_id : List Char
  is_template : Bool
deriving DecidableEq

def identifier_metas_of (tokens : List Token) : List IdentifierMeta :=
  tokens.filterMap fun t =>
    if t.kind = TokenType.ident then some ⟨t.text, t.start, t.stop⟩ else none

def ignore_ranges_of (tokens : List Token) : List (Nat × Nat) :=
  tokens.filterMap fun t =>
    if t.kind = TokenType.comment || t.kind = TokenType.str then some (t.start, t.stop)
    else none

/-- All precomputed immutable tables of a CppSourceIterator (everything of
__init__ up to and including _init_bracket_analysis and the pair lookup). -/
structure SourceTables where
  source : List Char
  tokens : List Token
  identifier_metas : List IdentifierMeta
  identifiers : List (List Char)
  ignore_ranges : List (Nat × Nat)
  ignore_starts : List Nat
  identifier_metas_start_sorted : List IdentifierMeta
  identifier_starts : List Nat
  length : Nat
  bracket_pairs : List (Char × Nat × Nat)
  symbol_to_poses : List (Char × List Nat)
deriving DecidableEq

/-- The cursor's per-kind bracket counters (keys "(", "[", "{"). -/
structure BracketState where
  round : Nat
  square : Nat
  curly : Nat
deriving DecidableEq

structure Cursor where
  pos : Nat
  bracket_state : BracketState
deriving DecidableEq

def reset_move (p : Nat) : Cursor := ⟨p, ⟨0, 0, 0⟩⟩

/-! ## skip_string_comment (lines 420-430) -/

/-- skip_string_comment as a function of the ignore tables and the position:
binary-search the start offsets, take the entry one *before* the insertion
point (hence the greatest start strictly below pos), and jump to its end
when pos is below it. -/
def skip_ignore (igs : List Nat) (igr : List (Nat × Nat)) (pos : Nat) : Nat :=
  let hi := igs.length
  if hi = 0 then pos
  else
    let left := bisect_left_nat igs pos
    if left = 0 then pos
    else
      let r := igr.getD (left - 1) (0, 0)
      if pos < r.2 then r.2 else pos

def skip_string_comment (t : SourceTables) (pos : Nat) : Nat :=
  skip_ignore t.ignore_starts t.ignore_ranges pos

/-! ## _init_bracket_analysis (lines 239-273) -/

def AllSymbols : List Char :=
  [';', ':', '<', '>', lcurly, rcurly, '[', ']', '(', ')', '|']

def skip_chars : List Char := [' ', '\t', '\r', '\n']

def open_brackets : List Char := ['(', '[', lcurly]

def end_brackets : List (Char × Char) := [(')', '('), (']', '['), (rcurly, lcurly)]

structure ScanState where
  bracket_stack : List (Char × List (Char × Nat))
  pairs : List (Char × Nat × Nat)
  poses : List (Char × List Nat)
deriving DecidableEq

def scan_init : ScanState :=
  ⟨[('(', []), ('[', []), (lcurly, [])], [], AllSymbols.map (fun c => (c, []))⟩

/-- One forward scan over the raw source.  Whitespace advances without a
comment skip (the `continue` branch); any other character is recorded in
the symbol index when tracked, pushes/pops the per-kind bracket stacks, and
is followed by `pos += 1` plus a skip_string_comment.  Returns the final
state together with the final scan position. -/
def scan_aux (source : List Char) (igs : List Nat) (igr : List (Nat × Nat)) :
    Nat → Nat → ScanState → Except PyErr (ScanState × Nat)
  | 0, pos, st => Except.ok (st, pos)
  | fuel + 1, pos, st =>
    if pos < source.length then
      let val := charAt source pos
      if skip_chars.contains val then
        scan_aux source igs igr fuel (pos + 1) st
      else
        let st1 :=
          if (assoc_get? st.poses val).isSome then
            { st with poses := assoc_modify st.poses val (fun l => l ++ [pos]) }
          else st
        if open_brackets.contains val then
          let st2 := { st1 with
            bracket_stack := assoc_modify st1.bracket_stack val (fun l => l ++ [(val, pos)]) }
          scan_aux source igs igr fuel (skip_ignore igs igr (pos + 1)) st2
        else
          match assoc_get? end_brackets val with
          | some ek =>
            match assoc_get? st1.bracket_stack ek with
            | some stk =>
              match stk.getLast? with
              | none => Except.error (PyErr.unbalanced_bracket val pos)
              | some sp =>
                let st2 := { st1 with
                  bracket_stack := assoc_modify st1.bracket_stack ek (fun l => l.dropLast),
                  pairs := st1.pairs ++ [(sp.1, sp.2, pos)] }
                scan_aux source igs igr fuel (skip_ignore igs igr (pos + 1)) st2
            | none => Except.error (PyErr.unbalanced_bracket val pos)
          | none =>
            scan_aux source igs igr fuel (skip_ignore igs igr (pos + 1)) st1
    else Except.ok (st, pos)

/-- _init_bracket_analysis: run the scan from skip_string_comment(0) and then
assert every bracket stack is empty.  Also reports the final scan position
(the value of self.pos after __init__ reaches line 141). -/
def _init_bracket_analysis (source : List Char) (igs : List Nat) (igr : List (Nat × Nat)) :
    Except PyErr ((List (Char × Nat × Nat) × List (Char × List Nat)) × Nat) :=
  match scan_aux source igs igr (source.length + 1) (skip_ignore igs igr 0) scan_init with
  | Except.error e => Except.error e
  | Except.ok (st, pos) =>
    match st.bracket_stack.find? (fun kv => !kv.2.isEmpty) with
    | some kv => Except.error (PyErr.unbalanced_end kv.1)
    | none => Except.ok ((st.pairs, st.poses), pos)

/-- __init__ lines 100-143: token tables, ignore tables, both identifier
orders, the bracket scan and the sorted pair table. -/
def mkSourceTables (source : List Char) : Except PyErr (SourceTables × Nat) :=
  let tokens := cpp_simple_tokenize source
  let metas0 := identifier_metas_of tokens
  let igr := ignore_ranges_of tokens
  let igs := igr.map (fun r => r.1)
  let metas := py_sort (fun a b => str_le a.name b.name) metas0
  let identifiers := metas.map (fun m => m.name)
  let metas_ss := py_sort (fun a b => decide (a.start ≤ b.start)) metas
  let ident_starts := metas_ss.map (fun m => m.start)
  match _init_bracket_analysis source igs igr with
  | Except.error e => Except.error e
  | Except.ok ((pairs, poses), pos) =>
    Except.ok ({ source := source, tokens := tokens, identifier_metas := metas,
                 identifiers := identifiers, ignore_ranges := igr, ignore_starts := igs,
                 identifier_metas_start_sorted := metas_ss, identifier_starts := ident_starts,
                 length := source.length,
                 bracket_pairs := py_sort (fun a b => decide (a.2.1 ≤ b.2.1)) pairs,
                 symbol_to_poses := poses }, pos)

/-- The dict identifier_start_to_meta (starts are distinct, so a positional
find matches the dict built from the name-sorted metas). -/
def identifier_start_to_meta (t : SourceTables) (p : Nat) : Option IdentifierMeta :=
  t.identifier_metas.find? (fun m => m.start == p)

/-- The dict _start_to_bracket_pair (pair start positions are distinct). -/
def _start_to_bracket_pair (t : SourceTables) (p : Nat) : Option (Char × Nat × Nat) :=
  t.bracket_pairs.find? (fun pr => pr.2.1 == p)

/-! ## Range queries (lines 152-164, 44-59, 321-324, 485-498) -/

def find_symbols_in_range (t : SourceTables) (sym : Char) (start : Nat) (stop? : Option Nat) :
    Except PyErr (List Nat) :=
  match assoc_get? t.symbol_to_poses sym with
  | none => Except.error (PyErr.key_error sym)
  | some poses =>
    let start_idx := bisect_left_nat poses start
    match stop? with
    | some e => Except.ok ((poses.drop start_idx).take (bisect_left_nat poses e - start_idx))
    | none => Except.ok (poses.drop start_idx)

def find_identifier_range (t : SourceTables) (start stop : Nat) :
    Except PyErr (List IdentifierMeta) :=
  if stop ≤ start then Except.error PyErr.assertion_error
  else
    let hi := t.identifiers.length
    if hi = 0 then Except.ok []
    else
      let left := bisect_left_nat t.identifier_starts start
      if left = hi then Except.ok []
      else
        Except.ok ((t.identifier_metas_start_sorted.drop left).takeWhile
          (fun m => decide (start ≤ m.start) && decide (m.stop ≤ stop)))

def find_list_str_prefix (data : List (List Char)) (pfx : List Char) (full_match : Bool) :
    List Nat :=
  let hi := data.length
  if hi = 0 then []
  else
    let left := bisect_left_str data pfx
    if left = hi then []
    else
      List.range' left
        ((data.drop left).takeWhile
          (fun s => if full_match then s == pfx else pfx.isPrefixOf s)).length

def find_identifier_prefix (t : SourceTables) (pfx : List Char) (full_match : Bool) :
    List IdentifierMeta :=
  ( find_list_str_prefix t.identifiers pfx full_match).map
    (fun i => t.identifier_metas.getD i default)

/-! ## Cursor navigation primitives (lines 432-477) -/

/-- The whitespace walk shared by next_identifier: note that
skip_string_comment is applied once, at entry, and never inside the loop. -/
def next_identifier_walk (t : SourceTables) : Nat → Nat → Option IdentifierMeta × Nat
  | 0, pos => (none, pos)
  | fuel + 1, pos =>
    if pos < t.length then
      let val := charAt t.source pos
      if skip_chars.contains val then next_identifier_walk t fuel (pos + 1)
      else
        match identifier_start_to_meta t pos with
        | some m => (some m, m.stop)
        | none => (none, pos)
    else (none, pos)

def next_identifier (t : SourceTables) (pos : Nat) : Option IdentifierMeta × Nat :=
  next_identifier_walk t (t.length + 1) (skip_string_comment t pos)

def next_semicolon_walk (t : SourceTables) : Nat → Nat → Option Nat × Nat
  | 0, pos => (none, pos)
  | fuel + 1, pos =>
    if pos < t.length then
      let val := charAt t.source pos
      if skip_chars.contains val then next_semicolon_walk t fuel (pos + 1)
      else if val = ';' then (some pos, pos)
      else (none, pos)
    else (none, pos)

def next_semicolon (t : SourceTables) (pos : Nat) : Option Nat × Nat :=
  next_semicolon_walk t (t.length + 1) (skip_string_comment t pos)

def next_bracket_walk (t : SourceTables) (bracket : Char) :
    Nat → Nat → Except PyErr (Option (Nat × Nat) × Nat)
  | 0, pos => Except.ok (none, pos)
  | fuel + 1, pos =>
    if pos < t.length then
      let val := charAt t.source pos
      if skip_chars.contains val then next_bracket_walk t bracket fuel (pos + 1)
      else if val == bracket then
        match _start_to_bracket_pair t pos with
        | some pr => Except.ok (some (pos, pr.2.2), pr.2.2 + 1)
        | none => Except.error (PyErr.missing_pair pos)
      else Except.ok (none, pos)
    else Except.ok (none, pos)

def next_bracket (t : SourceTables) (bracket : Char) (pos : Nat) :
    Except PyErr (Option (Nat × Nat) × Nat) :=
  next_bracket_walk t bracket (t.length + 1) (skip_string_comment t pos)

def next_curly (t : SourceTables) (pos : Nat) : Except PyErr (Option (Nat × Nat) × Nat) :=
  next_bracket t lcurly pos

def next_round (t : SourceTables) (pos : Nat) : Except PyErr (Option (Nat × Nat) × Nat) :=
  next_bracket t '(' pos

/-! ## Template detection (lines 205-222 and 347-363, identical blocks) -/

/-- Backward template heuristic, shared verbatim by find_all_class_def and
 find_function_prefix: only when a previous `;` or a previous closing curly
exists, search the identifiers between the last such boundary and the
keyword for a `template` token.  Python initialises the candidate positions
to -1; since the guard requires at least one of the two lists to be
nonempty, taking 0 as the default of the other preserves the maximum. -/
def detect_template (t : SourceTables) (meta_start : Nat) : Except PyErr Bool := do
  let prev_semis ← find_symbols_in_range t ';' 0 (some (meta_start - 1))
  let prev_curly_ends ← find_symbols_in_range t rcurly 0 (some (meta_start - 1))
  if prev_semis.isEmpty && prev_curly_ends.isEmpty then pure false
  else do
    let pos := (prev_semis.getLastD 0).max (prev_curly_ends.getLastD 0)
    let idens ← find_identifier_range t pos (meta_start - 1)
    pure (idens.any (fun im => im.name == "template".toList))

/-! ## find_all_class_def (lines 179-237) -/

def inherit_kw : List (List Char) :=
  ["private".toList, "public".toList, "protected".toList]

/-- The loop body of find_all_class_def for one class/struct keyword
occurrence: locate the next recorded curly and semicolon, skip forward
declarations, resolve the body pair, detect template-ness, and extract the
class name from the identifiers between the keyword and the body. -/
def process_class_meta (t : SourceTables) (meta : IdentifierMeta) :
    Except PyErr (Option ClassDef) := do
  let next_curlys ← find_symbols_in_range t lcurly meta.stop none
  match next_curlys.head? with
  | none => pure none
  | some nc => do
    let next_semis ← find_symbols_in_range t ';' meta.stop none
    match next_semis.head? with
    | none => pure none
    | some nsemi =>
      if nsemi < nc then pure none
      else do
        let pr ← match _start_to_bracket_pair t nc with
          | some pr => pure pr
          | none => Except.error (PyErr.missing_pair nc)
        let is_template ← detect_template t meta.start
        let idens ← find_identifier_range t meta.stop nc
        if idens.isEmpty then pure none
        else
          let name :=
            if 3 ≤ idens.length
                && inherit_kw.contains ((idens.getD (idens.length - 2) default).name) then
              (idens.getD (idens.length - 3) default).name
            else (idens.getLastD default).name
          pure (some ⟨name, meta.start, nc, pr.2.2, [], is_template⟩)

/-- The keyword occurrences scanned by find_all_class_def, in loop order:
all `class` metas followed by all `struct` metas. -/
def class_struct_metas (t : SourceTables) : List IdentifierMeta :=
  find_identifier_prefix t ("class".toList) true
    ++ find_identifier_prefix t ("struct".toList) true

def find_all_class_def_results (t : SourceTables) : Except PyErr (List ClassDef) :=
  exceptFilterMap (process_class_meta t) (class_struct_metas t)

/-- The cursor left behind by the find_all_class_def loop: each iteration
performs reset_bracket_count().move(meta.end) before its (pure) body, and
the pass never restores state, so afterwards the cursor sits at the end of
the last keyword occurrence with zeroed counters, or is untouched when
there is none.  On an exception the generator propagates it and the cursor
value is never observed (construction fails). -/
def class_scan_cursor (t : SourceTables) (cur : Cursor) : Cursor :=
  match (class_struct_metas t).getLast? with
  | none => cur
  | some m => reset_move m.stop

def find_all_class_def (t : SourceTables) (cur : Cursor) :
    Except PyErr (List ClassDef × Cursor) :=
  (find_all_class_def_results t).map (fun res => (res, class_scan_cursor t cur))

/-! ## get_namespace_ranges (lines 275-298) -/

/-- One `namespace` keyword occurrence: read the following identifier as the
name, then the next curly pair as the range. -/
def namespace_range_one (t : SourceTables) (meta : IdentifierMeta) :
    Except PyErr (Option (List Char × Nat × Nat)) := do
  let (iden?, _) := next_identifier t meta.stop
  match iden? with
  | none => pure none
  | some iden_meta => do
    let (pair?, _) ← next_curly t iden_meta.stop
    match pair? with
    | none => pure none
    | some pair =>
      match _start_to_bracket_pair t pair.1 with
      | none => pure none
      | some pr => pure (some (iden_meta.name, pair.1, pr.2.2))

def get_namespace_ranges_results (t : SourceTables) (class_defs : List ClassDef) :
    Except PyErr (List (List Char × Nat × Nat)) := do
  let res ← exceptFilterMap (namespace_range_one t)
    ( find_identifier_prefix t ("namespace".toList) true)
  pure (res ++ class_defs.map (fun c => (c.name, c.body_start, c.body_end)))

/-- get_namespace_ranges snapshots the cursor at entry and restores it
before returning, so the incoming cursor is returned unchanged. -/
def get_namespace_ranges (t : SourceTables) (class_defs : List ClassDef) (cur : Cursor) :
    Except PyErr (List (List Char × Nat × Nat) × Cursor) :=
  (get_namespace_ranges_results t class_defs).map (fun r => (r, cur))

/-! ## _update_class_def_namespace (lines 166-177) -/

/-- Python "::".join. -/
def join_colon (xs : List (List Char)) : List Char :=
  List.intercalate [':', ':'] xs

def _update_one (namespace_ranges : List (List Char × Nat × Nat)) (cdef : ClassDef) :
    ClassDef :=
  let namespaces := (namespace_ranges.filter
    (fun ns => decide (ns.2.1 < cdef.body_start) && decide (cdef.body_end < ns.2.2))).map
    (fun ns => ns.1)
  { cdef with local_id := join_colon (namespaces ++ [cdef.name]) }

/-- Fills local_id on every ClassDef (mutation of the shared objects) and
builds the local_id -> ClassDef dict, later entries overwriting earlier
ones. -/
def _update_class_def_namespace (class_defs : List ClassDef)
    (namespace_ranges : List (List Char × Nat × Nat)) :
    List ClassDef × List (List Char × ClassDef) :=
  let updated := class_defs.map (_update_one namespace_ranges)
  (updated, updated.foldl (fun d c => assoc_set d c.local_id c) [])

/-! ## CppSourceIterator construction (__init__ lines 97-150) -/

structure CppSourceIterator where
  tables : SourceTables
  _class_defs : List ClassDef
  _namespace_ranges : List (List Char × Nat × Nat)
  local_id_to_cdef : List (List Char × ClassDef)
deriving DecidableEq

def construct (source : List Char) : Except PyErr (CppSourceIterator × Cursor) := do
  let (t, scan_pos) ← mkSourceTables source
  let (cdefs, cur1) ← find_all_class_def t (reset_move scan_pos)
  let (ns0, cur2) ← get_namespace_ranges t cdefs cur1
  let ns := py_sort (fun a b => decide (a.2.1 ≤ b.2.1)) ns0
  let (cdefs2, table) := _update_class_def_namespace cdefs ns
  pure ({ tables := t, _class_defs := cdefs2, _namespace_ranges := ns,
          local_id_to_cdef := table }, cur2)

/-! ## find_function_prefix (lines 326-393) -/

def func_attr_kw : List (List Char) :=
  ["const".toList, "override".toList, "final".toList]

/-- Line 374 tests `iden not in func_attr_kw` where `iden` is the
IdentifierMeta object returned by next_identifier while func_attr_kw holds
strings; CPython falls back to default identity-based equality between an
IdentifierMeta instance and a str, which is never equal, so the membership
test is False for every trailing identifier. -/
def meta_in_func_attr_kw (_iden : IdentifierMeta) (_kws : List (List Char)) : Bool :=
  false

/-- Loop body of find_function_prefix for one matched identifier. -/
def find_function_prefix_one (it : CppSourceIterator) (find_after decl_only : Bool)
    (meta0 : IdentifierMeta) : Except PyErr (Option FunctionDef) := do
  let t := it.tables
  let meta? : Option IdentifierMeta :=
    if find_after then (next_identifier t meta0.stop).1 else some meta0
  match meta? with
  | none => pure none
  | some meta => do
    let (round_pair?, posR) ← next_round t meta.stop
    match round_pair? with
    | none => pure none
    | some round_pair => do
      let is_template ← detect_template t meta.start
      let namespaces := (it._namespace_ranges.filter
        (fun ns => decide (ns.2.1 < meta.start) && decide (meta.stop < ns.2.2))).map
        (fun ns => ns.1)
      let func_id := join_colon (namespaces ++ [meta.name])
      let (iden?, posI) := next_identifier t posR
      let disqualified := match iden? with
        | some iden => !(meta_in_func_attr_kw iden func_attr_kw)
        | none => false
      if disqualified then pure none
      else do
        let (curly?, posC) ← next_curly t posI
        match curly? with
        | none =>
          if decl_only then
            match (next_semicolon t posC).1 with
            | some _ => pure (some ⟨meta.name, meta.start, round_pair.1, round_pair.2,
                -1, -1, func_id, is_template⟩)
            | none => pure none
          else pure none
        | some curly_pair =>
          pure (some ⟨meta.name, meta.start, round_pair.1, round_pair.2,
            (curly_pair.1 : Int), (curly_pair.2 : Int), func_id, is_template⟩)

def find_function_prefix_results (it : CppSourceIterator) (pfx : List Char)
    (find_after full_match decl_only : Bool) : Except PyErr (List FunctionDef) :=
  exceptFilterMap (find_function_prefix_one it find_after decl_only)
    ( find_identifier_prefix it.tables pfx full_match)

/-- find_function_prefix snapshots and restores the cursor, so the incoming
cursor is returned unchanged next to the result list. -/
def find_function_prefix (it : CppSourceIterator) (pfx : List Char)
    (find_after full_match decl_only : Bool) (cur : Cursor) :
    Except PyErr (List FunctionDef × Cursor) :=
  ( find_function_prefix_results it pfx find_after full_match decl_only).map
    (fun res => (res, cur))

/-! ## find_marked_identifier (lines 395-410) -/

def find_marked_identifier_results (it : CppSourceIterator) (mark : List Char) :
    List (List Char × List Char) :=
  ( find_identifier_prefix it.tables mark true).filterMap fun meta0 =>
    match (next_identifier it.tables meta0.stop).1 with
    | none => none
    | some meta =>
      let namespaces := (it._namespace_ranges.filter
        (fun ns => decide (ns.2.1 < meta.start) && decide (meta.start < ns.2.2))).map
        (fun ns => ns.1)
      some (meta.name, join_colon namespaces)

def find_marked_identifier (it : CppSourceIterator) (mark : List Char) (cur : Cursor) :
    List (List Char × List Char) × Cursor :=
  (find_marked_identifier_results it mark, cur)

/-! ## core.py _parse_sources_get_pybind (lines 179-261): the class/method
collection loop that the pybind code generation consumes.  Python dicts
with nested mutated lists become insertion-ordered association lists. -/

/-- Python str.split("::"): leftmost non-overlapping split. -/
def split_colons : List Char → List (List Char)
  | [] => [[]]
  | ':' :: ':' :: rest => [] :: split_colons rest
  | c :: rest =>
    match split_colons rest with
    | [] => [[c]]
    | g :: gs => (c :: g) :: gs

/-- The per-class record held in the `classes` dict. -/
structure ClassInfo where
  inits : List (List Char)
  methods : List (List Char)
  public_props : List (List Char)
  is_template : Bool
  is_shared : Bool
deriving DecidableEq

def cls_local_id_of (cdef : ClassDef) : List Char :=
  if cdef.is_template then cdef.local_id ++ ['<', '>'] else cdef.local_id

/-- Loop over all_cls_init_defs: resolve the enclosing class (assert it is
known), create its entry on first sight, and append "cls::ctor" to inits. -/
def parse_init_def (it : CppSourceIterator) (classes : List (List Char × ClassInfo))
    (init_def : FunctionDef) (is_shared : Bool) :
    Except PyErr (List (List Char × ClassInfo)) := do
  let parts := split_colons init_def.local_id
  let ns_func_id := join_colon parts.dropLast
  match assoc_get? it.local_id_to_cdef ns_func_id with
  | none => Except.error PyErr.assertion_error
  | some cdef => do
    let cls_local_id := cls_local_id_of cdef
    let classes :=
      if (assoc_get? classes cls_local_id).isSome then classes
      else assoc_set classes cls_local_id ⟨[], [], [], cdef.is_template, is_shared⟩
    let func_name := parts.getLastD []
    pure (assoc_modify classes cls_local_id
      (fun ci => { ci with inits := ci.inits ++ [cls_local_id ++ [':', ':'] ++ func_name] }))

/-- Loop over all_func_defs: free functions (no "::" or unknown parent) go
to outside_methods, class methods are appended to their class entry, which
must already exist. -/
def parse_func_def (it : CppSourceIterator) (classes : List (List Char × ClassInfo))
    (outside : List (List Char × Bool)) (func_def : FunctionDef) :
    Except PyErr (List (List Char × ClassInfo) × List (List Char × Bool)) := do
  let func_id := func_def.local_id
  let parts := split_colons func_id
  if parts.length = 1 then
    pure (classes, outside ++ [(func_id, func_def.is_template)])
  else
    let ns_func_id := join_colon parts.dropLast
    match assoc_get? it.local_id_to_cdef ns_func_id with
    | none => pure (classes, outside ++ [(func_id, func_def.is_template)])
    | some cdef => do
      let cls_local_id := cls_local_id_of cdef
      if (assoc_get? classes cls_local_id).isNone then Except.error PyErr.assertion_error
      else
        let func_name := parts.getLastD []
        pure (assoc_modify classes cls_local_id
          (fun ci => { ci with methods := ci.methods ++ [cls_local_id ++ [':', ':'] ++ func_name] }),
          outside)

/-- Loop over all_marked_props: unknown enclosing ids are printed and
dropped; known ones must already have a class entry and gain the prop. -/
def parse_prop (it : CppSourceIterator) (classes : List (List Char × ClassInfo))
    (prop : List Char × List Char) : Except PyErr (List (List Char × ClassInfo)) := do
  match assoc_get? it.local_id_to_cdef prop.2 with
  | none => pure classes
  | some cdef => do
    let cls_local_id := cls_local_id_of cdef
    if (assoc_get? classes cls_local_id).isNone then Except.error PyErr.assertion_error
    else
      pure (assoc_modify classes cls_local_id
        (fun ci => { ci with public_props := ci.public_props ++ [prop.1] }))

/-- The body of the `for path in source_paths` loop for one source text.
Returns the updated classes dict and outside_methods list, and whether this
source contains an export marker. -/
def parse_one_source (classes0 : List (List Char × ClassInfo))
    (outside0 : List (List Char × Bool))
    (export_kw export_init_kw export_init_shared_kw export_prop_kw : List Char)
    (source : List Char) :
    Except PyErr (List (List Char × ClassInfo) × List (List Char × Bool) × Bool) := do
  let (it, cur) ← construct source
  let (all_func_defs, cur) ← find_function_prefix it export_kw true true true cur
  let (init_defs, cur) ← find_function_prefix it export_init_kw true true true cur
  let (shared_init_defs, cur) ← find_function_prefix it export_init_shared_kw true true true cur
  let all_cls_init_defs :=
    init_defs.map (fun d => (d, false)) ++ shared_init_defs.map (fun d => (d, true))
  let (all_marked_props, _) := find_marked_identifier it export_prop_kw cur
  let has_export := !all_func_defs.isEmpty || !all_cls_init_defs.isEmpty
  let classes ← all_cls_init_defs.foldlM
    (fun classes p => parse_init_def it classes p.1 p.2) classes0
  let co ← all_func_defs.foldlM
    (fun (co : List (List Char × ClassInfo) × List (List Char × Bool)) d =>
      parse_func_def it co.1 co.2 d) (classes, outside0)
  let classes ← all_marked_props.foldlM (fun classes p => parse_prop it classes p) co.1
  if classes.all (fun kv => !kv.2.inits.isEmpty) then
    pure (classes, co.2, has_export)
  else Except.error PyErr.assertion_error

/-- _parse_sources_get_pybind restricted to its data-collection result: the
classes dict, the outside_methods list and the indices of sources that
contain an export marker (path_has_export).  The pybind code lines are
string templating over exactly these values. -/
def _parse_sources_get_pybind
    (sources : List (List Char))
    (export_kw export_init_kw export_init_shared_kw export_prop_kw : List Char) :
    Except PyErr (List (List Char × ClassInfo) × List (List Char × Bool) × List Nat) := do
  let r ← sources.foldlM
    (fun (acc : List (List Char × ClassInfo) × List (List Char × Bool) × List Nat × Nat) src => do
      let (classes, outside, paths, i) := acc
      let (classes, outside, has_export) ← parse_one_source classes outside
        export_kw export_init_kw export_init_shared_kw export_prop_kw src
      pure (classes, outside, if has_export then paths ++ [i] else paths, i + 1))
    ([], [], [], 0)
  pure (r.1, r.2.1, r.2.2.1)

/-! ## Specification-side vocabulary used to state the claims -/

def chars (s : String) : List Char := s.toList

/-- The first recorded occurrence of a tracked symbol at or after a
position, read off the (position-sorted) symbol-occurrence index. -/
def first_symbol_from (t : SourceTables) (sym : Char) (p : Nat) : Option Nat :=
  (((assoc_get? t.symbol_to_poses sym).getD []).dropWhile (fun q => decide (q < p))).head?

/-- The identifier occurrences lying entirely inside [a, b], in position
order. -/
def identifiers_between (t : SourceTables) (a b : Nat) : List IdentifierMeta :=
  t.identifier_metas_start_sorted.filter
    (fun m => decide (a ≤ m.start) && decide (m.stop ≤ b))

/-- The condition under which find_all_class_def trips the
`assert end > start` of find_identifier_range during construction: the
first recorded curly after the class/struct keyword begins exactly at the
keyword's end while a semicolon also follows. -/
def class_assert_cond (t : SourceTables) (m : IdentifierMeta) : Bool :=
  first_symbol_from t lcurly m.stop == some m.stop
    && (first_symbol_from t ';' m.stop).isSome


/-- The class-name selection applied to the identifiers between the
keyword and the body start: the last identifier, or the third-from-last
when an inheritance keyword precedes the base-class name. -/
def class_name_of (idens : List IdentifierMeta) : List Char :=
  if 3 ≤ idens.length
      && inherit_kw.contains ((idens.getD (idens.length - 2) default).name) then
    (idens.getD (idens.length - 3) default).name
  else (idens.getLastD default).name

/-- A position strictly inside an ignore range (excluded endpoints). -/
def StrictInside (igr : List (Nat × Nat)) (p : Nat) : Prop :=
  ∃ r ∈ igr, r.1 < p ∧ p < r.2

/-- A position covered by an ignore range [start, end). -/
def InIgnore (igr : List (Nat × Nat)) (p : Nat) : Prop :=
  ∃ r ∈ igr, r.1 ≤ p ∧ p < r.2

/-! ## Concrete sources used by the claims -/

def c1src : List Char := chars "class A \x7b\x7d"

def c2src : List Char := chars "int f_add(int a) const \x7b return a; \x7d"

def c3src : List Char := chars "template <class T> T MARK_add(T a, T b) \x7b return a + b; \x7d"

def c4src : List Char := chars "class A\x7b\x7d;"

def c5src : List Char := chars "class\x7b\x7d;"

def c7src : List Char := chars "a /*c*/ \x7b\x7d"

def c8src : List Char :=
  chars "class Outer \x7b namespace inner \x7b class Inner \x7b int x; \x7d; \x7d \x7d;"

/-- The namespace/class ranges of c8src as discovered, before the sort by
start position: the `namespace inner` range followed by the class body
ranges of Outer and Inner, in discovery order. -/
def c8_discovered_ranges : List (List Char × Nat × Nat) :=
  [(chars "inner", 30, 56), (chars "Outer", 12, 58), (chars "Inner", 44, 53)]

/-- The Inner ClassDef as it exists before qualified-name resolution. -/
def c8_inner_cdef : ClassDef := ⟨chars "Inner", 32, 44, 53, [], false⟩

def c9src : List Char :=
  chars "class Foo \x7b public: CODEAI_EXPORT_INIT Foo(int); int CODEAI_EXPORT add(int); \x7d;"

/-- The iterator produced by constructing the empty source. -/
def empty_iter : CppSourceIterator :=
  ⟨⟨[], [], [], [], [], [], [], [], 0, [], AllSymbols.map (fun c => (c, []))⟩, [], [], []⟩

/-- The ignore range that strictly contains a position, when there is one
(the ranges are disjoint, so it is unique). -/
def find_strict_range (igr : List (Nat × Nat)) (p : Nat) : Option (Nat × Nat) :=
  igr.find? (fun r => decide (r.1 < p) && decide (p < r.2))

/-- The tables of a source whose construction is known to succeed (falling
back to the empty tables otherwise); used to state concrete witnesses. -/
def tables_of (src : List Char) : SourceTables :=
  match mkSourceTables src with
  | Except.ok tp => tp.1
  | Except.error _ => empty_iter.tables

/-- The iterator of a source whose construction is known to succeed
(falling back to the empty iterator otherwise). -/
def iter_of (src : List Char) : CppSourceIterator :=
  match construct src with
  | Except.ok p => p.1
  | Except.error _ => empty_iter

/-! ## Scan-state vocabulary used by the invariant lemmas -/

/-- The characters that can begin a comment or string/char-literal token. -/
def ignore_start_chars : List Char := ['/', squote, dquote, 'u', 'U', 'L', 'R']

/-- The recorded occurrence list of a tracked symbol in a scan state. -/
def poses_of (st : ScanState) (c : Char) : List Nat :=
  (assoc_get? st.poses c).getD []

/-- The pending open-bracket stack of one bracket kind in a scan state. -/
def stack_of (st : ScanState) (c : Char) : List (Char × Nat) :=
  (assoc_get? st.bracket_stack c).getD []

/-- The invariant maintained by the bracket/symbol scan of
_init_bracket_analysis: the two dicts keep their initial key sets; every
recorded occurrence lies before the scan position, inside the source,
carries the character it was recorded under, and is outside every ignore
range; each per-symbol occurrence list is strictly increasing; and every
recorded open-bracket occurrence is either already matched in the pair
list or still pending on its kind's stack. -/
def ScanInv (src : List Char) (igr : List (Nat × Nat)) (pos : Nat) (st : ScanState) : Prop :=
  st.poses.map Prod.fst = AllSymbols ∧
  st.bracket_stack.map Prod.fst = open_brackets ∧
  (∀ c, ∀ p ∈ poses_of st c,
    p < pos ∧ p < src.length ∧ charAt src p = c ∧ ¬ InIgnore igr p) ∧
  (∀ c, (poses_of st c).Pairwise (fun a b => a < b)) ∧
  (∀ c, c ∈ open_brackets → ∀ p ∈ poses_of st c,
    (∃ pr ∈ st.pairs, pr.2.1 = p) ∨ ∃ v, (v, p) ∈ stack_of st c)

end CcImport

deriving instance DecidableEq for Except

namespace CcImport

set_option maxRecDepth 100000
set_option synthInstance.maxSize 1000

/-! ## Theorems -/

/-! ### Basic lemmas about the loop combinators -/

theorem exceptFilterMap_all_ok {f : α → Except ε (Option β)} :
    ∀ {l : List α} {r : List β}, exceptFilterMap f l = Except.ok r →
      ∀ a ∈ l, ∃ o, f a = Except.ok o := by
  intro l
  induction l with
  | nil => intro r _ a ha; cases ha
  | cons x xs ih =>
    intro r h a ha
    rw [exceptFilterMap] at h
    rcases List.mem_cons.mp ha with ha | ha
    · subst ha
      cases hfx : f a with
      | error e => rw [hfx] at h; cases h
      | ok o => exact ⟨o, rfl⟩
    · cases hfx : f x with
      | error e => rw [hfx] at h; cases h
      | ok o =>
        rw [hfx] at h
        cases o with
        | none => exact ih h a ha
        | some b =>
          cases hrest : exceptFilterMap f xs with
          | error e => rw [hrest] at h; cases h
          | ok bs => exact ih hrest a ha

theorem exceptFilterMap_ok_of_all {f : α → Except ε (Option β)} :
    ∀ {l : List α}, (∀ a ∈ l, ∃ o, f a = Except.ok o) →
      ∃ r, exceptFilterMap f l = Except.ok r := by
  intro l
  induction l with
  | nil => intro _; exact ⟨[], rfl⟩
  | cons x xs ih =>
    intro h
    obtain ⟨o, ho⟩ := h x (by simp)
    obtain ⟨r, hr⟩ := ih (fun a ha => h a (by simp [ha]))
    cases o with
    | none => exact ⟨r, by rw [exceptFilterMap, ho, hr]⟩
    | some b => exact ⟨b :: r, by rw [exceptFilterMap, ho, hr]⟩

theorem exceptFilterMap_mem {f : α → Except ε (Option β)} :
    ∀ {l : List α} {r : List β}, exceptFilterMap f l = Except.ok r →
      ∀ b ∈ r, ∃ a ∈ l, f a = Except.ok (some b) := by
  intro l
  induction l with
  | nil =>
    intro r h b hb
    rw [exceptFilterMap] at h
    cases h; cases hb
  | cons x xs ih =>
    intro r h b hb
    rw [exceptFilterMap] at h
    cases hfx : f x with
    | error e => rw [hfx] at h; cases h
    | ok o =>
      rw [hfx] at h
      cases o with
      | none =>
        obtain ⟨a, ha, hfa⟩ := ih h b hb
        exact ⟨a, by simp [ha], hfa⟩
      | some c =>
        cases hrest : exceptFilterMap f xs with
        | error e => rw [hrest] at h; cases h
        | ok bs =>
          rw [hrest] at h
          cases h
          rcases List.mem_cons.mp hb with hb | hb
          · subst hb
            exact ⟨x, by simp, hfx⟩
          · obtain ⟨a, ha, hfa⟩ := ih hrest b hb
            exact ⟨a, by simp [ha], hfa⟩

/-! ### The stable sort: permutation and sortedness -/

theorem ordered_insert_perm (le : α → α → Bool) (x : α) :
    ∀ l : List α, (ordered_insert le x l).Perm (x :: l) := by
  intro l
  induction l with
  | nil => rw [ordered_insert]
  | cons y ys ih =>
    rw [ordered_insert]
    by_cases h : le x y = true
    · rw [if_pos h]
    · rw [if_neg h]
      exact (ih.cons y).trans (List.Perm.swap x y ys)

theorem py_sort_perm (le : α → α → Bool) :
    ∀ l : List α, (py_sort le l).Perm l := by
  intro l
  induction l with
  | nil => rw [py_sort]
  | cons x xs ih =>
    rw [py_sort]
    exact (ordered_insert_perm le x (py_sort le xs)).trans (ih.cons x)

theorem pairwise_ordered_insert (le : α → α → Bool)
    (htr : ∀ a b c, le a b = true → le b c = true → le a c = true)
    (hto : ∀ a b, le a b = true ∨ le b a = true) (x : α) :
    ∀ l : List α, l.Pairwise (fun a b => le a b = true) →
      (ordered_insert le x l).Pairwise (fun a b => le a b = true) := by
  intro l
  induction l with
  | nil => intro _; simp [ordered_insert]
  | cons y ys ih =>
    intro h
    rw [ordered_insert]
    by_cases hxy : le x y = true
    · rw [if_pos hxy]
      refine List.Pairwise.cons ?_ h
      intro z hz
      rcases List.mem_cons.mp hz with hz | hz
      · exact hz ▸ hxy
      · exact htr x y z hxy (List.rel_of_pairwise_cons h hz)
    · rw [if_neg hxy]
      have hyx : le y x = true := (hto x y).resolve_left hxy
      refine List.Pairwise.cons ?_ (ih h.of_cons)
      intro z hz
      rcases List.mem_cons.mp ((ordered_insert_perm le x ys).mem_iff.mp hz) with hz | hz
      · exact hz ▸ hyx
      · exact List.rel_of_pairwise_cons h hz

theorem pairwise_py_sort (le : α → α → Bool)
    (htr : ∀ a b c, le a b = true → le b c = true → le a c = true)
    (hto : ∀ a b, le a b = true ∨ le b a = true) :
    ∀ l : List α, (py_sort le l).Pairwise (fun a b => le a b = true) := by
  intro l
  induction l with
  | nil => rw [py_sort]; exact List.Pairwise.nil
  | cons x xs ih => rw [py_sort]; exact pairwise_ordered_insert le htr hto x _ ih

/-! ### The Python string order -/

theorem str_lt_irrefl : ∀ a : List Char, str_lt a a = false := by
  intro a
  induction a with
  | nil => rfl
  | cons x xs ih => rw [str_lt]; simp [ih]

theorem str_lt_asymm : ∀ a b : List Char, str_lt a b = true → str_lt b a = false := by
  intro a
  induction a with
  | nil => intro b h; cases b <;> rfl
  | cons x xs ih =>
    intro b h
    cases b with
    | nil => cases h
    | cons y ys =>
      rw [str_lt] at h ⊢
      by_cases hxy : x < y
      · have hyx : ¬ y < x := lt_asymm hxy
        simp [hyx, hxy]
      · by_cases hyx : y < x
        · rw [if_neg hxy, if_pos hyx] at h
          cases h
        · rw [if_neg hxy, if_neg hyx] at h
          simp [hyx, hxy, ih ys h]

theorem str_lt_cotrans : ∀ a c : List Char, str_lt a c = true →
    ∀ b : List Char, str_lt a b = true ∨ str_lt b c = true := by
  intro a
  induction a with
  | nil =>
    intro c hc b
    cases c with
    | nil => cases hc
    | cons y ys =>
      cases b with
      | nil => right; exact hc
      | cons z zs => left; rfl
  | cons x xs ih =>
    intro c hc b
    cases c with
    | nil => cases hc
    | cons y ys =>
      cases b with
      | nil => right; rfl
      | cons z zs =>
        rw [str_lt] at hc
        by_cases hxz : x < z
        · left; rw [str_lt, if_pos hxz]
        · by_cases hzx : z < x
          · right
            by_cases hxy : x < y
            · rw [str_lt, if_pos (lt_trans hzx hxy)]
            · by_cases hyx : y < x
              · rw [if_neg hxy, if_pos hyx] at hc
                cases hc
              · have hzy : z < y := lt_of_lt_of_le hzx (le_of_not_lt hyx)
                rw [str_lt, if_pos hzy]
          · by_cases hxy : x < y
            · right
              have hzy : z < y := lt_of_le_of_lt (le_of_not_lt hxz) hxy
              rw [str_lt, if_pos hzy]
            · by_cases hyx : y < x
              · rw [if_neg hxy, if_pos hyx] at hc
                cases hc
              · rw [if_neg hxy, if_neg hyx] at hc
                rcases ih ys hc zs with h | h
                · left; rw [str_lt, if_neg hxz, if_neg hzx]; exact h
                · right
                  have hzy : ¬ z < y := fun hlt =>
                    hxy (lt_of_le_of_lt (le_of_not_lt hzx) hlt)
                  have hyz : ¬ y < z := fun hlt =>
                    hyx (lt_of_lt_of_le hlt (le_of_not_lt hxz))
                  rw [str_lt, if_neg hzy, if_neg hyz]; exact h

theorem str_le_total : ∀ a b : List Char, str_le a b = true ∨ str_le b a = true := by
  intro a b
  by_cases h : str_lt b a = true
  · right
    rw [str_le, str_lt_asymm b a h]
    rfl
  · left
    rw [str_le, eq_false_of_ne_true h]
    rfl

theorem str_le_trans : ∀ a b c : List Char,
    str_le a b = true → str_le b c = true → str_le a c = true := by
  intro a b c hab hbc
  rw [str_le, Bool.not_eq_true'] at hab hbc ⊢
  by_contra h
  rw [Bool.not_eq_false] at h
  rcases str_lt_cotrans c a h b with hcb | hba
  · rw [hcb] at hbc; cases hbc
  · rw [hba] at hab; cases hab

theorem str_le_antisymm : ∀ a b : List Char,
    str_le a b = true → str_le b a = true → a = b := by
  intro a
  induction a with
  | nil =>
    intro b hab hba
    cases b with
    | nil => rfl
    | cons y ys => rw [str_le, str_lt] at hba; cases hba
  | cons x xs ih =>
    intro b hab hba
    cases b with
    | nil => rw [str_le, str_lt] at hab; cases hab
    | cons y ys =>
      rw [str_le, Bool.not_eq_true'] at hab hba
      rw [str_lt] at hab hba
      by_cases hxy : x < y
      · rw [if_pos hxy] at hba; cases hba
      · by_cases hyx : y < x
        · rw [if_pos hyx] at hab; cases hab
        · have hx : x = y := le_antisymm (le_of_not_lt hyx) (le_of_not_lt hxy)
          rw [if_neg hyx, if_neg hxy] at hab
          rw [if_neg hxy, if_neg hyx] at hba
          have h1 : str_le xs ys = true := by rw [str_le, hab]; rfl
          have h2 : str_le ys xs = true := by rw [str_le, hba]; rfl
          rw [hx, ih ys h1 h2]

/-! ### takeWhile, dropWhile and bisect -/

theorem drop_length_takeWhile (p : α → Bool) :
    ∀ l : List α, l.drop (l.takeWhile p).length = l.dropWhile p := by
  intro l
  induction l with
  | nil => rfl
  | cons x xs ih =>
    by_cases h : p x = true
    · rw [List.takeWhile_cons, if_pos h, List.dropWhile_cons_of_pos h, List.length_cons,
        List.drop_succ_cons, ih]
    · rw [List.takeWhile_cons, if_neg h, List.dropWhile_cons_of_neg h]
      rfl

/-! ### Tokenizer: bounds, ordering, and first characters -/

theorem findSub_bound (pat : List Char) :
    ∀ cs i, findSub pat cs = some i → i + pat.length ≤ cs.length := by
  intro cs
  induction cs with
  | nil =>
    intro i h
    rw [findSub] at h
    by_cases hp : pat.isPrefixOf ([] : List Char) = true
    · rw [if_pos hp] at h
      cases h
      simpa using (List.isPrefixOf_iff_prefix.mp hp).length_le
    · rw [if_neg hp] at h; cases h
  | cons c tl ih =>
    intro i h
    rw [findSub] at h
    by_cases hp : pat.isPrefixOf (c :: tl) = true
    · rw [if_pos hp] at h
      cases h
      simpa using (List.isPrefixOf_iff_prefix.mp hp).length_le
    · rw [if_neg hp] at h
      cases hrec : findSub pat tl with
      | none => rw [hrec] at h; cases h
      | some j =>
        rw [hrec] at h
        cases h
        have := ih j hrec
        simp only [List.length_cons]
        omega

theorem matchEscape_bound :
    ∀ cs k, matchEscape cs = some k → 1 ≤ k ∧ k ≤ cs.length := by
  intro cs k h
  cases cs with
  | nil => cases h
  | cons c tl =>
    rw [matchEscape] at h
    by_cases h1 : simpleEscapeChars.contains c = true
    · rw [if_pos h1] at h
      cases h
      simp
    · rw [if_neg h1] at h
      by_cases h2 : isOctDigit c = true
      · rw [if_pos h2] at h
        cases h
        have := (List.takeWhile_prefix isOctDigit (l := tl)).length_le
        simp only [List.length_cons]
        omega
      · rw [if_neg h2] at h
        by_cases h3 : c = 'x'
        · rw [if_pos h3] at h
          by_cases h4 : min 2 (tl.takeWhile isHexDigit).length = 0
          · rw [if_pos h4] at h; cases h
          · rw [if_neg h4] at h
            cases h
            have := (List.takeWhile_prefix isHexDigit (l := tl)).length_le
            simp only [List.length_cons]
            omega
        · rw [if_neg h3] at h
          by_cases h5 : c = 'u'
          · rw [if_pos h5] at h
            by_cases h6 : ((tl.take 4).length = 4 && (tl.take 4).all isHexDigit) = true
            · rw [if_pos h6] at h
              cases h
              have h7 : (tl.take 4).length = 4 := by
                have := (Bool.and_eq_true _ _).mp h6
                exact_mod_cast by simpa using this.1
              have h8 : (tl.take 4).length ≤ tl.length := by
                simpa using (List.take_prefix 4 tl).length_le
              simp only [List.length_cons]
              omega
            · rw [if_neg h6] at h; cases h
          · rw [if_neg h5] at h
            by_cases h9 : c = 'U'
            · rw [if_pos h9] at h
              by_cases h6 : ((tl.take 8).length = 8 && (tl.take 8).all isHexDigit) = true
              · rw [if_pos h6] at h
                cases h
                have h7 : (tl.take 8).length = 8 := by
                  have := (Bool.and_eq_true _ _).mp h6
                  exact_mod_cast by simpa using this.1
                have h8 : (tl.take 8).length ≤ tl.length := by
                  simpa using (List.take_prefix 8 tl).length_le
                simp only [List.length_cons]
                omega
              · rw [if_neg h6] at h; cases h
            · rw [if_neg h9] at h; cases h

theorem litBody_bound (q : Char) (ae : Bool) :
    ∀ fuel seen cs k, litBody q ae fuel seen cs = some k → 1 ≤ k ∧ k ≤ cs.length := by
  intro fuel
  induction fuel with
  | zero => intro seen cs k h; cases h
  | succ fuel ih =>
    intro seen cs k h
    cases cs with
    | nil => cases h
    | cons c tl =>
      rw [litBody] at h
      by_cases h1 : c = q
      · rw [if_pos h1] at h
        by_cases h2 : (ae || seen) = true
        · rw [if_pos h2] at h
          cases h
          simp
        · rw [if_neg h2] at h; cases h
      · rw [if_neg h1] at h
        by_cases h3 : c = bslash
        · rw [if_pos h3] at h
          cases hesc : matchEscape tl with
          | none => simp only [hesc] at h; cases h
          | some ke =>
            cases hbody : litBody q ae fuel true (tl.drop ke) with
            | none => simp only [hesc, hbody] at h; cases h
            | some m =>
              simp only [hesc, hbody, Option.some.injEq] at h
              have he := matchEscape_bound tl ke hesc
              have hb := ih true (tl.drop ke) m hbody
              have hlen : (tl.drop ke).length = tl.length - ke := by simp
              simp only [List.length_cons]
              omega
        · rw [if_neg h3] at h
          by_cases h4 : (c = '\r' || c = '\n') = true
          · rw [if_pos h4] at h; cases h
          · rw [if_neg h4] at h
            cases hbody : litBody q ae fuel true tl with
            | none => simp only [hbody] at h; cases h
            | some m =>
              simp only [hbody, Option.some.injEq] at h
              have hb := ih true tl m hbody
              simp only [List.length_cons]
              omega

theorem matchQuotedLit_bound (q : Char) (ae : Bool) :
    ∀ cs k, matchQuotedLit q ae cs = some k → 1 ≤ k ∧ k ≤ cs.length := by
  intro cs k h
  obtain ⟨p, _, hp⟩ := List.exists_of_findSome?_eq_some h
  by_cases hpre : ((p ++ [q]).isPrefixOf cs) = true
  · rw [if_pos hpre] at hp
    simp only [] at hp
    cases hbody : litBody q ae ((cs.drop (p.length + 1)).length + 1) false
        (cs.drop (p.length + 1)) with
    | none => simp only [hbody] at hp; cases hp
    | some m =>
      simp only [hbody, Option.some.injEq] at hp
      subst hp
      have hb := litBody_bound q ae _ false _ m hbody
      have hlen : (cs.drop (p.length + 1)).length = cs.length - (p.length + 1) := by simp
      have hple : p.length + 1 ≤ cs.length := by
        have := (List.isPrefixOf_iff_prefix.mp hpre).length_le
        simpa using this
      omega
  · rw [if_neg hpre] at hp; cases hp

theorem matchRawString_bound :
    ∀ cs k, matchRawString cs = some k → 1 ≤ k ∧ k ≤ cs.length := by
  intro cs k h
  obtain ⟨p, _, hp⟩ := List.exists_of_findSome?_eq_some h
  by_cases hpre : ((p ++ ['R', dquote]).isPrefixOf cs) = true
  · rw [if_pos hpre] at hp
    simp only [] at hp
    cases hrest : (cs.drop (p.length + 2)).drop
        ((cs.drop (p.length + 2)).takeWhile isRawDelimChar).length with
    | nil => simp only [hrest] at hp; cases hp
    | cons c body =>
      simp only [hrest] at hp
      by_cases hc : c = '('
      · rw [if_pos hc] at hp
        cases hfind : findSub (')' :: ((cs.drop (p.length + 2)).takeWhile isRawDelimChar
            ++ [dquote])) body with
        | none => simp only [hfind] at hp; cases hp
        | some i =>
          simp only [hfind, Option.some.injEq] at hp
          subst hp
          have hfb := findSub_bound _ body i hfind
          have hple : p.length + 2 ≤ cs.length := by
            have := (List.isPrefixOf_iff_prefix.mp hpre).length_le
            simpa using this
          set rest := cs.drop (p.length + 2) with hrestdef
          set delim := rest.takeWhile isRawDelimChar with hdelimdef
          have hrl : rest.length = cs.length - (p.length + 2) := by simp [hrestdef]
          have hbody_len : body.length = rest.length - delim.length - 1 := by
            have : (rest.drop delim.length).length = rest.length - delim.length := by simp
            rw [hrest] at this
            simp at this
            omega
          have hdl : delim.length ≤ rest.length := by
            simpa using (List.takeWhile_prefix isRawDelimChar (l := rest)).length_le
          simp only [List.length_append, List.length_cons] at hfb
          omega
      · rw [if_neg hc] at hp; cases hp
  · rw [if_neg hpre] at hp; cases hp

theorem tryToken_bound :
    ∀ cs ty k, tryToken cs = some (ty, k) → 1 ≤ k ∧ k ≤ cs.length := by
  intro cs ty k h
  rw [tryToken] at h
  cases h1 : matchLineComment cs with
  | some k1 =>
    rw [h1] at h
    cases h
    cases cs with
    | nil => cases h1
    | cons c1 tl =>
      cases tl with
      | nil => cases h1
      | cons c2 tl2 =>
        rw [matchLineComment] at h1
        by_cases hcc : (c1 = '/' && c2 = '/') = true
        · rw [if_pos hcc] at h1
          cases h1
          have := (List.takeWhile_prefix (fun c => !(c = '\n')) (l := tl2)).length_le
          simp only [List.length_cons]
          omega
        · rw [if_neg hcc] at h1; cases h1
  | none =>
    rw [h1] at h
    cases h2 : matchBlockComment cs with
    | some k2 =>
      rw [h2] at h
      cases h
      cases cs with
      | nil => cases h2
      | cons c1 tl =>
        cases tl with
        | nil => cases h2
        | cons c2 tl2 =>
          rw [matchBlockComment] at h2
          by_cases hcc : (c1 = '/' && c2 = '*') = true
          · rw [if_pos hcc] at h2
            cases hf : findSub ['*', '/'] tl2 with
            | none => rw [hf] at h2; cases h2
            | some i =>
              rw [hf] at h2
              cases h2
              have := findSub_bound ['*', '/'] tl2 i hf
              simp only [List.length_cons] at this ⊢
              omega
          · rw [if_neg hcc] at h2; cases h2
    | none =>
      rw [h2] at h
      cases h3 : matchQuotedLit squote false cs with
      | some k3 =>
        rw [h3] at h
        cases h
        exact matchQuotedLit_bound squote false cs k h3
      | none =>
        rw [h3] at h
        cases h4 : matchQuotedLit dquote true cs with
        | some k4 =>
          rw [h4] at h
          cases h
          exact matchQuotedLit_bound dquote true cs k h4
        | none =>
          rw [h4] at h
          cases h5 : matchRawString cs with
          | some k5 =>
            rw [h5] at h
            cases h
            exact matchRawString_bound cs k h5
          | none =>
            rw [h5] at h
            cases h6 : matchIdentifier cs with
            | some k6 =>
              rw [h6] at h
              cases h
              cases cs with
              | nil => cases h6
              | cons c tl =>
                rw [matchIdentifier] at h6
                by_cases hid : isIdentStartChar c = true
                · rw [if_pos hid] at h6
                  cases h6
                  have := (List.takeWhile_prefix isIdentChar (l := tl)).length_le
                  simp only [List.length_cons]
                  omega
                · rw [if_neg hid] at h6; cases h6
            | none => rw [h6] at h; cases h

theorem matchQuotedLit_head (q : Char) (ae : Bool) (hq : q = squote ∨ q = dquote) :
    ∀ cs k, matchQuotedLit q ae cs = some k →
      ∃ c cs', cs = c :: cs' ∧ ignore_start_chars.contains c = true := by
  intro cs k h
  obtain ⟨p, hpmem, hp⟩ := List.exists_of_findSome?_eq_some h
  by_cases hpre : ((p ++ [q]).isPrefixOf cs) = true
  · obtain ⟨rest, hrest⟩ := List.isPrefixOf_iff_prefix.mp hpre
    fin_cases hpmem
    · exact ⟨'u', '8' :: q :: rest, by rw [← hrest]; rfl, by decide⟩
    · exact ⟨'u', q :: rest, by rw [← hrest]; rfl, by decide⟩
    · exact ⟨'U', q :: rest, by rw [← hrest]; rfl, by decide⟩
    · exact ⟨'L', q :: rest, by rw [← hrest]; rfl, by decide⟩
    · rcases hq with hq | hq <;>
        exact ⟨q, rest, by rw [← hrest]; rfl, by rw [hq]; decide⟩
  · rw [if_neg hpre] at hp; cases hp

theorem matchRawString_head :
    ∀ cs k, matchRawString cs = some k →
      ∃ c cs', cs = c :: cs' ∧ ignore_start_chars.contains c = true := by
  intro cs k h
  obtain ⟨p, hpmem, hp⟩ := List.exists_of_findSome?_eq_some h
  by_cases hpre : ((p ++ ['R', dquote]).isPrefixOf cs) = true
  · obtain ⟨rest, hrest⟩ := List.isPrefixOf_iff_prefix.mp hpre
    fin_cases hpmem
    · exact ⟨'u', '8' :: 'R' :: dquote :: rest, by rw [← hrest]; rfl, by decide⟩
    · exact ⟨'u', 'R' :: dquote :: rest, by rw [← hrest]; rfl, by decide⟩
    · exact ⟨'U', 'R' :: dquote :: rest, by rw [← hrest]; rfl, by decide⟩
    · exact ⟨'L', 'R' :: dquote :: rest, by rw [← hrest]; rfl, by decide⟩
    · exact ⟨'R', dquote :: rest, by rw [← hrest]; rfl, by decide⟩
  · rw [if_neg hpre] at hp; cases hp

theorem tryToken_ignore_head :
    ∀ cs ty k, tryToken cs = some (ty, k) → ty ≠ TokenType.ident →
      ∃ c cs', cs = c :: cs' ∧ ignore_start_chars.contains c = true := by
  intro cs ty k h hty
  rw [tryToken] at h
  cases h1 : matchLineComment cs with
  | some k1 =>
    rw [h1] at h
    cases cs with
    | nil => cases h1
    | cons c1 tl =>
      cases tl with
      | nil => cases h1
      | cons c2 tl2 =>
        rw [matchLineComment] at h1
        by_cases hcc : (c1 = '/' && c2 = '/') = true
        · exact ⟨c1, _, rfl, by rw [(Bool.and_eq_true _ _).mp hcc |>.1 |> of_decide_eq_true]; decide⟩
        · rw [if_neg hcc] at h1; cases h1
  | none =>
    rw [h1] at h
    cases h2 : matchBlockComment cs with
    | some k2 =>
      rw [h2] at h
      cases cs with
      | nil => cases h2
      | cons c1 tl =>
        cases tl with
        | nil => cases h2
        | cons c2 tl2 =>
          rw [matchBlockComment] at h2
          by_cases hcc : (c1 = '/' && c2 = '*') = true
          · exact ⟨c1, _, rfl, by rw [(Bool.and_eq_true _ _).mp hcc |>.1 |> of_decide_eq_true]; decide⟩
          · rw [if_neg hcc] at h2; cases h2
    | none =>
      rw [h2] at h
      cases h3 : matchQuotedLit squote false cs with
      | some k3 => exact matchQuotedLit_head squote false (Or.inl rfl) cs k3 h3
      | none =>
        rw [h3] at h
        cases h4 : matchQuotedLit dquote true cs with
        | some k4 => exact matchQuotedLit_head dquote true (Or.inr rfl) cs k4 h4
        | none =>
          rw [h4] at h
          cases h5 : matchRawString cs with
          | some k5 => exact matchRawString_head cs k5 h5
          | none =>
            rw [h5] at h
            cases h6 : matchIdentifier cs with
            | some k6 =>
              rw [h6] at h
              cases h
              exact absurd rfl hty
            | none => rw [h6] at h; cases h

theorem charAt_of_drop {source : List Char} {p : Nat} {c : Char} {cs : List Char}
    (h : source.drop p = c :: cs) : charAt source p = c := by
  have h1 : source.get? p = some c := by
    rw [List.get?_eq_getElem?, ← List.head?_drop, h]
    rfl
  rw [charAt, List.getD_eq_getD_get?, h1]
  rfl

/-- The core tokenizer induction: every emitted token starts at or after the
scan position, is nonempty, stays within the source, records the result of
tryToken at its own start, and consecutive tokens are disjoint and in
order. -/
theorem tokenizeAux_spec (source : List Char) :
    ∀ fuel pos,
      (∀ t ∈ tokenizeAux fuel (source.drop pos) pos,
        pos ≤ t.start ∧ t.start < t.stop ∧ t.stop ≤ source.length ∧
        ∃ k, tryToken (source.drop t.start) = some (t.kind, k) ∧ t.stop = t.start + k ∧
          t.text = (source.drop t.start).take k)
      ∧ (tokenizeAux fuel (source.drop pos) pos).Pairwise (fun a b => a.stop ≤ b.start) := by
  intro fuel
  induction fuel with
  | zero =>
    intro pos
    constructor
    · intro t ht; rw [tokenizeAux] at ht; cases ht
    · rw [tokenizeAux]; exact List.Pairwise.nil
  | succ fuel ih =>
    intro pos
    cases hdrop : source.drop pos with
    | nil =>
      constructor
      · intro t ht; rw [tokenizeAux] at ht; cases ht
      · rw [tokenizeAux]; exact List.Pairwise.nil
    | cons c tl =>
      have hpos : pos < source.length := by
        have : (source.drop pos).length = source.length - pos := by simp
        rw [hdrop] at this
        simp at this
        omega
      cases htry : tryToken (c :: tl) with
      | none =>
        have htl : source.drop (pos + 1) = tl := by
          have : List.drop 1 (source.drop pos) = source.drop (pos + 1) := by
            rw [List.drop_drop]
          rw [hdrop] at this
          simpa using this.symm
        have ihs := ih (pos + 1)
        rw [htl] at ihs
        rw [tokenizeAux, htry]
        constructor
        · intro t ht
          obtain ⟨h1, h2⟩ := ihs.1 t ht
          exact ⟨by omega, h2⟩
        · exact ihs.2
      | some tyk =>
        obtain ⟨ty, k⟩ := tyk
        have hbound := tryToken_bound (c :: tl) ty k htry
        have hklen : k ≤ source.length - pos := by
          have h2 := hbound.2
          rw [← hdrop] at h2
          simpa using h2
        have htl : source.drop (pos + k) = (c :: tl).drop k := by
          have : List.drop k (source.drop pos) = source.drop (pos + k) := by
            rw [List.drop_drop]
          rw [hdrop] at this
          exact this.symm
        have ihs := ih (pos + k)
        rw [htl] at ihs
        rw [tokenizeAux, htry]
        constructor
        · intro t ht
          rcases List.mem_cons.mp ht with ht | ht
          · subst ht
            refine ⟨le_refl _, by simp only []; omega, by simp only []; omega, k, ?_, rfl, ?_⟩
            · show tryToken (source.drop pos) = some (ty, k)
              rw [hdrop]; exact htry
            · show (c :: tl).take k = (source.drop pos).take k
              rw [hdrop]
          · obtain ⟨h1, h2⟩ := ihs.1 t ht
            exact ⟨by omega, h2⟩
        · refine List.Pairwise.cons ?_ ihs.2
          intro t ht
          have := (ihs.1 t ht).1
          simpa using this

/-! ### The constructed tables: destructuring and structural facts -/

theorem mkSourceTables_spec {src : List Char} {t : SourceTables} {pos : Nat}
    (h : mkSourceTables src = Except.ok (t, pos)) :
    t.source = src ∧
    t.tokens = cpp_simple_tokenize src ∧
    t.identifier_metas = py_sort (fun a b => str_le a.name b.name)
      (identifier_metas_of (cpp_simple_tokenize src)) ∧
    t.identifiers = t.identifier_metas.map (fun m => m.name) ∧
    t.ignore_ranges = ignore_ranges_of (cpp_simple_tokenize src) ∧
    t.ignore_starts = t.ignore_ranges.map (fun r => r.1) ∧
    t.identifier_metas_start_sorted =
      py_sort (fun a b => decide (a.start ≤ b.start)) t.identifier_metas ∧
    t.identifier_starts = t.identifier_metas_start_sorted.map (fun m => m.start) ∧
    t.length = src.length ∧
    ∃ pairs poses,
      _init_bracket_analysis src t.ignore_starts t.ignore_ranges =
        Except.ok ((pairs, poses), pos) ∧
      t.bracket_pairs = py_sort (fun a b => decide (a.2.1 ≤ b.2.1)) pairs ∧
      t.symbol_to_poses = poses := by
  rw [mkSourceTables] at h
  cases hscan : _init_bracket_analysis src
      ((ignore_ranges_of (cpp_simple_tokenize src)).map (fun r => r.1))
      (ignore_ranges_of (cpp_simple_tokenize src)) with
  | error e => rw [hscan] at h; cases h
  | ok pr =>
    obtain ⟨⟨pairs, poses⟩, spos⟩ := pr
    rw [hscan] at h
    cases h
    refine ⟨rfl, rfl, rfl, rfl, rfl, rfl, rfl, rfl, rfl, pairs, poses, hscan, rfl, rfl⟩

/-- The ignore ranges are nonempty spans inside the source, in increasing
disjoint order, each beginning with a comment/literal start character. -/
theorem ignore_ranges_facts (src : List Char) :
    (∀ r ∈ ignore_ranges_of (cpp_simple_tokenize src),
      r.1 < r.2 ∧ r.2 ≤ src.length ∧
      ignore_start_chars.contains (charAt src r.1) = true)
    ∧ (ignore_ranges_of (cpp_simple_tokenize src)).Pairwise (fun a b => a.2 ≤ b.1) := by
  have hspec := tokenizeAux_spec src src.length 0
  rw [List.drop_zero] at hspec
  constructor
  · intro r hr
    obtain ⟨tok, htok, hf⟩ := List.mem_filterMap.mp hr
    by_cases hk : (tok.kind = TokenType.comment || tok.kind = TokenType.str) = true
    · rw [if_pos hk] at hf
      cases hf
      obtain ⟨_, h2, h3, k, htry, hstop, _⟩ := hspec.1 tok htok
      refine ⟨h2, h3, ?_⟩
      have hkind : tok.kind ≠ TokenType.ident := by
        rcases Bool.or_eq_true _ _ |>.mp hk with hh | hh <;>
          rw [of_decide_eq_true hh] <;> intro hc <;> cases hc
      obtain ⟨c, cs', hcs, hcontains⟩ := tryToken_ignore_head _ _ _ htry hkind
      rw [charAt_of_drop hcs]
      exact hcontains
    · rw [if_neg hk] at hf; cases hf
  · refine List.Pairwise.filterMap _ ?_ hspec.2
    intro a b hab x hx y hy
    by_cases hka : (a.kind = TokenType.comment || a.kind = TokenType.str) = true
    · rw [if_pos hka] at hx
      by_cases hkb : (b.kind = TokenType.comment || b.kind = TokenType.str) = true
      · rw [if_pos hkb] at hy
        simp only [Option.mem_def, Option.some.injEq] at hx hy
        subst hx
        subst hy
        exact hab
      · rw [if_neg hkb] at hy
        simp only [Option.mem_def] at hy
        cases hy
    · rw [if_neg hka] at hx
      simp only [Option.mem_def] at hx
      cases hx

/-! ### Characterization of skip_string_comment -/

theorem takeWhile_lt_nil_all {l : List Nat} {p : Nat}
    (hs : l.Pairwise (fun a b => a ≤ b))
    (h : l.takeWhile (fun y => decide (y < p)) = []) :
    ∀ x ∈ l, ¬ x < p := by
  cases l with
  | nil => intro x hx; cases hx
  | cons y ys =>
    rw [List.takeWhile_cons] at h
    by_cases hy : y < p
    · rw [if_pos (by simpa using hy)] at h
      cases h
    · rw [if_neg (by simpa using hy)] at h
      intro x hx
      rcases List.mem_cons.mp hx with hx | hx
      · exact hx ▸ hy
      · have := List.rel_of_pairwise_cons hs hx
        omega

/-- skip_string_comment in closed form: it moves exactly from positions
strictly inside an ignore range to that range's end; in particular a
position equal to a range's start is NOT moved. -/
theorem skip_ignore_eq :
    ∀ (igr : List (Nat × Nat)),
      igr.Pairwise (fun a b => a.2 ≤ b.1) → (∀ r ∈ igr, r.1 < r.2) →
      ∀ p, skip_ignore (igr.map (fun r => r.1)) igr p =
        match find_strict_range igr p with
        | some r => r.2
        | none => p := by
  intro igr
  induction igr with
  | nil => intro _ _ p; rfl
  | cons r0 rest ih =>
    intro hpw hok p
    obtain ⟨s, e⟩ := r0
    have hse : s < e := hok (s, e) (by simp)
    have hrest_pw : rest.Pairwise (fun a b => a.2 ≤ b.1) := hpw.of_cons
    have hrest_ok : ∀ r ∈ rest, r.1 < r.2 := fun r hr => hok r (by simp [hr])
    have hsle : ∀ r ∈ rest, e ≤ r.1 := fun r hr => List.rel_of_pairwise_cons hpw hr
    by_cases hsp : s < p
    case neg =>
      have hfind : find_strict_range ((s, e) :: rest) p = none := by
        rw [find_strict_range, List.find?_eq_none]
        intro r hr
        simp only [Bool.and_eq_true, decide_eq_true_eq]
        rcases List.mem_cons.mp hr with hr | hr
        · cases hr; omega
        · have := hsle r hr; omega
      rw [hfind]
      rw [skip_ignore]
      simp only [List.map_cons, List.length_cons, bisect_left_nat, List.takeWhile_cons]
      rw [if_neg (Nat.succ_ne_zero _)]
      rw [if_neg (show ¬ decide (s < p) = true by simpa using hsp)]
      rw [List.length_nil, if_pos rfl]
    case pos =>
      rw [skip_ignore]
      simp only [List.map_cons, List.length_cons, bisect_left_nat, List.takeWhile_cons]
      rw [if_neg (Nat.succ_ne_zero _)]
      rw [if_pos (show decide (s < p) = true from decide_eq_true hsp)]
      rw [List.length_cons, if_neg (Nat.succ_ne_zero _)]
      simp only [Nat.add_sub_cancel]
      cases hb : ((rest.map (fun r => r.1)).takeWhile (fun y => decide (y < p))).length with
      | zero =>
        rw [List.getD_cons_zero]
        have hnone : ∀ r ∈ rest, ¬ r.1 < p := by
          intro r hr
          have hmap : r.1 ∈ rest.map (fun r => r.1) := List.mem_map_of_mem _ hr
          have hstep : rest.Pairwise (fun a b => a.1 ≤ b.1) := by
            refine hrest_pw.imp_of_mem ?_
            intro a b ha hb2 hab
            have := hrest_ok a ha
            omega
          have hspw : (rest.map (fun r => r.1)).Pairwise (fun a b => a ≤ b) := by
            rw [List.pairwise_map]
            exact hstep
          exact takeWhile_lt_nil_all hspw (List.length_eq_zero.mp hb) r.1 hmap
        rw [find_strict_range, List.find?_cons]
        by_cases hpe : p < e
        · rw [if_pos hpe]
          simp [hsp, hpe]
        · have hfr : rest.find? (fun r => decide (r.1 < p) && decide (p < r.2)) = none := by
            rw [List.find?_eq_none]
            intro r hr
            have := hnone r hr
            simp only [Bool.and_eq_true, decide_eq_true_eq]
            omega
          rw [if_neg hpe]
          simp [hpe, hfr]
      | succ b2 =>
        rw [List.getD_cons_succ]
        obtain ⟨r1, rest2, hr1⟩ : ∃ r1 rest2, rest = r1 :: rest2 := by
          cases rest with
          | nil => simp at hb
          | cons r1 rest2 => exact ⟨r1, rest2, rfl⟩
        have hr1p : r1.1 < p := by
          by_contra hc
          rw [hr1] at hb
          simp only [List.map_cons, List.takeWhile_cons] at hb
          rw [if_neg (by simpa using hc)] at hb
          cases hb
        have hep : e < p := lt_of_le_of_lt (hsle r1 (by rw [hr1]; simp)) hr1p
        have hhead : find_strict_range ((s, e) :: rest) p = find_strict_range rest p := by
          rw [find_strict_range, List.find?_cons]
          have hc : (decide ((s, e).1 < p) && decide (p < (s, e).2)) = false := by
            simp only [Bool.and_eq_false_iff, decide_eq_false_iff_not]
            right
            show ¬ p < e
            omega
          rw [hc]
          rfl
        rw [hhead, ← ih hrest_pw hrest_ok p]
        rw [skip_ignore]
        have hrl : (rest.map (fun r => r.1)).length ≠ 0 := by
          rw [hr1]; simp
        rw [if_neg hrl]
        rw [bisect_left_nat, hb]
        rw [if_neg (Nat.succ_ne_zero _)]
        simp only [Nat.add_sub_cancel]

/-! ### Association-list lemmas -/

theorem assoc_get?_isSome_iff [BEq α] [LawfulBEq α] :
    ∀ (d : List (α × β)) (k : α), (assoc_get? d k).isSome = true ↔ k ∈ d.map Prod.fst := by
  intro d k
  induction d with
  | nil => simp [assoc_get?]
  | cons kv rest ih =>
    rw [List.map_cons]
    by_cases hk : (kv.1 == k) = true
    · rw [assoc_get?, List.find?_cons_of_pos (p := fun kv2 : α × β => kv2.1 == k) _ hk]
      constructor
      · intro _
        exact List.mem_cons.mpr (Or.inl (eq_of_beq hk).symm)
      · intro _
        rfl
    · rw [assoc_get?, List.find?_cons_of_neg (p := fun kv2 : α × β => kv2.1 == k) _ hk]
      constructor
      · intro h
        exact List.mem_cons.mpr (Or.inr (ih.mp h))
      · intro h
        rcases List.mem_cons.mp h with h | h
        · exact absurd (beq_iff_eq.mpr h.symm) hk
        · exact ih.mpr h

theorem assoc_modify_map_fst [BEq α] (d : List (α × β)) (k : α) (f : β → β) :
    (assoc_modify d k f).map Prod.fst = d.map Prod.fst := by
  rw [assoc_modify, List.map_map]
  refine List.map_congr_left ?_
  intro kv _
  by_cases hk : (kv.1 == k) = true
  · simp [Function.comp, hk]
  · simp [Function.comp, hk]

theorem assoc_get?_modify_self [BEq α] [LawfulBEq α] :
    ∀ (d : List (α × β)) (k : α) (f : β → β),
      assoc_get? (assoc_modify d k f) k = (assoc_get? d k).map f := by
  intro d k f
  induction d with
  | nil => rfl
  | cons kv rest ih =>
    by_cases hk : (kv.1 == k) = true
    · have h1 : assoc_modify (kv :: rest) k f = (kv.1, f kv.2) :: assoc_modify rest k f := by
        simp only [assoc_modify, List.map_cons]
        rw [if_pos hk]
      rw [h1]
      rw [assoc_get?, List.find?_cons_of_pos (p := fun kv2 : α × β => kv2.1 == k) _
        (show ((kv.1, f kv.2).1 == k) = true from hk)]
      rw [assoc_get?, List.find?_cons_of_pos (p := fun kv2 : α × β => kv2.1 == k) _ hk]
      rfl
    · have h1 : assoc_modify (kv :: rest) k f = kv :: assoc_modify rest k f := by
        simp only [assoc_modify, List.map_cons]
        rw [if_neg hk]
      rw [h1]
      rw [assoc_get?, List.find?_cons_of_neg (p := fun kv2 : α × β => kv2.1 == k) _ hk]
      rw [assoc_get?, List.find?_cons_of_neg (p := fun kv2 : α × β => kv2.1 == k) _ hk]
      exact ih

theorem assoc_get?_modify_ne [BEq α] [LawfulBEq α] :
    ∀ (d : List (α × β)) (k k' : α) (f : β → β), k' ≠ k →
      assoc_get? (assoc_modify d k f) k' = assoc_get? d k' := by
  intro d k k' f hne
  induction d with
  | nil => rfl
  | cons kv rest ih =>
    by_cases hk' : (kv.1 == k') = true
    · have hk : ¬ (kv.1 == k) = true := by
        intro hc
        exact hne ((eq_of_beq hk').symm.trans (eq_of_beq hc))
      have h1 : assoc_modify (kv :: rest) k f = kv :: assoc_modify rest k f := by
        simp only [assoc_modify, List.map_cons]
        rw [if_neg hk]
      rw [h1]
      rw [assoc_get?, List.find?_cons_of_pos (p := fun kv2 : α × β => kv2.1 == k') _ hk']
      rw [assoc_get?, List.find?_cons_of_pos (p := fun kv2 : α × β => kv2.1 == k') _ hk']
    · by_cases hk : (kv.1 == k) = true
      · have h1 : assoc_modify (kv :: rest) k f
            = (kv.1, f kv.2) :: assoc_modify rest k f := by
          simp only [assoc_modify, List.map_cons]
          rw [if_pos hk]
        rw [h1]
        rw [assoc_get?, List.find?_cons_of_neg (p := fun kv2 : α × β => kv2.1 == k') _
          (show ¬ ((kv.1, f kv.2).1 == k') = true from hk')]
        rw [assoc_get?, List.find?_cons_of_neg (p := fun kv2 : α × β => kv2.1 == k') _ hk']
        exact ih
      · have h1 : assoc_modify (kv :: rest) k f = kv :: assoc_modify rest k f := by
          simp only [assoc_modify, List.map_cons]
          rw [if_neg hk]
        rw [h1]
        rw [assoc_get?, List.find?_cons_of_neg (p := fun kv2 : α × β => kv2.1 == k') _ hk']
        rw [assoc_get?, List.find?_cons_of_neg (p := fun kv2 : α × β => kv2.1 == k') _ hk']
        exact ih

theorem mem_dropLast_or_eq_of_getLast? {l : List α} {sp : α}
    (h : l.getLast? = some sp) : ∀ x ∈ l, x ∈ l.dropLast ∨ x = sp := by
  intro x hx
  have hne : l ≠ [] := by
    intro hc
    rw [hc] at h
    cases h
  have hsp : l.getLast hne = sp := by
    rw [List.getLast?_eq_getLast l hne] at h
    exact (Option.some.inj h)
  have hl : l = l.dropLast ++ [l.getLast hne] := (List.dropLast_append_getLast hne).symm
  rcases List.mem_append.mp (hl ▸ hx) with h1 | h1
  · exact Or.inl h1
  · exact Or.inr ((List.mem_singleton.mp h1).trans hsp)

/-! ### Consequences of the skip_string_comment characterization -/

theorem strict_inside_of_find_strict {igr : List (Nat × Nat)} {p : Nat} {r : Nat × Nat}
    (h : find_strict_range igr p = some r) :
    r ∈ igr ∧ r.1 < p ∧ p < r.2 := by
  refine ⟨List.mem_of_find?_eq_some h, ?_⟩
  have := List.find?_some h
  simp only [Bool.and_eq_true, decide_eq_true_eq] at this
  exact this

theorem not_strict_inside_of_find_none {igr : List (Nat × Nat)} {p : Nat}
    (h : find_strict_range igr p = none) : ¬ StrictInside igr p := by
  intro hc
  obtain ⟨r, hr, h1, h2⟩ := hc
  have := List.find?_eq_none.mp h r hr
  simp only [Bool.and_eq_true, decide_eq_true_eq] at this
  exact this ⟨h1, h2⟩

theorem skip_ignore_not_strict_inside (igr : List (Nat × Nat))
    (hpw : igr.Pairwise (fun a b => a.2 ≤ b.1)) (hok : ∀ r ∈ igr, r.1 < r.2) (p : Nat) :
    ¬ StrictInside igr (skip_ignore (igr.map (fun r => r.1)) igr p) := by
  rw [skip_ignore_eq igr hpw hok p]
  cases hfr : find_strict_range igr p with
  | none => exact not_strict_inside_of_find_none hfr
  | some r =>
    obtain ⟨hmem, h1, h2⟩ := strict_inside_of_find_strict hfr
    show ¬ StrictInside igr r.2
    intro hc
    obtain ⟨r', hr', h1', h2'⟩ := hc
    by_cases heq : r = r'
    · subst heq
      omega
    · have hdisj : r.2 ≤ r'.1 ∨ r'.2 ≤ r.1 := by
        have hsym : Symmetric (fun a b : Nat × Nat => a.2 ≤ b.1 ∨ b.2 ≤ a.1) := by
          intro a b hab
          exact hab.symm
        have hpw2 : igr.Pairwise (fun a b => a.2 ≤ b.1 ∨ b.2 ≤ a.1) :=
          hpw.imp (fun hab => Or.inl hab)
        exact hpw2.forall hsym hmem hr' heq
      have := hok r' hr'
      omega

theorem skip_ignore_le (igr : List (Nat × Nat))
    (hpw : igr.Pairwise (fun a b => a.2 ≤ b.1)) (hok : ∀ r ∈ igr, r.1 < r.2) (p : Nat) :
    p ≤ skip_ignore (igr.map (fun r => r.1)) igr p := by
  rw [skip_ignore_eq igr hpw hok p]
  cases hfr : find_strict_range igr p with
  | none => exact Nat.le_refl p
  | some r =>
    obtain ⟨_, _, h2⟩ := strict_inside_of_find_strict hfr
    show p ≤ r.2
    omega

theorem skip_ignore_strict_between (igr : List (Nat × Nat))
    (hpw : igr.Pairwise (fun a b => a.2 ≤ b.1)) (hok : ∀ r ∈ igr, r.1 < r.2) (p x : Nat) :
    p ≤ x → x < skip_ignore (igr.map (fun r => r.1)) igr p → StrictInside igr x := by
  intro hpx hx
  rw [skip_ignore_eq igr hpw hok p] at hx
  cases hfr : find_strict_range igr p with
  | none =>
    rw [hfr] at hx
    have hx2 : x < p := hx
    omega
  | some r =>
    rw [hfr] at hx
    have hx2 : x < r.2 := hx
    obtain ⟨hmem, h1, h2⟩ := strict_inside_of_find_strict hfr
    exact ⟨r, hmem, by omega, hx2⟩

theorem skip_ignore_le_length (igr : List (Nat × Nat)) (n : Nat)
    (hpw : igr.Pairwise (fun a b => a.2 ≤ b.1)) (hok : ∀ r ∈ igr, r.1 < r.2)
    (hlen : ∀ r ∈ igr, r.2 ≤ n) (p : Nat) (hp : p ≤ n) :
    skip_ignore (igr.map (fun r => r.1)) igr p ≤ n := by
  rw [skip_ignore_eq igr hpw hok p]
  cases hfr : find_strict_range igr p with
  | none => exact hp
  | some r => exact hlen r (strict_inside_of_find_strict hfr).1

/-! ### Characters that can begin an ignore range are neither whitespace
nor tracked symbols -/

theorem ignore_start_char_not_symbol :
    ∀ c : Char, ignore_start_chars.contains c = true →
      skip_chars.contains c = false ∧ c ∉ AllSymbols := by
  intro c h
  have hm : c ∈ ignore_start_chars := List.elem_iff.mp h
  fin_cases hm <;> exact ⟨by decide, by decide⟩

/-! ### The scan invariant: base state and step facts -/

theorem assoc_getD_nil_of_all {γ : Type} (c : Char) :
    ∀ d : List (Char × List γ), (∀ kv ∈ d, kv.2 = []) → ((assoc_get? d c).getD []) = [] := by
  intro d hall
  induction d with
  | nil => rfl
  | cons kv rest ih =>
    rw [assoc_get?]
    by_cases h : (kv.1 == c) = true
    · rw [List.find?_cons_of_pos (p := fun kv2 : Char × List γ => kv2.1 == c) _ h]
      exact hall kv (by simp)
    · rw [List.find?_cons_of_neg (p := fun kv2 : Char × List γ => kv2.1 == c) _ h]
      exact ih (fun kv2 h2 => hall kv2 (List.mem_cons.mpr (Or.inr h2)))

theorem poses_of_init (c : Char) : poses_of scan_init c = [] := by
  rw [poses_of]
  refine assoc_getD_nil_of_all c _ ?_
  intro kv hkv
  obtain ⟨c2, _, h⟩ := List.mem_map.mp hkv
  rw [← h]

theorem stack_of_init (c : Char) : stack_of scan_init c = [] := by
  rw [stack_of]
  refine assoc_getD_nil_of_all c _ ?_
  intro kv hkv
  fin_cases hkv <;> rfl

theorem scan_inv_init (src : List Char) (igr : List (Nat × Nat)) (pos : Nat) :
    ScanInv src igr pos scan_init := by
  refine ⟨rfl, rfl, ?_, ?_, ?_⟩
  · intro c p hp
    rw [poses_of_init] at hp
    cases hp
  · intro c
    rw [poses_of_init]
    exact List.Pairwise.nil
  · intro c _ p hp
    rw [poses_of_init] at hp
    cases hp

theorem scan_inv_mono (src : List Char) (igr : List (Nat × Nat)) (pos pos' : Nat)
    (st : ScanState) (h : ScanInv src igr pos st) (hle : pos ≤ pos') :
    ScanInv src igr pos' st := by
  obtain ⟨h1, h2, h3, h4, h5⟩ := h
  refine ⟨h1, h2, ?_, h4, h5⟩
  intro c p hp
  obtain ⟨ha, hb, hc, hd⟩ := h3 c p hp
  exact ⟨by omega, hb, hc, hd⟩

theorem symbol_not_skip : ∀ c ∈ AllSymbols, skip_chars.contains c = false := by
  decide

theorem open_sub_symbols : ∀ c ∈ open_brackets, c ∈ AllSymbols := by
  decide

theorem end_brackets_get {val ek : Char} (h : assoc_get? end_brackets val = some ek) :
    (val = ')' ∧ ek = '(') ∨ (val = ']' ∧ ek = '[') ∨ (val = rcurly ∧ ek = lcurly) := by
  rw [assoc_get?, end_brackets] at h
  by_cases h1 : (((')', '(') : Char × Char).1 == val) = true
  · rw [List.find?_cons_of_pos (p := fun kv : Char × Char => kv.1 == val) _ h1] at h
    exact Or.inl ⟨(eq_of_beq h1).symm, (Option.some.inj h).symm⟩
  · rw [List.find?_cons_of_neg (p := fun kv : Char × Char => kv.1 == val) _ h1] at h
    by_cases h2 : (((']', '[') : Char × Char).1 == val) = true
    · rw [List.find?_cons_of_pos (p := fun kv : Char × Char => kv.1 == val) _ h2] at h
      exact Or.inr (Or.inl ⟨(eq_of_beq h2).symm, (Option.some.inj h).symm⟩)
    · rw [List.find?_cons_of_neg (p := fun kv : Char × Char => kv.1 == val) _ h2] at h
      by_cases h3 : (((rcurly, lcurly) : Char × Char).1 == val) = true
      · rw [List.find?_cons_of_pos (p := fun kv : Char × Char => kv.1 == val) _ h3] at h
        exact Or.inr (Or.inr ⟨(eq_of_beq h3).symm, (Option.some.inj h).symm⟩)
      · rw [List.find?_cons_of_neg (p := fun kv : Char × Char => kv.1 == val) _ h3] at h
        simp at h

theorem record_poses_facts (src : List Char) (igr : List (Nat × Nat)) (pos : Nat)
    (P : List (Char × List Nat))
    (hsound : ∀ c, ∀ p ∈ (assoc_get? P c).getD [],
      p < pos ∧ p < src.length ∧ charAt src p = c ∧ ¬ InIgnore igr p)
    (hpw : ∀ c, ((assoc_get? P c).getD []).Pairwise (fun a b => a < b))
    (hlt : pos < src.length) (hni : ¬ InIgnore igr pos)
    (htr : (assoc_get? P (charAt src pos)).isSome = true) :
    (∀ c, c ≠ charAt src pos →
      (assoc_get? (assoc_modify P (charAt src pos) (fun l => l ++ [pos])) c).getD []
        = (assoc_get? P c).getD []) ∧
    ((assoc_get? (assoc_modify P (charAt src pos) (fun l => l ++ [pos]))
        (charAt src pos)).getD []
      = (assoc_get? P (charAt src pos)).getD [] ++ [pos]) ∧
    (∀ c, ∀ p ∈ (assoc_get? (assoc_modify P (charAt src pos) (fun l => l ++ [pos])) c).getD [],
      p < pos + 1 ∧ p < src.length ∧ charAt src p = c ∧ ¬ InIgnore igr p) ∧
    (∀ c, ((assoc_get? (assoc_modify P (charAt src pos) (fun l => l ++ [pos])) c).getD
      []).Pairwise (fun a b => a < b)) ∧
    (∀ c p, p ∈ (assoc_get? P c).getD [] →
      p ∈ (assoc_get? (assoc_modify P (charAt src pos) (fun l => l ++ [pos])) c).getD []) ∧
    pos ∈ (assoc_get? (assoc_modify P (charAt src pos) (fun l => l ++ [pos]))
      (charAt src pos)).getD [] := by
  have hval_eq : (assoc_get? (assoc_modify P (charAt src pos) (fun l => l ++ [pos]))
      (charAt src pos)).getD []
      = (assoc_get? P (charAt src pos)).getD [] ++ [pos] := by
    rw [assoc_get?_modify_self]
    cases hg : assoc_get? P (charAt src pos) with
    | none => rw [hg] at htr; simp at htr
    | some l => rfl
  have hne : ∀ c, c ≠ charAt src pos →
      (assoc_get? (assoc_modify P (charAt src pos) (fun l => l ++ [pos])) c).getD []
        = (assoc_get? P c).getD [] := by
    intro c hc
    rw [assoc_get?_modify_ne P (charAt src pos) c _ hc]
  refine ⟨hne, hval_eq, ?_, ?_, ?_, ?_⟩
  · intro c p hp
    by_cases hc : c = charAt src pos
    · subst hc
      rw [hval_eq] at hp
      rcases List.mem_append.mp hp with hp | hp
      · obtain ⟨h1, h2, h3, h4⟩ := hsound (charAt src pos) p hp
        exact ⟨by omega, h2, h3, h4⟩
      · rw [List.mem_singleton.mp hp]
        exact ⟨by omega, hlt, rfl, hni⟩
    · rw [hne c hc] at hp
      obtain ⟨h1, h2, h3, h4⟩ := hsound c p hp
      exact ⟨by omega, h2, h3, h4⟩
  · intro c
    by_cases hc : c = charAt src pos
    · subst hc
      rw [hval_eq, List.pairwise_append]
      refine ⟨hpw _, by simp, ?_⟩
      intro a ha b hb
      rw [List.mem_singleton.mp hb]
      exact (hsound _ a ha).1
    · rw [hne c hc]
      exact hpw c
  · intro c p hp
    by_cases hc : c = charAt src pos
    · subst hc
      rw [hval_eq]
      exact List.mem_append.mpr (Or.inl hp)
    · rw [hne c hc]
      exact hp
  · rw [hval_eq]
    exact List.mem_append.mpr (Or.inr (List.mem_singleton.mpr rfl))

/-- Master induction over the bracket/symbol scan of _init_bracket_analysis:
from a sound state the scan returns a sound state, never loses a recorded
occurrence, and records every tracked-symbol occurrence outside the ignore
ranges that it passes over. -/
theorem scan_aux_inv (src : List Char) (igr : List (Nat × Nat))
    (hpw : igr.Pairwise (fun a b => a.2 ≤ b.1))
    (hok : ∀ r ∈ igr, r.1 < r.2)
    (hstart : ∀ r ∈ igr, ignore_start_chars.contains (charAt src r.1) = true) :
    ∀ fuel pos st st' pos',
      src.length ≤ pos + fuel →
      ¬ StrictInside igr pos →
      ScanInv src igr pos st →
      scan_aux src (igr.map (fun r => r.1)) igr fuel pos st = Except.ok (st', pos') →
      ScanInv src igr pos' st' ∧
      (∀ c p, p ∈ poses_of st c → p ∈ poses_of st' c) ∧
      (∀ q, pos ≤ q → q < src.length → ¬ StrictInside igr q →
        charAt src q ∈ AllSymbols → q ∈ poses_of st' (charAt src q)) := by
  intro fuel
  induction fuel with
  | zero =>
    intro pos st st' pos' hfuel hnsi hinv h
    simp only [scan_aux] at h
    cases h
    exact ⟨hinv, fun c p hp => hp, fun q hq hqlen _ _ => absurd hqlen (by omega)⟩
  | succ fuel ih =>
    intro pos st st' pos' hfuel hnsi hinv h
    simp only [scan_aux] at h
    by_cases hlt : pos < src.length
    case neg =>
      rw [if_neg hlt] at h
      cases h
      exact ⟨hinv, fun c p hp => hp, fun q hq hqlen _ _ => absurd hqlen (by omega)⟩
    case pos =>
      rw [if_pos hlt] at h
      by_cases hws : skip_chars.contains (charAt src pos) = true
      case pos =>
        rw [if_pos hws] at h
        have hnsi1 : ¬ StrictInside igr (pos + 1) := by
          intro hc
          obtain ⟨r, hr, h1, h2⟩ := hc
          by_cases he : r.1 = pos
          · have hctr := hstart r hr
            rw [he] at hctr
            have hd := (ignore_start_char_not_symbol _ hctr).1
            rw [hd] at hws
            cases hws
          · exact hnsi ⟨r, hr, by omega, by omega⟩
        obtain ⟨hinv', hmono', hcomp'⟩ := ih (pos + 1) st st' pos' (by omega) hnsi1
          (scan_inv_mono src igr pos (pos + 1) st hinv (by omega)) h
        refine ⟨hinv', hmono', ?_⟩
        intro q hq hqlen hqnsi hqsym
        by_cases hqe : q = pos
        · subst hqe
          rw [symbol_not_skip _ hqsym] at hws
          cases hws
        · exact hcomp' q (by omega) hqlen hqnsi hqsym
      case neg =>
        rw [if_neg hws] at h
        by_cases htr : (assoc_get? st.poses (charAt src pos)).isSome = true
        case neg =>
          rw [if_neg htr] at h
          have hval_not : charAt src pos ∉ AllSymbols := by
            intro hc
            exact htr ((assoc_get?_isSome_iff st.poses _).mpr (by rw [hinv.1]; exact hc))
          have hop : ¬ open_brackets.contains (charAt src pos) = true := by
            intro hc
            exact hval_not (open_sub_symbols _ (List.elem_iff.mp hc))
          rw [if_neg hop] at h
          cases hend : assoc_get? end_brackets (charAt src pos) with
          | some ek =>
            exfalso
            rcases end_brackets_get hend with ⟨hv, _⟩ | ⟨hv, _⟩ | ⟨hv, _⟩ <;>
              rw [hv] at hval_not <;> exact hval_not (by decide)
          | none =>
            simp only [hend] at h
            have hskip := skip_ignore_le igr hpw hok (pos + 1)
            obtain ⟨hinv', hmono', hcomp'⟩ := ih _ st st' pos' (by omega)
              (skip_ignore_not_strict_inside igr hpw hok (pos + 1))
              (scan_inv_mono src igr pos _ st hinv (by omega)) h
            refine ⟨hinv', hmono', ?_⟩
            intro q hq hqlen hqnsi hqsym
            by_cases hqe : q = pos
            · subst hqe
              exact absurd hqsym hval_not
            · by_cases hql : q < skip_ignore (igr.map (fun r => r.1)) igr (pos + 1)
              · exact absurd (skip_ignore_strict_between igr hpw hok (pos + 1) q
                  (by omega) hql) hqnsi
              · exact hcomp' q (by omega) hqlen hqnsi hqsym
        case pos =>
          rw [if_pos htr] at h
          have hval : charAt src pos ∈ AllSymbols := by
            have hx := (assoc_get?_isSome_iff st.poses (charAt src pos)).mp htr
            rwa [hinv.1] at hx
          have hni : ¬ InIgnore igr pos := by
            intro hc
            obtain ⟨r, hr, h1, h2⟩ := hc
            by_cases he : r.1 = pos
            · have hctr := hstart r hr
              rw [he] at hctr
              exact (ignore_start_char_not_symbol _ hctr).2 hval
            · exact hnsi ⟨r, hr, by omega, h2⟩
          obtain ⟨Rne, Rval, Rsound, Rpw, Rmono, Rmem⟩ := record_poses_facts src igr pos
            st.poses (hinv.2.2.1) (hinv.2.2.2.1) hlt hni htr
          generalize hst1 : ({ st with
            poses := assoc_modify st.poses (charAt src pos) (fun l => l ++ [pos]) } : ScanState)
            = st1 at h
          have hp1 : st1.poses = assoc_modify st.poses (charAt src pos)
              (fun l => l ++ [pos]) := (congrArg ScanState.poses hst1).symm
          have hb1 : st1.bracket_stack = st.bracket_stack :=
            (congrArg ScanState.bracket_stack hst1).symm
          have hpr1 : st1.pairs = st.pairs := (congrArg ScanState.pairs hst1).symm
          have hps1 : ∀ c, poses_of st1 c
              = (assoc_get? (assoc_modify st.poses (charAt src pos)
                  (fun l => l ++ [pos])) c).getD [] := by
            intro c
            rw [poses_of, hp1]
          have hskip := skip_ignore_le igr hpw hok (pos + 1)
          by_cases hop : open_brackets.contains (charAt src pos) = true
          case pos =>
            rw [if_pos hop] at h
            have hopm : charAt src pos ∈ open_brackets := List.elem_iff.mp hop
            have hstk_some : (assoc_get? st.bracket_stack (charAt src pos)).isSome = true := by
              rw [assoc_get?_isSome_iff, hinv.2.1]
              exact hopm
            have hpsS2 : ∀ c, poses_of { st1 with
                bracket_stack := assoc_modify st1.bracket_stack (charAt src pos)
                  (fun l => l ++ [(charAt src pos, pos)]) } c
                = (assoc_get? (assoc_modify st.poses (charAt src pos)
                    (fun l => l ++ [pos])) c).getD [] := by
              intro c
              show poses_of st1 c = _
              rw [hps1]
            have hprS2 : ({ st1 with
                bracket_stack := assoc_modify st1.bracket_stack (charAt src pos)
                  (fun l => l ++ [(charAt src pos, pos)]) } : ScanState).pairs
                = st.pairs := hpr1
            have hstkval : stack_of { st1 with
                bracket_stack := assoc_modify st1.bracket_stack (charAt src pos)
                  (fun l => l ++ [(charAt src pos, pos)]) } (charAt src pos)
                = stack_of st (charAt src pos) ++ [(charAt src pos, pos)] := by
              show ((assoc_get? (assoc_modify st1.bracket_stack (charAt src pos)
                (fun l => l ++ [(charAt src pos, pos)])) (charAt src pos)).getD []) = _
              rw [assoc_get?_modify_self, hb1, stack_of]
              cases hg : assoc_get? st.bracket_stack (charAt src pos) with
              | none => rw [hg] at hstk_some; simp at hstk_some
              | some l => rfl
            have hstkne : ∀ c, c ≠ charAt src pos → stack_of { st1 with
                bracket_stack := assoc_modify st1.bracket_stack (charAt src pos)
                  (fun l => l ++ [(charAt src pos, pos)]) } c = stack_of st c := by
              intro c hc
              show ((assoc_get? (assoc_modify st1.bracket_stack (charAt src pos)
                (fun l => l ++ [(charAt src pos, pos)])) c).getD []) = _
              rw [assoc_get?_modify_ne _ _ _ _ hc, hb1, stack_of]
            have hS2inv : ScanInv src igr (pos + 1) { st1 with
                bracket_stack := assoc_modify st1.bracket_stack (charAt src pos)
                  (fun l => l ++ [(charAt src pos, pos)]) } := by
              refine ⟨?_, ?_, ?_, ?_, ?_⟩
              · show st1.poses.map Prod.fst = AllSymbols
                rw [hp1, assoc_modify_map_fst]
                exact hinv.1
              · show (assoc_modify st1.bracket_stack (charAt src pos)
                  (fun l => l ++ [(charAt src pos, pos)])).map Prod.fst = open_brackets
                rw [assoc_modify_map_fst, hb1]
                exact hinv.2.1
              · intro c p hp
                rw [hpsS2] at hp
                exact Rsound c p hp
              · intro c
                rw [hpsS2]
                exact Rpw c
              · intro c hcop p hp
                rw [hpsS2] at hp
                by_cases hcv : c = charAt src pos
                · subst hcv
                  rw [Rval] at hp
                  rcases List.mem_append.mp hp with hp | hp
                  · rcases hinv.2.2.2.2 _ hcop p hp with ⟨pr, hpr, hpe⟩ | ⟨v, hv⟩
                    · exact Or.inl ⟨pr, hpr1.symm ▸ hpr, hpe⟩
                    · refine Or.inr ⟨v, ?_⟩
                      rw [hstkval]
                      exact List.mem_append.mpr (Or.inl hv)
                  · have hpe := List.mem_singleton.mp hp
                    refine Or.inr ⟨charAt src pos, ?_⟩
                    rw [hstkval, hpe]
                    exact List.mem_append.mpr (Or.inr (by simp))
                · rw [Rne c hcv] at hp
                  rcases hinv.2.2.2.2 c hcop p hp with ⟨pr, hpr, hpe⟩ | ⟨v, hv⟩
                  · exact Or.inl ⟨pr, hpr1.symm ▸ hpr, hpe⟩
                  · refine Or.inr ⟨v, ?_⟩
                    rw [hstkne c hcv]
                    exact hv
            obtain ⟨hinv', hmono', hcomp'⟩ := ih _ _ st' pos' (by omega)
              (skip_ignore_not_strict_inside igr hpw hok (pos + 1))
              (scan_inv_mono src igr (pos + 1)
                (skip_ignore (igr.map (fun r => r.1)) igr (pos + 1)) _ hS2inv hskip) h
            refine ⟨hinv', ?_, ?_⟩
            · intro c p hp
              refine hmono' c p ?_
              rw [hpsS2]
              exact Rmono c p hp
            · intro q hq hqlen hqnsi hqsym
              by_cases hqe : q = pos
              · subst hqe
                refine hmono' _ q ?_
                rw [hpsS2]
                exact Rmem
              · by_cases hql : q < skip_ignore (igr.map (fun r => r.1)) igr (pos + 1)
                · exact absurd (skip_ignore_strict_between igr hpw hok (pos + 1) q
                    (by omega) hql) hqnsi
                · exact hcomp' q (by omega) hqlen hqnsi hqsym
          case neg =>
            rw [if_neg hop] at h
            have hcop_ne : ∀ c ∈ open_brackets, c ≠ charAt src pos := by
              intro c hcop hcv
              exact hop (List.elem_iff.mpr (hcv ▸ hcop))
            have hstke : ∀ c, stack_of st1 c = stack_of st c := by
              intro c
              rw [stack_of, hb1, stack_of]
            cases hend : assoc_get? end_brackets (charAt src pos) with
            | none =>
              simp only [hend] at h
              have hS1inv : ScanInv src igr (pos + 1) st1 := by
                refine ⟨?_, ?_, ?_, ?_, ?_⟩
                · rw [hp1, assoc_modify_map_fst]
                  exact hinv.1
                · rw [hb1]
                  exact hinv.2.1
                · intro c p hp
                  rw [hps1] at hp
                  exact Rsound c p hp
                · intro c
                  rw [hps1]
                  exact Rpw c
                · intro c hcop p hp
                  rw [hps1, Rne c (hcop_ne c hcop)] at hp
                  rcases hinv.2.2.2.2 c hcop p hp with ⟨pr, hpr, hpe⟩ | ⟨v, hv⟩
                  · exact Or.inl ⟨pr, hpr1.symm ▸ hpr, hpe⟩
                  · refine Or.inr ⟨v, ?_⟩
                    rw [hstke c]
                    exact hv
              obtain ⟨hinv', hmono', hcomp'⟩ := ih _ _ st' pos' (by omega)
                (skip_ignore_not_strict_inside igr hpw hok (pos + 1))
                (scan_inv_mono src igr (pos + 1)
                  (skip_ignore (igr.map (fun r => r.1)) igr (pos + 1)) st1 hS1inv hskip) h
              refine ⟨hinv', ?_, ?_⟩
              · intro c p hp
                refine hmono' c p ?_
                rw [hps1]
                exact Rmono c p hp
              · intro q hq hqlen hqnsi hqsym
                by_cases hqe : q = pos
                · subst hqe
                  refine hmono' _ q ?_
                  rw [hps1]
                  exact Rmem
                · by_cases hql : q < skip_ignore (igr.map (fun r => r.1)) igr (pos + 1)
                  · exact absurd (skip_ignore_strict_between igr hpw hok (pos + 1) q
                      (by omega) hql) hqnsi
                  · exact hcomp' q (by omega) hqlen hqnsi hqsym
            | some ek =>
              simp only [hend] at h
              cases hstk : assoc_get? st1.bracket_stack ek with
              | none =>
                simp only [hstk] at h
                cases h
              | some stk =>
                simp only [hstk] at h
                rw [hb1] at hstk
                cases hlast : stk.getLast? with
                | none =>
                  simp only [hlast] at h
                  cases h
                | some sp =>
                  simp only [hlast] at h
                  have hpsS3 : ∀ c, poses_of { st1 with
                      bracket_stack := assoc_modify st1.bracket_stack ek (fun l => l.dropLast),
                      pairs := st1.pairs ++ [(sp.1, sp.2, pos)] } c
                      = (assoc_get? (assoc_modify st.poses (charAt src pos)
                          (fun l => l ++ [pos])) c).getD [] := by
                    intro c
                    show poses_of st1 c = _
                    rw [hps1]
                  have hstkS3ne : ∀ c, c ≠ ek → stack_of { st1 with
                      bracket_stack := assoc_modify st1.bracket_stack ek (fun l => l.dropLast),
                      pairs := st1.pairs ++ [(sp.1, sp.2, pos)] } c = stack_of st c := by
                    intro c hc
                    show ((assoc_get? (assoc_modify st1.bracket_stack ek
                      (fun l => l.dropLast)) c).getD []) = _
                    rw [assoc_get?_modify_ne _ _ _ _ hc, hb1, stack_of]
                  have hstkS3ek : stack_of { st1 with
                      bracket_stack := assoc_modify st1.bracket_stack ek (fun l => l.dropLast),
                      pairs := st1.pairs ++ [(sp.1, sp.2, pos)] } ek = stk.dropLast := by
                    show ((assoc_get? (assoc_modify st1.bracket_stack ek
                      (fun l => l.dropLast)) ek).getD []) = _
                    rw [assoc_get?_modify_self, hb1, hstk]
                    rfl
                  have hstkek : stack_of st ek = stk := by
                    rw [stack_of, hstk]
                    rfl
                  have hS3inv : ScanInv src igr (pos + 1) { st1 with
                      bracket_stack := assoc_modify st1.bracket_stack ek (fun l => l.dropLast),
                      pairs := st1.pairs ++ [(sp.1, sp.2, pos)] } := by
                    refine ⟨?_, ?_, ?_, ?_, ?_⟩
                    · show st1.poses.map Prod.fst = AllSymbols
                      rw [hp1, assoc_modify_map_fst]
                      exact hinv.1
                    · show (assoc_modify st1.bracket_stack ek
                        (fun l => l.dropLast)).map Prod.fst = open_brackets
                      rw [assoc_modify_map_fst, hb1]
                      exact hinv.2.1
                    · intro c p hp
                      rw [hpsS3] at hp
                      exact Rsound c p hp
                    · intro c
                      rw [hpsS3]
                      exact Rpw c
                    · intro c hcop p hp
                      rw [hpsS3, Rne c (hcop_ne c hcop)] at hp
                      rcases hinv.2.2.2.2 c hcop p hp with ⟨pr, hpr, hpe⟩ | ⟨v, hv⟩
                      · refine Or.inl ⟨pr, ?_, hpe⟩
                        show pr ∈ st1.pairs ++ [(sp.1, sp.2, pos)]
                        exact List.mem_append.mpr (Or.inl (hpr1.symm ▸ hpr))
                      · by_cases hcek : c = ek
                        · subst hcek
                          rw [hstkek] at hv
                          rcases mem_dropLast_or_eq_of_getLast? hlast _ hv with hv2 | hv2
                          · refine Or.inr ⟨v, ?_⟩
                            rw [hstkS3ek]
                            exact hv2
                          · refine Or.inl ⟨(sp.1, sp.2, pos), ?_, ?_⟩
                            · show (sp.1, sp.2, pos) ∈ st1.pairs ++ [(sp.1, sp.2, pos)]
                              exact List.mem_append.mpr (Or.inr (by simp))
                            · have hp2 : p = sp.2 := congrArg Prod.snd hv2
                              exact hp2.symm
                        · refine Or.inr ⟨v, ?_⟩
                          rw [hstkS3ne c hcek]
                          exact hv
                  obtain ⟨hinv', hmono', hcomp'⟩ := ih _ _ st' pos' (by omega)
                    (skip_ignore_not_strict_inside igr hpw hok (pos + 1))
                    (scan_inv_mono src igr (pos + 1)
                      (skip_ignore (igr.map (fun r => r.1)) igr (pos + 1)) _ hS3inv hskip) h
                  refine ⟨hinv', ?_, ?_⟩
                  · intro c p hp
                    refine hmono' c p ?_
                    rw [hpsS3]
                    exact Rmono c p hp
                  · intro q hq hqlen hqnsi hqsym
                    by_cases hqe : q = pos
                    · subst hqe
                      refine hmono' _ q ?_
                      rw [hpsS3]
                      exact Rmem
                    · by_cases hql : q < skip_ignore (igr.map (fun r => r.1)) igr (pos + 1)
                      · exact absurd (skip_ignore_strict_between igr hpw hok (pos + 1) q
                          (by omega) hql) hqnsi
                      · exact hcomp' q (by omega) hqlen hqnsi hqsym

/-- Structural facts about the symbol-occurrence index and the bracket-pair
table of successfully constructed tables: the index keys are exactly the
tracked symbols; every recorded occurrence is a real occurrence of its
symbol outside every ignore range, in strictly increasing order; every
recorded open bracket has a pair entry starting at it; and every tracked
symbol occurrence outside the ignore ranges is recorded. -/
theorem tables_scan_facts {src : List Char} {t : SourceTables} {pos : Nat}
    (h : mkSourceTables src = Except.ok (t, pos)) :
    t.symbol_to_poses.map Prod.fst = AllSymbols ∧
    (∀ c, ∀ p ∈ (assoc_get? t.symbol_to_poses c).getD [],
      p < src.length ∧ charAt src p = c ∧ ¬ InIgnore t.ignore_ranges p) ∧
    (∀ c, ((assoc_get? t.symbol_to_poses c).getD []).Pairwise (fun a b => a < b)) ∧
    (∀ c, c ∈ open_brackets → ∀ p ∈ (assoc_get? t.symbol_to_poses c).getD [],
      ∃ pr ∈ t.bracket_pairs, pr.2.1 = p) ∧
    (∀ q, q < src.length → ¬ StrictInside t.ignore_ranges q →
      charAt src q ∈ AllSymbols → q ∈ (assoc_get? t.symbol_to_poses (charAt src q)).getD []) := by
  obtain ⟨hsrc, htok, hmetas, hids, higr, higs, hss, hsts, hlen, pairs, poses,
    hscan, hbp, hstp⟩ := mkSourceTables_spec h
  have hfacts := (ignore_ranges_facts src).1
  have hpwr := (ignore_ranges_facts src).2
  rw [← higr] at hfacts hpwr
  have hok : ∀ r ∈ t.ignore_ranges, r.1 < r.2 := fun r hr => (hfacts r hr).1
  have hlenr : ∀ r ∈ t.ignore_ranges, r.2 ≤ src.length := fun r hr => (hfacts r hr).2.1
  have hstart : ∀ r ∈ t.ignore_ranges,
      ignore_start_chars.contains (charAt src r.1) = true := fun r hr => (hfacts r hr).2.2
  rw [higs] at hscan
  rw [_init_bracket_analysis] at hscan
  cases hrun : scan_aux src (t.ignore_ranges.map (fun r => r.1)) t.ignore_ranges
      (src.length + 1)
      (skip_ignore (t.ignore_ranges.map (fun r => r.1)) t.ignore_ranges 0) scan_init with
  | error e => simp only [hrun] at hscan; cases hscan
  | ok stp =>
    obtain ⟨stf, posf⟩ := stp
    simp only [hrun] at hscan
    cases hfind : stf.bracket_stack.find? (fun kv => !kv.2.isEmpty) with
    | some kv => simp only [hfind] at hscan; cases hscan
    | none =>
      simp only [hfind] at hscan
      cases hscan
      have hempty : ∀ kv ∈ stf.bracket_stack, kv.2 = [] := by
        intro kv hkv
        have hx := List.find?_eq_none.mp hfind kv hkv
        have hx2 : kv.2.isEmpty = true := by
          cases he : kv.2.isEmpty
          · rw [he] at hx; simp at hx
          · rfl
        exact List.isEmpty_iff.mp hx2
      obtain ⟨hfinv, hmono, hcomp⟩ := scan_aux_inv src t.ignore_ranges hpwr hok hstart
        (src.length + 1)
        (skip_ignore (t.ignore_ranges.map (fun r => r.1)) t.ignore_ranges 0)
        scan_init stf pos
        (by
          have := skip_ignore_le t.ignore_ranges hpwr hok 0
          omega)
        (skip_ignore_not_strict_inside t.ignore_ranges hpwr hok 0)
        (scan_inv_init src t.ignore_ranges _) hrun
      have hstackeq : ∀ c, stack_of stf c = [] := by
        intro c
        rw [stack_of]
        cases hg : assoc_get? stf.bracket_stack c with
        | none => rfl
        | some l =>
          rw [assoc_get?] at hg
          cases hf : stf.bracket_stack.find? (fun kv2 => kv2.1 == c) with
          | none => rw [hf] at hg; cases hg
          | some kv =>
            rw [hf] at hg
            have hkvm := List.mem_of_find?_eq_some hf
            have hkv2 : kv.2 = l := Option.some.inj hg
            rw [← hkv2]
            exact hempty kv hkvm
      rw [hstp]
      refine ⟨hfinv.1, ?_, ?_, ?_, ?_⟩
      · intro c p hp
        exact (hfinv.2.2.1 c p hp).2
      · intro c
        exact hfinv.2.2.2.1 c
      · intro c hcop p hp
        rcases hfinv.2.2.2.2 c hcop p hp with ⟨pr, hpr, hpe⟩ | ⟨v, hv⟩
        · refine ⟨pr, ?_, hpe⟩
          rw [hbp]
          exact (py_sort_perm _ _).mem_iff.mpr hpr
        · rw [hstackeq c] at hv
          cases hv
      · intro q hqlen hqnsi hqsym
        by_cases hql : q < skip_ignore (t.ignore_ranges.map (fun r => r.1)) t.ignore_ranges 0
        · exact absurd (skip_ignore_strict_between t.ignore_ranges hpwr hok 0 q
            (Nat.zero_le q) hql) hqnsi
        · exact hcomp q (by omega) hqlen hqnsi hqsym

/-! ### Trichotomy and mixed transitivity for the string order -/

theorem str_trichotomy : ∀ a b : List Char, a ≠ b →
    str_lt a b = true ∨ str_lt b a = true := by
  intro a b hne
  by_cases hab : str_lt a b = true
  · exact Or.inl hab
  · by_cases hba : str_lt b a = true
    · exact Or.inr hba
    · exfalso
      refine hne (str_le_antisymm a b ?_ ?_)
      · rw [str_le, eq_false_of_ne_true hba]
        rfl
      · rw [str_le, eq_false_of_ne_true hab]
        rfl

theorem str_lt_of_lt_of_le : ∀ a b c : List Char,
    str_lt a b = true → str_le b c = true → str_lt a c = true := by
  intro a b c hab hbc
  rcases str_lt_cotrans a b hab c with h | h
  · exact h
  · rw [str_le, h] at hbc
    cases hbc

/-! ### The bisect-based prefix search in closed form -/

theorem map_getD_range' {α : Type} [Inhabited α] :
    ∀ (n a : Nat) (l : List α), a + n ≤ l.length →
      (List.range' a n).map (fun i => l.getD i default) = (l.drop a).take n := by
  intro n
  induction n with
  | zero => intro a l h; rfl
  | succ n ihn =>
    intro a l h
    have ha : a < l.length := by omega
    rw [show List.range' a (n + 1) = a :: List.range' (a + 1) n from rfl]
    rw [List.map_cons]
    rw [ihn (a + 1) l (by omega)]
    rw [List.drop_eq_getElem_cons ha]
    rw [List.take_succ_cons]
    rw [List.getD_eq_getElem l default ha]

theorem find_list_str_prefix_map_name (M : List IdentifierMeta) (pfx : List Char) (fm : Bool) :
    ( find_list_str_prefix (M.map (fun m => m.name)) pfx fm).map
        (fun i => M.getD i default)
      = (M.dropWhile (fun m => str_lt m.name pfx)).takeWhile
          (fun m => if fm then m.name == pfx else pfx.isPrefixOf m.name) := by
  simp only [ find_list_str_prefix]
  by_cases h0 : (M.map (fun m => m.name)).length = 0
  · rw [if_pos h0]
    have hM : M = [] := by
      cases M with
      | nil => rfl
      | cons a tl => simp at h0
    rw [hM]
    rfl
  · rw [if_neg h0]
    have hlt : bisect_left_str (M.map (fun m => m.name)) pfx
        = (M.takeWhile (fun m => str_lt m.name pfx)).length := by
      rw [bisect_left_str, List.takeWhile_map, List.length_map]
      rfl
    by_cases hleft : bisect_left_str (M.map (fun m => m.name)) pfx
        = (M.map (fun m => m.name)).length
    · rw [if_pos hleft]
      have hdw : M.dropWhile (fun m => str_lt m.name pfx) = [] := by
        rw [← drop_length_takeWhile]
        refine List.drop_eq_nil_of_le ?_
        rw [← hlt, hleft, List.length_map]
      rw [hdw]
      rfl
    · rw [if_neg hleft]
      have hn : (((M.map (fun m => m.name)).drop
            (bisect_left_str (M.map (fun m => m.name)) pfx)).takeWhile
            (fun s => if fm then s == pfx else pfx.isPrefixOf s))
          = ((M.drop (bisect_left_str (M.map (fun m => m.name)) pfx)).takeWhile
            (fun m => if fm then m.name == pfx else pfx.isPrefixOf m.name)).map
            (fun m => m.name) := by
        rw [← List.map_drop, List.takeWhile_map]
        rfl
      rw [hn, List.length_map]
      have hb : bisect_left_str (M.map (fun m => m.name)) pfx
          + ((M.drop (bisect_left_str (M.map (fun m => m.name)) pfx)).takeWhile
            (fun m => if fm then m.name == pfx else pfx.isPrefixOf m.name)).length
          ≤ M.length := by
        have h1 := (List.takeWhile_prefix
          (l := M.drop (bisect_left_str (M.map (fun m => m.name)) pfx))
          (fun m => if fm then m.name == pfx else pfx.isPrefixOf m.name)).length_le
        rw [List.length_drop] at h1
        have h2 : bisect_left_str (M.map (fun m => m.name)) pfx ≤ M.length := by
          rw [hlt]
          exact (List.takeWhile_prefix _).length_le
        omega
      rw [map_getD_range' _ _ _ hb]
      rw [show M.drop (bisect_left_str (M.map (fun m => m.name)) pfx)
          = M.dropWhile (fun m => str_lt m.name pfx) from by
        rw [hlt, drop_length_takeWhile]]
      exact (List.prefix_iff_eq_take.mp (List.takeWhile_prefix _)).symm

theorem find_identifier_prefix_eq (t : SourceTables) (pfx : List Char) (fm : Bool)
    (hid : t.identifiers = t.identifier_metas.map (fun m => m.name)) :
    find_identifier_prefix t pfx fm
      = (t.identifier_metas.dropWhile (fun m => str_lt m.name pfx)).takeWhile
          (fun m => if fm then m.name == pfx else pfx.isPrefixOf m.name) := by
  rw [ find_identifier_prefix, hid, find_list_str_prefix_map_name]

theorem find_identifier_prefix_sub (t : SourceTables) (pfx : List Char) (fm : Bool)
    (hid : t.identifiers = t.identifier_metas.map (fun m => m.name)) :
    ∀ m ∈ find_identifier_prefix t pfx fm, m ∈ t.identifier_metas ∧
      (fm = true → m.name = pfx) := by
  intro m hm
  rw [find_identifier_prefix_eq t pfx fm hid] at hm
  refine ⟨(List.dropWhile_suffix _).subset ((List.takeWhile_prefix _).subset hm), ?_⟩
  intro hfm
  subst hfm
  have h1 := List.mem_takeWhile_imp hm
  exact beq_iff_eq.mp h1

theorem dropWhile_not_lt (pfx : List Char) :
    ∀ l : List IdentifierMeta, l.Pairwise (fun a b => str_le a.name b.name = true) →
      ∀ z ∈ l.dropWhile (fun m => str_lt m.name pfx), str_lt z.name pfx = false := by
  intro l
  induction l with
  | nil => intro _ z hz; cases hz
  | cons a tl ih =>
    intro hs z hz
    rw [List.dropWhile_cons] at hz
    by_cases hpa : str_lt a.name pfx = true
    · rw [if_pos hpa] at hz
      exact ih hs.of_cons z hz
    · rw [if_neg hpa] at hz
      have hple_a : str_le pfx a.name = true := by
        rw [str_le, eq_false_of_ne_true hpa]
        rfl
      rcases List.mem_cons.mp hz with hze | hz2
      · rw [hze]
        exact eq_false_of_ne_true hpa
      · have haz : str_le a.name z.name = true := List.rel_of_pairwise_cons hs hz2
        have hple_z : str_le pfx z.name = true := str_le_trans _ _ _ hple_a haz
        rw [str_le] at hple_z
        cases hzz : str_lt z.name pfx
        · rfl
        · rw [hzz] at hple_z
          cases hple_z

theorem mem_takeWhile_eq_of_le (pfx : List Char) :
    ∀ dw : List IdentifierMeta, dw.Pairwise (fun a b => str_le a.name b.name = true) →
      (∀ z ∈ dw, str_lt z.name pfx = false) →
      ∀ m ∈ dw, m.name = pfx → m ∈ dw.takeWhile (fun m2 => m2.name == pfx) := by
  intro dw
  induction dw with
  | nil => intro _ _ m hm; cases hm
  | cons a tl ih =>
    intro hs hge m hm hname
    rw [List.takeWhile_cons]
    by_cases ha : (a.name == pfx) = true
    · rw [if_pos ha]
      rcases List.mem_cons.mp hm with hme | hm2
      · exact List.mem_cons.mpr (Or.inl hme)
      · exact List.mem_cons.mpr (Or.inr (ih hs.of_cons
          (fun z hz => hge z (List.mem_cons.mpr (Or.inr hz))) m hm2 hname))
    · rw [if_neg ha]
      exfalso
      rcases List.mem_cons.mp hm with hme | hm2
      · rw [hme] at hname
        exact ha (beq_iff_eq.mpr hname)
      · have hanp : a.name ≠ pfx := fun he => ha (beq_iff_eq.mpr he)
        have hlt : str_lt pfx a.name = true := by
          rcases str_trichotomy a.name pfx hanp with h | h
          · rw [hge a (List.mem_cons.mpr (Or.inl rfl))] at h
            cases h
          · exact h
        have ham : str_le a.name m.name = true := List.rel_of_pairwise_cons hs hm2
        have hfin : str_lt pfx m.name = true := str_lt_of_lt_of_le _ _ _ hlt ham
        rw [hname, str_lt_irrefl] at hfin
        cases hfin

/-- On name-sorted metas, a full-match prefix search returns exactly the
metas whose name equals the query. -/
theorem find_identifier_prefix_full_mem (t : SourceTables) (pfx : List Char)
    (hid : t.identifiers = t.identifier_metas.map (fun m => m.name))
    (hsort : t.identifier_metas.Pairwise (fun a b => str_le a.name b.name = true)) :
    ∀ m, m ∈ find_identifier_prefix t pfx true ↔
      (m ∈ t.identifier_metas ∧ m.name = pfx) := by
  intro m
  rw [find_identifier_prefix_eq t pfx true hid]
  constructor
  · intro hm
    have h1 := List.mem_takeWhile_imp hm
    have h2 : m.name = pfx := beq_iff_eq.mp h1
    exact ⟨(List.dropWhile_suffix _).subset ((List.takeWhile_prefix _).subset hm), h2⟩
  · rintro ⟨hm, hname⟩
    have hdw : m ∈ t.identifier_metas.dropWhile (fun m2 => str_lt m2.name pfx) := by
      have hsplit := List.takeWhile_append_dropWhile
        (fun m2 : IdentifierMeta => str_lt m2.name pfx) t.identifier_metas
      have hm2 := hm
      rw [← hsplit] at hm2
      rcases List.mem_append.mp hm2 with h | h
      · exfalso
        have hx := List.mem_takeWhile_imp h
        rw [hname, str_lt_irrefl] at hx
        cases hx
      · exact h
    have hdsort : (t.identifier_metas.dropWhile
        (fun m2 => str_lt m2.name pfx)).Pairwise
        (fun a b => str_le a.name b.name = true) :=
      hsort.sublist (List.dropWhile_suffix _).sublist
    have hge := dropWhile_not_lt pfx t.identifier_metas hsort
    exact mem_takeWhile_eq_of_le pfx _ hdsort hge m hdw hname

/-! ### Facts about the identifier tables of constructed sources -/

theorem metas_facts {src : List Char} {t : SourceTables} {pos : Nat}
    (h : mkSourceTables src = Except.ok (t, pos)) :
    t.identifier_metas.Pairwise (fun a b => str_le a.name b.name = true) ∧
    (∀ m, m ∈ t.identifier_metas ↔ m ∈ identifier_metas_of (cpp_simple_tokenize src)) ∧
    (∀ m ∈ t.identifier_metas, m.start < m.stop ∧ m.stop ≤ src.length) ∧
    (∀ m, m ∈ t.identifier_metas_start_sorted ↔ m ∈ t.identifier_metas) ∧
    t.identifier_metas_start_sorted.Pairwise (fun a b => a.start ≤ b.start) ∧
    t.identifier_metas_start_sorted.Pairwise (fun a b => a.stop ≤ b.start) := by
  obtain ⟨hsrc, htok, hmetas, hids, higr, higs, hss, hsts, hlen, pairs, poses,
    hscan, hbp, hstp⟩ := mkSourceTables_spec h
  have hspec := tokenizeAux_spec src src.length 0
  rw [List.drop_zero] at hspec
  have hm0 : ∀ m ∈ identifier_metas_of (cpp_simple_tokenize src),
      m.start < m.stop ∧ m.stop ≤ src.length := by
    intro m hm
    obtain ⟨tok, htokm, hf⟩ := List.mem_filterMap.mp hm
    by_cases hk : tok.kind = TokenType.ident
    · rw [if_pos hk] at hf
      cases hf
      obtain ⟨_, h2, h3, _⟩ := hspec.1 tok htokm
      exact ⟨h2, h3⟩
    · rw [if_neg hk] at hf
      cases hf
  have hdisj0 : (identifier_metas_of (cpp_simple_tokenize src)).Pairwise
      (fun a b => a.stop ≤ b.start) := by
    refine List.Pairwise.filterMap _ ?_ hspec.2
    intro a b hab x hx y hy
    by_cases hka : a.kind = TokenType.ident
    · rw [if_pos hka] at hx
      by_cases hkb : b.kind = TokenType.ident
      · rw [if_pos hkb] at hy
        simp only [Option.mem_def, Option.some.injEq] at hx hy
        subst hx
        subst hy
        exact hab
      · rw [if_neg hkb] at hy
        simp only [Option.mem_def] at hy
        cases hy
    · rw [if_neg hka] at hx
      simp only [Option.mem_def] at hx
      cases hx
  have hmem1 : ∀ m, m ∈ t.identifier_metas ↔
      m ∈ identifier_metas_of (cpp_simple_tokenize src) := by
    intro m
    rw [hmetas]
    exact (py_sort_perm _ _).mem_iff
  have hsort1 : t.identifier_metas.Pairwise (fun a b => str_le a.name b.name = true) := by
    rw [hmetas]
    exact pairwise_py_sort (fun a b : IdentifierMeta => str_le a.name b.name)
      (fun a b c hab hbc => str_le_trans a.name b.name c.name hab hbc)
      (fun a b => str_le_total a.name b.name) _
  have hmem2 : ∀ m, m ∈ t.identifier_metas_start_sorted ↔ m ∈ t.identifier_metas := by
    intro m
    rw [hss]
    exact (py_sort_perm _ _).mem_iff
  have hstart_sorted : t.identifier_metas_start_sorted.Pairwise
      (fun a b => a.start ≤ b.start) := by
    have hp := pairwise_py_sort (fun a b : IdentifierMeta => decide (a.start ≤ b.start))
      (fun a b c hab hbc => by
        simp only [decide_eq_true_eq] at hab hbc ⊢
        omega)
      (fun a b => by
        by_cases hx : a.start ≤ b.start
        · exact Or.inl (decide_eq_true hx)
        · exact Or.inr (decide_eq_true (by omega)))
      t.identifier_metas
    rw [hss]
    refine hp.imp ?_
    intro hab
    simpa using hab
  have hnodup0 : (identifier_metas_of (cpp_simple_tokenize src)).Nodup := by
    refine List.Pairwise.imp_of_mem ?_ hdisj0
    intro a b ha hb hab
    intro he
    have h1 := hm0 a ha
    subst he
    omega
  have hnodup2 : t.identifier_metas_start_sorted.Nodup := by
    have hn1 : t.identifier_metas.Nodup := by
      rw [hmetas]
      exact (py_sort_perm _ _).symm.nodup hnodup0
    rw [hss]
    exact (py_sort_perm _ _).symm.nodup hn1
  have hforall : ∀ a ∈ t.identifier_metas_start_sorted,
      ∀ b ∈ t.identifier_metas_start_sorted,
      a ≠ b → a.stop ≤ b.start ∨ b.stop ≤ a.start := by
    intro a ha b hb hne
    have ha0 : a ∈ identifier_metas_of (cpp_simple_tokenize src) :=
      (hmem1 a).mp ((hmem2 a).mp ha)
    have hb0 : b ∈ identifier_metas_of (cpp_simple_tokenize src) :=
      (hmem1 b).mp ((hmem2 b).mp hb)
    have hsym : Symmetric (fun x y : IdentifierMeta =>
        x.stop ≤ y.start ∨ y.stop ≤ x.start) := fun x y hxy => hxy.symm
    exact (hdisj0.imp (fun hab => Or.inl hab)).forall hsym ha0 hb0 hne
  have hstop_start : t.identifier_metas_start_sorted.Pairwise
      (fun a b => a.stop ≤ b.start) := by
    refine (hstart_sorted.and hnodup2).imp_of_mem ?_
    intro a b ha hb hab
    obtain ⟨hle, hne⟩ := hab
    rcases hforall a ha b hb hne with h1 | h1
    · exact h1
    · exfalso
      have hbb := hm0 b ((hmem1 b).mp ((hmem2 b).mp hb))
      omega
  exact ⟨hsort1, hmem1, fun m hm => hm0 m ((hmem1 m).mp hm), hmem2, hstart_sorted,
    hstop_start⟩

/-- Destructuring of a successful construction into its phases. -/
theorem construct_spec {src : List Char} {it : CppSourceIterator} {cur : Cursor}
    (h : construct src = Except.ok (it, cur)) :
    ∃ t pos cdefs ns0,
      mkSourceTables src = Except.ok (t, pos) ∧
      find_all_class_def_results t = Except.ok cdefs ∧
      get_namespace_ranges_results t cdefs = Except.ok ns0 ∧
      it.tables = t ∧
      it._namespace_ranges = py_sort (fun a b => decide (a.2.1 ≤ b.2.1)) ns0 ∧
      it._class_defs = cdefs.map
        ( _update_one (py_sort (fun a b => decide (a.2.1 ≤ b.2.1)) ns0)) ∧
      cur = class_scan_cursor t (reset_move pos) := by
  rw [construct] at h
  cases hm : mkSourceTables src with
  | error e => rw [hm] at h; cases h
  | ok tp =>
    obtain ⟨t, spos⟩ := tp
    rw [hm] at h
    simp only [bind, Except.bind] at h
    cases hr : find_all_class_def t (reset_move spos) with
    | error e => rw [hr] at h; cases h
    | ok p1 =>
      obtain ⟨cdefs, cur1⟩ := p1
      simp only [hr] at h
      cases hg : get_namespace_ranges t cdefs cur1 with
      | error e => simp only [hg] at h; cases h
      | ok p2 =>
        obtain ⟨ns0, cur2⟩ := p2
        simp only [hg] at h
        simp only [ _update_class_def_namespace] at h
        simp only [pure, Except.pure, Except.ok.injEq, Prod.mk.injEq] at h
        obtain ⟨hit, hc⟩ := h
        have hrr : find_all_class_def_results t = Except.ok cdefs ∧
            cur1 = class_scan_cursor t (reset_move spos) := by
          rw [find_all_class_def] at hr
          cases hr2 : find_all_class_def_results t with
          | error e => rw [hr2] at hr; cases hr
          | ok l => rw [hr2] at hr; cases hr; exact ⟨rfl, rfl⟩
        have hgg : get_namespace_ranges_results t cdefs = Except.ok ns0 ∧ cur2 = cur1 := by
          rw [get_namespace_ranges] at hg
          cases hg2 : get_namespace_ranges_results t cdefs with
          | error e => rw [hg2] at hg; cases hg
          | ok l => rw [hg2] at hg; cases hg; exact ⟨rfl, rfl⟩
        refine ⟨t, spos, cdefs, ns0, rfl, hrr.1, hgg.1, ?_, ?_, ?_, ?_⟩
        · rw [← hit]
        · rw [← hit]
        · rw [← hit]
        · rw [← hc, hgg.2]
          exact hrr.2

/-- get_namespace_ranges_results in terms of its two contributions. -/
theorem get_namespace_ranges_results_spec {t : SourceTables} {cdefs : List ClassDef}
    {ns0 : List (List Char × Nat × Nat)}
    (h : get_namespace_ranges_results t cdefs = Except.ok ns0) :
    ∃ res, exceptFilterMap (namespace_range_one t)
        ( find_identifier_prefix t ("namespace".toList) true) = Except.ok res ∧
      ns0 = res ++ cdefs.map (fun c => (c.name, c.body_start, c.body_end)) := by
  rw [get_namespace_ranges_results] at h
  simp only [bind, Except.bind, pure, Except.pure] at h
  cases hr : exceptFilterMap (namespace_range_one t)
      ( find_identifier_prefix t ("namespace".toList) true) with
  | error e => rw [hr] at h; cases h
  | ok res =>
    simp only [hr] at h
    cases h
    exact ⟨res, rfl, rfl⟩

/-- The ClassDef produced for a class/struct keyword occurrence records the
keyword occurrence's start position. -/
theorem process_class_meta_keyword {t : SourceTables} {meta : IdentifierMeta} {cd : ClassDef}
    (h : process_class_meta t meta = Except.ok (some cd)) :
    cd.keyword_pos = meta.start := by
  rw [process_class_meta] at h
  simp only [bind, Except.bind, pure, Except.pure] at h
  cases h1 : find_symbols_in_range t lcurly meta.stop none with
  | error e => rw [h1] at h; cases h
  | ok ncl =>
    simp only [h1] at h
    cases hh : ncl.head? with
    | none => simp only [hh] at h; cases h
    | some nc =>
      simp only [hh] at h
      cases h2 : find_symbols_in_range t ';' meta.stop none with
      | error e => simp only [h2] at h; cases h
      | ok nsl =>
        simp only [h2] at h
        cases hh2 : nsl.head? with
        | none => simp only [hh2] at h; cases h
        | some nsemi =>
          simp only [hh2] at h
          by_cases h3 : nsemi < nc
          · rw [if_pos h3] at h; cases h
          · rw [if_neg h3] at h
            cases h4 : _start_to_bracket_pair t nc with
            | none => simp only [h4] at h; cases h
            | some pr =>
              simp only [h4] at h
              cases h5 : detect_template t meta.start with
              | error e => simp only [h5] at h; cases h
              | ok tmpl =>
                simp only [h5] at h
                cases h6 : find_identifier_range t meta.stop nc with
                | error e => simp only [h6] at h; cases h
                | ok idens =>
                  simp only [h6] at h
                  by_cases h7 : idens.isEmpty = true
                  · rw [if_pos h7] at h; cases h
                  · rw [if_neg h7] at h
                    cases h
                    rfl

/-- The meta a successful walk of next_identifier returns is a real
identifier occurrence. -/
theorem next_identifier_walk_mem {t : SourceTables} :
    ∀ fuel pos m pos', next_identifier_walk t fuel pos = (some m, pos') →
      m ∈ t.identifier_metas := by
  intro fuel
  induction fuel with
  | zero =>
    intro pos m pos' h
    simp only [next_identifier_walk] at h
    cases h
  | succ fuel ih =>
    intro pos m pos' h
    simp only [next_identifier_walk] at h
    by_cases hlt : pos < t.length
    · rw [if_pos hlt] at h
      by_cases hws : skip_chars.contains (charAt t.source pos) = true
      · rw [if_pos hws] at h
        exact ih _ _ _ h
      · rw [if_neg hws] at h
        cases hm : identifier_start_to_meta t pos with
        | none => simp only [hm] at h; cases h
        | some m2 =>
          simp only [hm] at h
          cases h
          rw [identifier_start_to_meta] at hm
          exact List.mem_of_find?_eq_some hm
    · rw [if_neg hlt] at h
      cases h

theorem next_identifier_fst_mem {t : SourceTables} {p : Nat} {m : IdentifierMeta}
    (h : (next_identifier t p).1 = some m) : m ∈ t.identifier_metas := by
  rw [next_identifier] at h
  cases hw : next_identifier_walk t (t.length + 1) (skip_string_comment t p) with
  | mk o q =>
    rw [hw] at h
    cases o with
    | none => cases h
    | some m2 =>
      have hm : m2 = m := Option.some.inj h
      subst hm
      exact next_identifier_walk_mem _ _ _ _ hw

/-- Every FunctionDef the loop body emits points at the identifier
occurrence the occurrence-scan selected. -/
theorem find_function_prefix_one_pos {it : CppSourceIterator} {fa dO : Bool}
    {meta0 : IdentifierMeta} {fd : FunctionDef}
    (h : find_function_prefix_one it fa dO meta0 = Except.ok (some fd)) :
    ∃ m, (m = meta0 ∨ m ∈ it.tables.identifier_metas) ∧ fd.identifier_pos = m.start := by
  rw [ find_function_prefix_one] at h
  simp only [bind, Except.bind, pure, Except.pure] at h
  cases hopt : (if fa = true then (next_identifier it.tables meta0.stop).1
      else some meta0) with
  | none => simp only [hopt] at h; cases h
  | some meta =>
    simp only [hopt] at h
    have hprov : meta = meta0 ∨ meta ∈ it.tables.identifier_metas := by
      by_cases hfa : fa = true
      · rw [if_pos hfa] at hopt
        exact Or.inr (next_identifier_fst_mem hopt)
      · rw [if_neg hfa] at hopt
        exact Or.inl (Option.some.inj hopt).symm
    refine ⟨meta, hprov, ?_⟩
    cases hrp : next_round it.tables meta.stop with
    | error e => simp only [hrp] at h; cases h
    | ok rp =>
      obtain ⟨rpo, posR⟩ := rp
      simp only [hrp] at h
      cases rpo with
      | none => cases h
      | some round_pair =>
        cases hdt : detect_template it.tables meta.start with
        | error e => simp only [hdt] at h; cases h
        | ok tm =>
          simp only [hdt] at h
          cases hni : next_identifier it.tables posR with
          | mk ideno posI =>
            simp only [hni] at h
            split at h
            · cases h
            · cases hcp : next_curly it.tables posI with
              | error e => simp only [hcp] at h; cases h
              | ok cp =>
                obtain ⟨cpo, posC⟩ := cp
                simp only [hcp] at h
                cases cpo with
                | some curly_pair =>
                  cases h
                  rfl
                | none =>
                  by_cases hdo : dO = true
                  · rw [if_pos hdo] at h
                    cases hns : (next_semicolon it.tables posC).1 with
                    | none => simp only [hns] at h; cases h
                    | some s =>
                      simp only [hns] at h
                      cases h
                      rfl
                  · rw [if_neg hdo] at h
                    cases h

/-- C6.  cpp_simple_tokenize emits tokens in strictly increasing start
order with valid spans, and an Identifier token's span never overlaps a
Comment or String token's span; consequently every position recorded in
the symbol-occurrence index carries the recorded symbol and lies outside
every ignore range, every ClassDef produced by construction points at a
real `class`/`struct` identifier occurrence, every namespace range arises
from a real `namespace` identifier occurrence or from a ClassDef, and
every FunctionDef points at a real identifier occurrence. -/
theorem C6_theorem :
    ∀ src : List Char,
      ((cpp_simple_tokenize src).Pairwise (fun a b => a.start < b.start) ∧
        ∀ tk ∈ cpp_simple_tokenize src, tk.start < tk.stop ∧ tk.stop ≤ src.length) ∧
      (∀ t1 ∈ cpp_simple_tokenize src, ∀ t2 ∈ cpp_simple_tokenize src,
        t1.kind = TokenType.ident →
        (t2.kind = TokenType.comment ∨ t2.kind = TokenType.str) →
        t1.stop ≤ t2.start ∨ t2.stop ≤ t1.start) ∧
      (∀ t pos, mkSourceTables src = Except.ok (t, pos) →
        ∀ c ps, assoc_get? t.symbol_to_poses c = some ps → ∀ p ∈ ps,
          charAt src p = c ∧ ∀ r ∈ t.ignore_ranges, ¬ (r.1 ≤ p ∧ p < r.2)) ∧
      (∀ it cur, construct src = Except.ok (it, cur) →
        (∀ cd ∈ it._class_defs, ∃ m ∈ it.tables.identifier_metas,
          (m.name = chars "class" ∨ m.name = chars "struct") ∧
          cd.keyword_pos = m.start) ∧
        (∀ ns ∈ it._namespace_ranges,
          (∃ m ∈ it.tables.identifier_metas, m.name = chars "namespace" ∧
            namespace_range_one it.tables m = Except.ok (some ns)) ∨
          ∃ cd ∈ it._class_defs, ns = (cd.name, cd.body_start, cd.body_end)) ∧
        (∀ pfx fa fm dO cur2 res cur3,
          find_function_prefix it pfx fa fm dO cur2 = Except.ok (res, cur3) →
          ∀ fd ∈ res, ∃ m ∈ it.tables.identifier_metas,
            fd.identifier_pos = m.start)) := by
  intro src
  have hspec := tokenizeAux_spec src src.length 0
  rw [List.drop_zero] at hspec
  refine ⟨⟨?_, ?_⟩, ?_, ?_, ?_⟩
  · refine hspec.2.imp_of_mem ?_
    intro a b ha hb hab
    have h1 := (hspec.1 a ha).2.1
    omega
  · intro tk htk
    exact ⟨(hspec.1 tk htk).2.1, (hspec.1 tk htk).2.2.1⟩
  · intro t1 h1 t2 h2 hk1 hk2
    have hne : t1 ≠ t2 := by
      intro he
      rw [he] at hk1
      rcases hk2 with hk2 | hk2 <;> rw [hk1] at hk2 <;> cases hk2
    have hsym : Symmetric (fun a b : Token => a.stop ≤ b.start ∨ b.stop ≤ a.start) :=
      fun a b hab => hab.symm
    exact (hspec.2.imp (fun hab => Or.inl hab)).forall hsym h1 h2 hne
  · intro t pos hmk c ps hg p hp
    obtain ⟨hkeys, hsound, hpw2, hpair, hcomp⟩ := tables_scan_facts hmk
    have hp2 : p ∈ (assoc_get? t.symbol_to_poses c).getD [] := by
      rw [hg]
      exact hp
    obtain ⟨hplen, hchar, hni⟩ := hsound c p hp2
    refine ⟨hchar, ?_⟩
    intro r hr hc
    exact hni ⟨r, hr, hc.1, hc.2⟩
  · intro it cur hcon
    obtain ⟨t, pos, cdefs, ns0, hmk, hcd, hns, htab, hnsr, hcdr, hcur⟩ := construct_spec hcon
    have hid : t.identifiers = t.identifier_metas.map (fun m => m.name) :=
      (mkSourceTables_spec hmk).2.2.2.1
    have hid2 : it.tables.identifiers = it.tables.identifier_metas.map (fun m => m.name) := by
      rw [htab]
      exact hid
    refine ⟨?_, ?_, ?_⟩
    · intro cd hcdm
      rw [hcdr] at hcdm
      obtain ⟨c0, hc0, hupd⟩ := List.mem_map.mp hcdm
      obtain ⟨meta, hmm, hproc⟩ := exceptFilterMap_mem hcd c0 hc0
      have hkw := process_class_meta_keyword hproc
      rcases List.mem_append.mp hmm with hmm2 | hmm2
      · obtain ⟨hmem, hfull⟩ := find_identifier_prefix_sub t _ true hid meta hmm2
        refine ⟨meta, ?_, Or.inl (hfull rfl), ?_⟩
        · rw [htab]
          exact hmem
        · rw [← hupd]
          exact hkw
      · obtain ⟨hmem, hfull⟩ := find_identifier_prefix_sub t _ true hid meta hmm2
        refine ⟨meta, ?_, Or.inr (hfull rfl), ?_⟩
        · rw [htab]
          exact hmem
        · rw [← hupd]
          exact hkw
    · intro ns hnsm
      rw [hnsr] at hnsm
      have hnsm2 : ns ∈ ns0 := (py_sort_perm _ _).subset hnsm
      obtain ⟨res, hres, hns0⟩ := get_namespace_ranges_results_spec hns
      rw [hns0] at hnsm2
      rcases List.mem_append.mp hnsm2 with hm | hm
      · obtain ⟨meta, hmm, hone⟩ := exceptFilterMap_mem hres ns hm
        obtain ⟨hmem, hfull⟩ := find_identifier_prefix_sub t _ true hid meta hmm
        refine Or.inl ⟨meta, ?_, hfull rfl, ?_⟩
        · rw [htab]
          exact hmem
        · rw [htab]
          exact hone
      · obtain ⟨c0, hc0, hc0e⟩ := List.mem_map.mp hm
        refine Or.inr ⟨ _update_one (py_sort (fun a b => decide (a.2.1 ≤ b.2.1)) ns0) c0,
          ?_, ?_⟩
        · rw [hcdr]
          exact List.mem_map_of_mem _ hc0
        · exact hc0e.symm
    · intro pfx fa fm dO cur2 res cur3 hf fd hfd
      have hres : find_function_prefix_results it pfx fa fm dO = Except.ok res := by
        rw [ find_function_prefix] at hf
        cases hq : find_function_prefix_results it pfx fa fm dO with
        | error e => rw [hq] at hf; cases hf
        | ok l => rw [hq] at hf; cases hf; rfl
      obtain ⟨meta0, hm0m, hone⟩ := exceptFilterMap_mem hres fd hfd
      obtain ⟨m, hmp, hpos⟩ := find_function_prefix_one_pos hone
      rcases hmp with hme | hmem
      · obtain ⟨hmem0, _⟩ := find_identifier_prefix_sub it.tables pfx fm hid2 meta0 hm0m
        refine ⟨m, ?_, hpos⟩
        rw [hme]
        exact hmem0
      · exact ⟨m, hmem, hpos⟩

/-- C6, witness: on `a /*c*/ \x7b\x7d` the curly recorded at position 8
really is a curly and lies outside the single comment range (2, 7). -/
theorem C6_witness :
    charAt c7src 8 = lcurly ∧
      ∀ r ∈ (tables_of c7src).ignore_ranges, ¬ (r.1 ≤ 8 ∧ 8 < r.2) := by
  have h := (C6_theorem c7src).2.2.1 (tables_of c7src) 10 (by rfl) lcurly [8] (by rfl) 8
    (by decide)
  exact h

/-! ### Range queries on the constructed tables in closed form -/

theorem symbol_key_some {src : List Char} {t : SourceTables} {pos : Nat}
    (hmk : mkSourceTables src = Except.ok (t, pos)) :
    ∀ c ∈ AllSymbols, ∃ pl, assoc_get? t.symbol_to_poses c = some pl := by
  intro c hc
  have hkeys := (tables_scan_facts hmk).1
  have hsome : (assoc_get? t.symbol_to_poses c).isSome = true :=
    (assoc_get?_isSome_iff _ _).mpr (by rw [hkeys]; exact hc)
  cases hg : assoc_get? t.symbol_to_poses c with
  | none => rw [hg] at hsome; simp at hsome
  | some pl => exact ⟨pl, rfl⟩

theorem find_symbols_none_eq {t : SourceTables} {sym : Char} {pl : List Nat}
    (hg : assoc_get? t.symbol_to_poses sym = some pl) (a : Nat) :
    find_symbols_in_range t sym a none
      = Except.ok (pl.dropWhile (fun q => decide (q < a))) := by
  simp only [find_symbols_in_range, hg]
  rw [bisect_left_nat, drop_length_takeWhile]

theorem bisect_left_nat_zero (pl : List Nat) : bisect_left_nat pl 0 = 0 := by
  cases pl with
  | nil => rfl
  | cons x xs =>
    rw [bisect_left_nat, List.takeWhile_cons]
    rw [if_neg (by simp)]
    rfl

theorem find_symbols_zero_some_eq {t : SourceTables} {sym : Char} {pl : List Nat}
    (hg : assoc_get? t.symbol_to_poses sym = some pl) (e : Nat) :
    find_symbols_in_range t sym 0 (some e)
      = Except.ok (pl.takeWhile (fun q => decide (q < e))) := by
  simp only [find_symbols_in_range, hg]
  rw [bisect_left_nat_zero, List.drop_zero, Nat.sub_zero, bisect_left_nat]
  rw [← List.prefix_iff_eq_take.mp (List.takeWhile_prefix _)]

theorem head?_dropWhile_spec (p : α → Bool) :
    ∀ (l : List α) (x : α), (l.dropWhile p).head? = some x → x ∈ l ∧ p x = false := by
  intro l
  induction l with
  | nil => intro x h; cases h
  | cons y ys ih =>
    intro x h
    rw [List.dropWhile_cons] at h
    by_cases hp : p y = true
    · rw [if_pos hp] at h
      obtain ⟨hm, hf⟩ := ih x h
      exact ⟨List.mem_cons.mpr (Or.inr hm), hf⟩
    · rw [if_neg hp] at h
      have hyx : y = x := Option.some.inj h
      subst hyx
      exact ⟨List.mem_cons_self y ys, eq_false_of_ne_true hp⟩

theorem start_to_bracket_pair_some {src : List Char} {t : SourceTables} {pos : Nat}
    (hmk : mkSourceTables src = Except.ok (t, pos))
    {c : Char} {pl : List Nat} (hc : c ∈ open_brackets)
    (hg : assoc_get? t.symbol_to_poses c = some pl) {q : Nat} (hq : q ∈ pl) :
    ∃ pr, _start_to_bracket_pair t q = some pr ∧ pr.2.1 = q := by
  obtain ⟨pr0, hpr0, hpe⟩ := (tables_scan_facts hmk).2.2.2.1 c hc q (by rw [hg]; exact hq)
  have hsome : (t.bracket_pairs.find? (fun pr => pr.2.1 == q)).isSome = true := by
    rw [List.find?_isSome]
    exact ⟨pr0, hpr0, beq_iff_eq.mpr hpe⟩
  cases hf : t.bracket_pairs.find? (fun pr => pr.2.1 == q) with
  | none => rw [hf] at hsome; simp at hsome
  | some pr =>
    have hpred := List.find?_some hf
    refine ⟨pr, ?_, beq_iff_eq.mp hpred⟩
    rw [_start_to_bracket_pair, hf]

theorem filter_eq_takeWhile_of_pairwise {P : α → Bool} :
    ∀ L : List α, L.Pairwise (fun x y => P x = false → P y = false) →
      L.filter P = L.takeWhile P := by
  intro L
  induction L with
  | nil => intro _; rfl
  | cons x tl ih =>
    intro hp
    rw [List.filter_cons, List.takeWhile_cons]
    by_cases hx : P x = true
    · rw [if_pos hx, if_pos hx, ih hp.of_cons]
    · rw [if_neg hx, if_neg hx]
      refine List.filter_eq_nil_iff.mpr ?_
      intro a ha hPa
      have hfa := List.rel_of_pairwise_cons hp ha (eq_false_of_ne_true hx)
      rw [hfa] at hPa
      cases hPa

theorem dropWhile_start_ge (a : Nat) :
    ∀ L : List IdentifierMeta, L.Pairwise (fun x y => x.start ≤ y.start) →
      ∀ z ∈ L.dropWhile (fun m => decide (m.start < a)), a ≤ z.start := by
  intro L
  induction L with
  | nil => intro _ z hz; cases hz
  | cons x tl ih =>
    intro hs z hz
    rw [List.dropWhile_cons] at hz
    by_cases hx : x.start < a
    · rw [if_pos (show decide (x.start < a) = true from decide_eq_true hx)] at hz
      exact ih hs.of_cons z hz
    · rw [if_neg (show ¬ decide (x.start < a) = true by simpa using hx)] at hz
      rcases List.mem_cons.mp hz with hze | hz2
      · subst hze
        omega
      · have := List.rel_of_pairwise_cons hs hz2
        omega

/-- find_identifier_range with a valid span returns exactly the identifier
occurrences lying inside it: the break in the Python generator never cuts
off a later in-range identifier, because identifier spans are disjoint and
start-sorted. -/
theorem find_identifier_range_eq {src : List Char} {t : SourceTables} {pos : Nat}
    (hmk : mkSourceTables src = Except.ok (t, pos)) (a b : Nat) (hab : a < b) :
    find_identifier_range t a b = Except.ok (identifiers_between t a b) := by
  obtain ⟨hsort, hmemiff, hbounds, hmem2, hss1, hss2⟩ := metas_facts hmk
  have hsts := (mkSourceTables_spec hmk).2.2.2.2.2.2.2.1
  have hids := (mkSourceTables_spec hmk).2.2.2.1
  have hss := (mkSourceTables_spec hmk).2.2.2.2.2.2.1
  simp only [find_identifier_range]
  rw [if_neg (by omega : ¬ b ≤ a)]
  have hlen_eq : t.identifiers.length = t.identifier_metas_start_sorted.length := by
    rw [hids, List.length_map, hss]
    exact ((py_sort_perm _ _).length_eq).symm
  by_cases h0 : t.identifiers.length = 0
  · rw [if_pos h0]
    have hnil : t.identifier_metas_start_sorted = [] := by
      refine List.length_eq_zero.mp ?_
      omega
    rw [identifiers_between, hnil]
    rfl
  · rw [if_neg h0]
    have hleft_eq : bisect_left_nat t.identifier_starts a
        = (t.identifier_metas_start_sorted.takeWhile
          (fun m => decide (m.start < a))).length := by
      rw [hsts, bisect_left_nat, List.takeWhile_map, List.length_map]
      rfl
    by_cases hleft : bisect_left_nat t.identifier_starts a = t.identifiers.length
    · rw [if_pos hleft]
      have hall : ∀ m ∈ t.identifier_metas_start_sorted, m.start < a := by
        have htw : t.identifier_metas_start_sorted.takeWhile
            (fun m => decide (m.start < a)) = t.identifier_metas_start_sorted := by
          refine List.IsPrefix.eq_of_length (List.takeWhile_prefix _) ?_
          rw [← hleft_eq, hleft, hlen_eq]
        intro m hm
        rw [← htw] at hm
        have := List.mem_takeWhile_imp hm
        simpa using this
      have hfe : identifiers_between t a b = [] := by
        rw [identifiers_between]
        refine List.filter_eq_nil_iff.mpr ?_
        intro m hm hP
        simp only [Bool.and_eq_true, decide_eq_true_eq] at hP
        have := hall m hm
        omega
      rw [hfe]
    · rw [if_neg hleft]
      have hdrop : t.identifier_metas_start_sorted.drop
          (bisect_left_nat t.identifier_starts a)
          = t.identifier_metas_start_sorted.dropWhile (fun m => decide (m.start < a)) := by
        rw [hleft_eq, drop_length_takeWhile]
      rw [hdrop]
      have hdw_sorted_ss : (t.identifier_metas_start_sorted.dropWhile
          (fun m => decide (m.start < a))).Pairwise (fun x y => x.stop ≤ y.start) :=
        hss2.sublist (List.dropWhile_suffix _).sublist
      have hge := dropWhile_start_ge a t.identifier_metas_start_sorted hss1
      have hdw_bounds : ∀ m ∈ (t.identifier_metas_start_sorted.dropWhile
          (fun m => decide (m.start < a))), m.start < m.stop := by
        intro m hm
        exact (hbounds m ((hmem2 m).mp ((List.dropWhile_suffix _).subset hm))).1
      have hprop : (t.identifier_metas_start_sorted.dropWhile
          (fun m => decide (m.start < a))).Pairwise
          (fun x y => (decide (a ≤ x.start) && decide (x.stop ≤ b)) = false →
            (decide (a ≤ y.start) && decide (y.stop ≤ b)) = false) := by
        refine hdw_sorted_ss.imp_of_mem ?_
        intro x y hx hy hxy hPx
        have hax := hge x hx
        have hxb : ¬ x.stop ≤ b := by
          by_contra hc
          simp only [Bool.and_eq_false_iff, decide_eq_false_iff_not] at hPx
          rcases hPx with h | h
          · exact h hax
          · exact h hc
        have hyy := hdw_bounds y hy
        simp only [Bool.and_eq_false_iff, decide_eq_false_iff_not]
        right
        omega
      have htwnil : (t.identifier_metas_start_sorted.takeWhile
          (fun m => decide (m.start < a))).filter
          (fun m => decide (a ≤ m.start) && decide (m.stop ≤ b)) = [] := by
        refine List.filter_eq_nil_iff.mpr ?_
        intro m hm hP
        have hlt := List.mem_takeWhile_imp hm
        simp only [decide_eq_true_eq] at hlt
        simp only [Bool.and_eq_true, decide_eq_true_eq] at hP
        omega
      have hsplit := List.takeWhile_append_dropWhile
        (fun m : IdentifierMeta => decide (m.start < a)) t.identifier_metas_start_sorted
      have hfeq : t.identifier_metas_start_sorted.filter
          (fun m => decide (a ≤ m.start) && decide (m.stop ≤ b))
          = (t.identifier_metas_start_sorted.dropWhile
              (fun m => decide (m.start < a))).filter
            (fun m => decide (a ≤ m.start) && decide (m.stop ≤ b)) := by
        conv_lhs => rw [← hsplit]
        rw [List.filter_append, htwnil, List.nil_append]
      rw [identifiers_between, hfeq, ← filter_eq_takeWhile_of_pairwise _ hprop]

/-- The backward template heuristic never raises on successfully
constructed tables: both symbol lookups hit existing keys, and when a
previous boundary exists it lies strictly before the keyword, so the
assert inside find_identifier_range passes. -/
theorem detect_template_ok {src : List Char} {t : SourceTables} {pos : Nat}
    (hmk : mkSourceTables src = Except.ok (t, pos)) (s : Nat) :
    ∃ b, detect_template t s = Except.ok b := by
  obtain ⟨pls, hgs⟩ := symbol_key_some hmk ';' (by decide)
  obtain ⟨plc, hgc⟩ := symbol_key_some hmk rcurly (by decide)
  simp only [detect_template, bind, Except.bind,
    find_symbols_zero_some_eq hgs (s - 1), find_symbols_zero_some_eq hgc (s - 1)]
  by_cases hemp : ((pls.takeWhile (fun q => decide (q < s - 1))).isEmpty
      && (plc.takeWhile (fun q => decide (q < s - 1))).isEmpty) = true
  · rw [if_pos hemp]
    exact ⟨false, rfl⟩
  · rw [if_neg hemp]
    have hbound : ∀ pl2 : List Nat, (pl2.takeWhile (fun q => decide (q < s - 1))) ≠ [] →
        (pl2.takeWhile (fun q => decide (q < s - 1))).getLastD 0 < s - 1 := by
      intro pl2 hne
      have hmem : (pl2.takeWhile (fun q => decide (q < s - 1))).getLastD 0
          ∈ pl2.takeWhile (fun q => decide (q < s - 1)) := by
        rw [List.getLastD_eq_getLast? _ _, List.getLast?_eq_getLast _ hne]
        exact List.getLast_mem hne
      have := List.mem_takeWhile_imp hmem
      simpa using this
    have hmax : ((pls.takeWhile (fun q => decide (q < s - 1))).getLastD 0).max
        ((plc.takeWhile (fun q => decide (q < s - 1))).getLastD 0) < s - 1 := by
      rw [Nat.max_lt]
      by_cases h1 : (pls.takeWhile (fun q => decide (q < s - 1))) = []
      · by_cases h2 : (plc.takeWhile (fun q => decide (q < s - 1))) = []
        · exfalso
          exact hemp (by rw [h1, h2]; rfl)
        · have hb2 := hbound plc h2
          rw [h1]
          have hz : ([] : List Nat).getLastD 0 = 0 := rfl
          rw [hz]
          omega
      · have hb1 := hbound pls h1
        by_cases h2 : (plc.takeWhile (fun q => decide (q < s - 1))) = []
        · rw [h2]
          have hz : ([] : List Nat).getLastD 0 = 0 := rfl
          rw [hz]
          omega
        · have hb2 := hbound plc h2
          omega
    rw [find_identifier_range_eq hmk _ _ hmax]
    exact ⟨_, rfl⟩

/-- Full characterization of the find_all_class_def loop body on one
keyword occurrence, in terms of the first recorded curly and semicolon
after the keyword and the identifiers before the body. -/
theorem process_class_meta_spec :
    ∀ (src : List Char) (t : SourceTables) (pos : Nat),
      mkSourceTables src = Except.ok (t, pos) →
      ∀ meta : IdentifierMeta,
      (first_symbol_from t lcurly meta.stop = none →
        process_class_meta t meta = Except.ok none) ∧
      (first_symbol_from t ';' meta.stop = none →
        process_class_meta t meta = Except.ok none) ∧
      (∀ nc nsemi, first_symbol_from t lcurly meta.stop = some nc →
        first_symbol_from t ';' meta.stop = some nsemi → nsemi < nc →
        process_class_meta t meta = Except.ok none) ∧
      (∀ nc nsemi, first_symbol_from t lcurly meta.stop = some nc →
        first_symbol_from t ';' meta.stop = some nsemi → ¬ nsemi < nc →
        meta.stop < nc →
        (identifiers_between t meta.stop nc = [] →
          process_class_meta t meta = Except.ok none) ∧
        (∀ pr tmpl, _start_to_bracket_pair t nc = some pr →
          detect_template t meta.start = Except.ok tmpl →
          identifiers_between t meta.stop nc ≠ [] →
          process_class_meta t meta = Except.ok (some
            ⟨class_name_of (identifiers_between t meta.stop nc),
              meta.start, nc, pr.2.2, [], tmpl⟩))) ∧
      (∀ nc nsemi, first_symbol_from t lcurly meta.stop = some nc →
        first_symbol_from t ';' meta.stop = some nsemi → ¬ nsemi < nc →
        nc = meta.stop →
        process_class_meta t meta = Except.error PyErr.assertion_error) := by
  intro src t pos hmk meta
  obtain ⟨plc, hgc⟩ := symbol_key_some hmk lcurly (by decide)
  obtain ⟨pls, hgs⟩ := symbol_key_some hmk ';' (by decide)
  have hfs_c : first_symbol_from t lcurly meta.stop
      = (plc.dropWhile (fun q => decide (q < meta.stop))).head? := by
    rw [first_symbol_from, hgc]
    rfl
  have hfs_s : first_symbol_from t ';' meta.stop
      = (pls.dropWhile (fun q => decide (q < meta.stop))).head? := by
    rw [first_symbol_from, hgs]
    rfl
  refine ⟨?_, ?_, ?_, ?_, ?_⟩
  · intro h1
    rw [hfs_c] at h1
    simp only [process_class_meta, bind, Except.bind, pure, Except.pure,
      find_symbols_none_eq hgc, find_symbols_none_eq hgs, h1]
  · intro h2
    rw [hfs_s] at h2
    cases hc2 : (plc.dropWhile (fun q => decide (q < meta.stop))).head? with
    | none =>
      simp only [process_class_meta, bind, Except.bind, pure, Except.pure,
        find_symbols_none_eq hgc, find_symbols_none_eq hgs, hc2]
    | some nc =>
      simp only [process_class_meta, bind, Except.bind, pure, Except.pure,
        find_symbols_none_eq hgc, find_symbols_none_eq hgs, hc2, h2]
  · intro nc nsemi hcn hsn hlt
    rw [hfs_c] at hcn
    rw [hfs_s] at hsn
    simp only [process_class_meta, bind, Except.bind, pure, Except.pure,
      find_symbols_none_eq hgc, find_symbols_none_eq hgs, hcn, hsn]
    rw [if_pos hlt]
  · intro nc nsemi hcn hsn hnlt hstop
    rw [hfs_c] at hcn
    rw [hfs_s] at hsn
    have hncmem : nc ∈ plc := (head?_dropWhile_spec _ _ _ hcn).1
    obtain ⟨prx, hprx, hprx2⟩ := start_to_bracket_pair_some hmk (by decide) hgc hncmem
    obtain ⟨tml, html⟩ := detect_template_ok hmk meta.start
    have hfir : find_identifier_range t meta.stop nc
        = Except.ok (identifiers_between t meta.stop nc) :=
      find_identifier_range_eq hmk _ _ hstop
    constructor
    · intro hempty
      simp only [process_class_meta, bind, Except.bind, pure, Except.pure,
        find_symbols_none_eq hgc, find_symbols_none_eq hgs, hcn, hsn]
      rw [if_neg hnlt]
      simp only [hprx, html, hfir, hempty]
      rfl
    · intro pr tmpl hpr htm hne
      have hfir2 : find_identifier_range t meta.stop nc
          = Except.ok (identifiers_between t meta.stop nc) := hfir
      simp only [process_class_meta, bind, Except.bind, pure, Except.pure,
        find_symbols_none_eq hgc, find_symbols_none_eq hgs, hcn, hsn]
      rw [if_neg hnlt]
      simp only [hpr, htm, hfir2]
      rw [if_neg (show ¬ (identifiers_between t meta.stop nc).isEmpty = true from
        fun hiso => hne (List.isEmpty_iff.mp hiso))]
      rfl
  · intro nc nsemi hcn hsn hnlt heq
    rw [hfs_c] at hcn
    rw [hfs_s] at hsn
    have hncmem : nc ∈ plc := (head?_dropWhile_spec _ _ _ hcn).1
    obtain ⟨prx, hprx, hprx2⟩ := start_to_bracket_pair_some hmk (by decide) hgc hncmem
    obtain ⟨tml, html⟩ := detect_template_ok hmk meta.start
    have hfir : find_identifier_range t meta.stop nc
        = Except.error PyErr.assertion_error := by
      simp only [find_identifier_range]
      rw [if_pos (by omega : nc ≤ meta.stop)]
    simp only [process_class_meta, bind, Except.bind, pure, Except.pure,
      find_symbols_none_eq hgc, find_symbols_none_eq hgs, hcn, hsn]
    rw [if_neg hnlt]
    simp only [hprx, html, hfir]

/-- C1.  For a class/struct keyword occurrence, find_all_class_def (through
its loop body process_class_meta) skips the occurrence when no `\x7b` is
recorded after the keyword, when no `;` is recorded after the keyword (the
claim instead predicted an emission in that case), or when the first `;`
precedes the first `\x7b` (forward declaration); when the first `\x7b`
strictly follows the keyword and the first `;` does not precede it, the
matched bracket pair becomes the class body and a ClassDef is emitted
exactly when at least one identifier lies between the keyword and the
`\x7b`; and when the first `\x7b` begins exactly at the keyword's end the
pass instead raises an AssertionError. -/
theorem C1_theorem :
    ∀ (src : List Char) (t : SourceTables) (pos : Nat),
      mkSourceTables src = Except.ok (t, pos) →
      ∀ meta ∈ class_struct_metas t,
      (first_symbol_from t lcurly meta.stop = none →
        process_class_meta t meta = Except.ok none) ∧
      (first_symbol_from t ';' meta.stop = none →
        process_class_meta t meta = Except.ok none) ∧
      (∀ nc nsemi, first_symbol_from t lcurly meta.stop = some nc →
        first_symbol_from t ';' meta.stop = some nsemi → nsemi < nc →
        process_class_meta t meta = Except.ok none) ∧
      (∀ nc nsemi, first_symbol_from t lcurly meta.stop = some nc →
        first_symbol_from t ';' meta.stop = some nsemi → ¬ nsemi < nc →
        meta.stop < nc →
        (identifiers_between t meta.stop nc = [] →
          process_class_meta t meta = Except.ok none) ∧
        (∀ pr tmpl, _start_to_bracket_pair t nc = some pr →
          detect_template t meta.start = Except.ok tmpl →
          identifiers_between t meta.stop nc ≠ [] →
          process_class_meta t meta = Except.ok (some
            ⟨class_name_of (identifiers_between t meta.stop nc),
              meta.start, nc, pr.2.2, [], tmpl⟩))) ∧
      (∀ nc nsemi, first_symbol_from t lcurly meta.stop = some nc →
        first_symbol_from t ';' meta.stop = some nsemi → ¬ nsemi < nc →
        nc = meta.stop →
        process_class_meta t meta = Except.error PyErr.assertion_error) :=
  fun src t pos hmk meta _ => process_class_meta_spec src t pos hmk meta

/-- C1, witness: on `class A\x7b\x7d;` the keyword occupies [0, 5), the
first recorded curly is 7, the first semicolon is 9, the identifier `A`
lies between, and the emit case of the characterization yields the
ClassDef with body (7, 8). -/
theorem C1_witness :
    process_class_meta (tables_of c4src) ⟨chars "class", 0, 5⟩
      = Except.ok (some ⟨chars "A", 0, 7, 8, [], false⟩) := by
  have h := ((C1_theorem c4src (tables_of c4src) 10 (by rfl) ⟨chars "class", 0, 5⟩
    (by decide)).2.2.2.1) 7 9 (by rfl) (by rfl) (by decide) (by decide)
  have h2 := h.2 (lcurly, 7, 8) false (by rfl) (by rfl) (by decide)
  exact h2.trans (by rfl)

/-! ### Totality of the navigation walks and shapes of scan errors -/

theorem ws_step_not_strict {src : List Char} {igr : List (Nat × Nat)}
    (hstart : ∀ r ∈ igr, ignore_start_chars.contains (charAt src r.1) = true)
    {p : Nat} (hnsi : ¬ StrictInside igr p)
    (hws : skip_chars.contains (charAt src p) = true) :
    ¬ StrictInside igr (p + 1) := by
  intro hc
  obtain ⟨r, hr, h1, h2⟩ := hc
  by_cases he : r.1 = p
  · have hctr := hstart r hr
    rw [he] at hctr
    have hd := (ignore_start_char_not_symbol _ hctr).1
    rw [hd] at hws
    cases hws
  · exact hnsi ⟨r, hr, by omega, by omega⟩

theorem skip_string_comment_not_strict {src : List Char} {t : SourceTables} {pos : Nat}
    (hmk : mkSourceTables src = Except.ok (t, pos)) (p : Nat) :
    ¬ StrictInside t.ignore_ranges (skip_string_comment t p) := by
  have higr := (mkSourceTables_spec hmk).2.2.2.2.1
  have higs := (mkSourceTables_spec hmk).2.2.2.2.2.1
  have hpwr : t.ignore_ranges.Pairwise (fun a b => a.2 ≤ b.1) := by
    rw [higr]
    exact (ignore_ranges_facts src).2
  have hok : ∀ r ∈ t.ignore_ranges, r.1 < r.2 := by
    rw [higr]
    exact fun r hr => ((ignore_ranges_facts src).1 r hr).1
  rw [skip_string_comment, higs]
  exact skip_ignore_not_strict_inside _ hpwr hok p

theorem next_bracket_walk_ok {src : List Char} {t : SourceTables} {pos : Nat}
    (hmk : mkSourceTables src = Except.ok (t, pos)) {bracket : Char}
    (hbr : bracket ∈ open_brackets) :
    ∀ fuel p, ¬ StrictInside t.ignore_ranges p →
      ∃ r pos', next_bracket_walk t bracket fuel p = Except.ok (r, pos') := by
  have hsrc : t.source = src := (mkSourceTables_spec hmk).1
  have hlen : t.length = src.length := (mkSourceTables_spec hmk).2.2.2.2.2.2.2.2.1
  have higr := (mkSourceTables_spec hmk).2.2.2.2.1
  have hstart : ∀ r ∈ t.ignore_ranges,
      ignore_start_chars.contains (charAt src r.1) = true := by
    rw [higr]
    exact fun r hr => ((ignore_ranges_facts src).1 r hr).2.2
  have hcompl := (tables_scan_facts hmk).2.2.2.2
  intro fuel
  induction fuel with
  | zero => intro p hp; exact ⟨none, p, rfl⟩
  | succ fuel ih =>
    intro p hp
    simp only [next_bracket_walk]
    by_cases hlt : p < t.length
    · rw [if_pos hlt]
      by_cases hws : skip_chars.contains (charAt t.source p) = true
      · rw [if_pos hws]
        refine ih (p + 1) ?_
        refine ws_step_not_strict hstart hp ?_
        rw [← hsrc]
        exact hws
      · rw [if_neg hws]
        by_cases hbq : (charAt t.source p == bracket) = true
        · rw [if_pos hbq]
          have hchar : charAt src p = bracket := by
            rw [← hsrc]
            exact eq_of_beq hbq
          have hplen : p < src.length := by omega
          have hmem := hcompl p hplen hp (by rw [hchar]; exact open_sub_symbols _ hbr)
          rw [hchar] at hmem
          obtain ⟨pl, hg⟩ := symbol_key_some hmk bracket (open_sub_symbols _ hbr)
          have hmem2 : p ∈ pl := by
            rw [hg] at hmem
            exact hmem
          obtain ⟨pr, hpr, _⟩ := start_to_bracket_pair_some hmk hbr hg hmem2
          rw [hpr]
          exact ⟨some (p, pr.2.2), pr.2.2 + 1, rfl⟩
        · rw [if_neg hbq]
          exact ⟨none, p, rfl⟩
    · rw [if_neg hlt]
      exact ⟨none, p, rfl⟩

theorem next_bracket_ok {src : List Char} {t : SourceTables} {pos : Nat}
    (hmk : mkSourceTables src = Except.ok (t, pos)) {bracket : Char}
    (hbr : bracket ∈ open_brackets) (p : Nat) :
    ∃ r pos', next_bracket t bracket p = Except.ok (r, pos') := by
  rw [next_bracket]
  exact next_bracket_walk_ok hmk hbr _ _ (skip_string_comment_not_strict hmk p)

theorem scan_aux_error_shape (src : List Char) (igs : List Nat) (igr : List (Nat × Nat)) :
    ∀ fuel pos st e, scan_aux src igs igr fuel pos st = Except.error e →
      ∃ c p, e = PyErr.unbalanced_bracket c p ∧ p < src.length ∧ charAt src p = c ∧
        (c = ')' ∨ c = ']' ∨ c = rcurly) := by
  intro fuel
  induction fuel with
  | zero => intro pos st e h; simp only [scan_aux] at h; cases h
  | succ fuel ih =>
    intro pos st e h
    simp only [scan_aux] at h
    by_cases hlt : pos < src.length
    · rw [if_pos hlt] at h
      by_cases hws : skip_chars.contains (charAt src pos) = true
      · rw [if_pos hws] at h
        exact ih _ _ _ h
      · rw [if_neg hws] at h
        by_cases htr : (assoc_get? st.poses (charAt src pos)).isSome = true
        · rw [if_pos htr] at h
          generalize ({ st with
            poses := assoc_modify st.poses (charAt src pos) (fun l => l ++ [pos]) }
            : ScanState) = st1 at h
          by_cases hop : open_brackets.contains (charAt src pos) = true
          · rw [if_pos hop] at h
            exact ih _ _ _ h
          · rw [if_neg hop] at h
            cases hend : assoc_get? end_brackets (charAt src pos) with
            | none =>
              simp only [hend] at h
              exact ih _ _ _ h
            | some ek =>
              simp only [hend] at h
              cases hstk : assoc_get? st1.bracket_stack ek with
              | none =>
                simp only [hstk] at h
                cases h
                refine ⟨charAt src pos, pos, rfl, hlt, rfl, ?_⟩
                rcases end_brackets_get hend with ⟨hv, _⟩ | ⟨hv, _⟩ | ⟨hv, _⟩
                · exact Or.inl hv
                · exact Or.inr (Or.inl hv)
                · exact Or.inr (Or.inr hv)
              | some stk =>
                simp only [hstk] at h
                cases hlast : stk.getLast? with
                | none =>
                  simp only [hlast] at h
                  cases h
                  refine ⟨charAt src pos, pos, rfl, hlt, rfl, ?_⟩
                  rcases end_brackets_get hend with ⟨hv, _⟩ | ⟨hv, _⟩ | ⟨hv, _⟩
                  · exact Or.inl hv
                  · exact Or.inr (Or.inl hv)
                  · exact Or.inr (Or.inr hv)
                | some sp =>
                  simp only [hlast] at h
                  exact ih _ _ _ h
        · rw [if_neg htr] at h
          by_cases hop : open_brackets.contains (charAt src pos) = true
          · rw [if_pos hop] at h
            exact ih _ _ _ h
          · rw [if_neg hop] at h
            cases hend : assoc_get? end_brackets (charAt src pos) with
            | none =>
              simp only [hend] at h
              exact ih _ _ _ h
            | some ek =>
              simp only [hend] at h
              cases hstk : assoc_get? st.bracket_stack ek with
              | none =>
                simp only [hstk] at h
                cases h
                refine ⟨charAt src pos, pos, rfl, hlt, rfl, ?_⟩
                rcases end_brackets_get hend with ⟨hv, _⟩ | ⟨hv, _⟩ | ⟨hv, _⟩
                · exact Or.inl hv
                · exact Or.inr (Or.inl hv)
                · exact Or.inr (Or.inr hv)
              | some stk =>
                simp only [hstk] at h
                cases hlast : stk.getLast? with
                | none =>
                  simp only [hlast] at h
                  cases h
                  refine ⟨charAt src pos, pos, rfl, hlt, rfl, ?_⟩
                  rcases end_brackets_get hend with ⟨hv, _⟩ | ⟨hv, _⟩ | ⟨hv, _⟩
                  · exact Or.inl hv
                  · exact Or.inr (Or.inl hv)
                  · exact Or.inr (Or.inr hv)
                | some sp =>
                  simp only [hlast] at h
                  exact ih _ _ _ h
    · rw [if_neg hlt] at h
      cases h

theorem mkSourceTables_error_shape {src : List Char} {e : PyErr}
    (h : mkSourceTables src = Except.error e) :
    (∃ c p, e = PyErr.unbalanced_bracket c p ∧ p < src.length ∧ charAt src p = c ∧
      (c = ')' ∨ c = ']' ∨ c = rcurly)) ∨
    (∃ k, e = PyErr.unbalanced_end k ∧ k ∈ open_brackets) := by
  simp only [mkSourceTables] at h
  cases hscan : _init_bracket_analysis src
      ((ignore_ranges_of (cpp_simple_tokenize src)).map (fun r => r.1))
      (ignore_ranges_of (cpp_simple_tokenize src)) with
  | ok pr => simp only [hscan] at h; cases h
  | error e2 =>
    simp only [hscan] at h
    cases h
    rw [_init_bracket_analysis] at hscan
    cases hrun : scan_aux src
        ((ignore_ranges_of (cpp_simple_tokenize src)).map (fun r => r.1))
        (ignore_ranges_of (cpp_simple_tokenize src)) (src.length + 1)
        (skip_ignore ((ignore_ranges_of (cpp_simple_tokenize src)).map (fun r => r.1))
          (ignore_ranges_of (cpp_simple_tokenize src)) 0) scan_init with
    | error e3 =>
      simp only [hrun] at hscan
      cases hscan
      exact Or.inl (scan_aux_error_shape src _ _ _ _ _ _ hrun)
    | ok stp =>
      obtain ⟨stf, posf⟩ := stp
      simp only [hrun] at hscan
      cases hfind : stf.bracket_stack.find? (fun kv => !kv.2.isEmpty) with
      | none => simp only [hfind] at hscan; cases hscan
      | some kv =>
        simp only [hfind] at hscan
        cases hscan
        refine Or.inr ⟨kv.1, rfl, ?_⟩
        have hfacts := ignore_ranges_facts src
        obtain ⟨hfinv, hmono2, hcomp2⟩ := scan_aux_inv src
          (ignore_ranges_of (cpp_simple_tokenize src))
          hfacts.2 (fun r hr => (hfacts.1 r hr).1) (fun r hr => (hfacts.1 r hr).2.2)
          (src.length + 1) _ scan_init stf posf
          (by
            have := skip_ignore_le (ignore_ranges_of (cpp_simple_tokenize src))
              hfacts.2 (fun r hr => (hfacts.1 r hr).1) 0
            omega)
          (skip_ignore_not_strict_inside _ hfacts.2 (fun r hr => (hfacts.1 r hr).1) 0)
          (scan_inv_init _ _ _) hrun
        have hmemkv := List.mem_of_find?_eq_some hfind
        have hx : kv.1 ∈ stf.bracket_stack.map Prod.fst := List.mem_map_of_mem _ hmemkv
        rw [hfinv.2.1] at hx
        exact hx

theorem exceptFilterMap_error_mem {f : α → Except ε (Option β)} {e : ε} :
    ∀ l : List α, exceptFilterMap f l = Except.error e → ∃ a ∈ l, f a = Except.error e := by
  intro l
  induction l with
  | nil => intro h; cases h
  | cons x xs ih =>
    intro h
    rw [exceptFilterMap] at h
    cases hfx : f x with
    | error e2 =>
      simp only [hfx] at h
      cases h
      exact ⟨x, List.mem_cons_self x xs, hfx⟩
    | ok o =>
      simp only [hfx] at h
      cases o with
      | none =>
        obtain ⟨a, ha, hfa⟩ := ih h
        exact ⟨a, List.mem_cons.mpr (Or.inr ha), hfa⟩
      | some b =>
        cases hrest : exceptFilterMap f xs with
        | error e2 =>
          simp only [hrest] at h
          cases h
          obtain ⟨a, ha, hfa⟩ := ih hrest
          exact ⟨a, List.mem_cons.mpr (Or.inr ha), hfa⟩
        | ok bs =>
          simp only [hrest] at h
          cases h

theorem exceptFilterMap_not_ok_of_mem {f : α → Except ε (Option β)} {a : α} {e : ε} :
    ∀ l : List α, a ∈ l → f a = Except.error e →
      ∀ r, exceptFilterMap f l ≠ Except.ok r := by
  intro l
  induction l with
  | nil => intro ha; cases ha
  | cons x xs ih =>
    intro ha hfa r h
    rw [exceptFilterMap] at h
    rcases List.mem_cons.mp ha with hax | hax
    · subst hax
      simp only [hfa] at h
      cases h
    · cases hfx : f x with
      | error e2 =>
        simp only [hfx] at h
        cases h
      | ok o =>
        simp only [hfx] at h
        cases o with
        | none => exact ih hax hfa r h
        | some b =>
          cases hrest : exceptFilterMap f xs with
          | error e2 =>
            simp only [hrest] at h
            cases h
          | ok bs =>
            exact ih hax hfa bs hrest

/-! ### Totality of the discovery passes and the construction iff -/

theorem process_class_meta_error {src : List Char} {t : SourceTables} {pos : Nat}
    (hmk : mkSourceTables src = Except.ok (t, pos)) (meta : IdentifierMeta)
    (hc : class_assert_cond t meta = true) :
    process_class_meta t meta = Except.error PyErr.assertion_error := by
  obtain ⟨pls, hgs⟩ := symbol_key_some hmk ';' (by decide)
  have hfs_s : first_symbol_from t ';' meta.stop
      = (pls.dropWhile (fun q => decide (q < meta.stop))).head? := by
    rw [first_symbol_from, hgs]
    rfl
  rw [class_assert_cond, Bool.and_eq_true] at hc
  obtain ⟨h1, h2⟩ := hc
  have h1' : first_symbol_from t lcurly meta.stop = some meta.stop := beq_iff_eq.mp h1
  obtain ⟨nsemi, hs⟩ := Option.isSome_iff_exists.mp h2
  have hs2 := hs
  rw [hfs_s] at hs2
  have hges := (head?_dropWhile_spec _ _ _ hs2).2
  have hnlt : ¬ nsemi < meta.stop := by simpa using hges
  exact (process_class_meta_spec src t pos hmk meta).2.2.2.2 meta.stop nsemi h1' hs hnlt rfl

theorem process_class_meta_ok {src : List Char} {t : SourceTables} {pos : Nat}
    (hmk : mkSourceTables src = Except.ok (t, pos)) (meta : IdentifierMeta)
    (hnc : ¬ class_assert_cond t meta = true) :
    ∃ o, process_class_meta t meta = Except.ok o := by
  have hspec := process_class_meta_spec src t pos hmk meta
  obtain ⟨plc, hgc⟩ := symbol_key_some hmk lcurly (by decide)
  have hfs_c : first_symbol_from t lcurly meta.stop
      = (plc.dropWhile (fun q => decide (q < meta.stop))).head? := by
    rw [first_symbol_from, hgc]
    rfl
  cases hcu : first_symbol_from t lcurly meta.stop with
  | none => exact ⟨none, hspec.1 hcu⟩
  | some nc =>
    cases hse : first_symbol_from t ';' meta.stop with
    | none => exact ⟨none, hspec.2.1 hse⟩
    | some nsemi =>
      by_cases hlt : nsemi < nc
      · exact ⟨none, hspec.2.2.1 nc nsemi hcu hse hlt⟩
      · have hcu2 := hcu
        rw [hfs_c] at hcu2
        have hge : ¬ nc < meta.stop := by
          have := (head?_dropWhile_spec _ _ _ hcu2).2
          simpa using this
        have hncmem : nc ∈ plc := (head?_dropWhile_spec _ _ _ hcu2).1
        have hne : nc ≠ meta.stop := by
          intro he
          apply hnc
          rw [class_assert_cond, hcu, he, hse]
          simp
        have hstop : meta.stop < nc := by omega
        obtain ⟨hemp_case, hemit⟩ := hspec.2.2.2.1 nc nsemi hcu hse hlt hstop
        by_cases hempty : identifiers_between t meta.stop nc = []
        · exact ⟨none, hemp_case hempty⟩
        · obtain ⟨prx, hprx, _⟩ := start_to_bracket_pair_some hmk (by decide) hgc hncmem
          obtain ⟨tml, html⟩ := detect_template_ok hmk meta.start
          exact ⟨_, hemit prx tml hprx html hempty⟩

theorem find_all_class_def_ok {src : List Char} {t : SourceTables} {pos : Nat}
    (hmk : mkSourceTables src = Except.ok (t, pos))
    (hall : ∀ m ∈ class_struct_metas t, ¬ class_assert_cond t m = true) :
    ∃ res, find_all_class_def_results t = Except.ok res := by
  rw [find_all_class_def_results]
  exact exceptFilterMap_ok_of_all (fun m hm => process_class_meta_ok hmk m (hall m hm))

theorem namespace_range_one_ok {src : List Char} {t : SourceTables} {pos : Nat}
    (hmk : mkSourceTables src = Except.ok (t, pos)) (meta : IdentifierMeta) :
    ∃ o, namespace_range_one t meta = Except.ok o := by
  rw [namespace_range_one]
  simp only [bind, Except.bind, pure, Except.pure]
  cases hni : next_identifier t meta.stop with
  | mk io p2 =>
    simp only [hni]
    cases io with
    | none => exact ⟨none, rfl⟩
    | some iden =>
      obtain ⟨r, pos2, hnc⟩ := next_bracket_ok hmk
        (show lcurly ∈ open_brackets by decide) iden.stop
      have hnc2 : next_curly t iden.stop = Except.ok (r, pos2) := hnc
      simp only [hnc2]
      cases r with
      | none => exact ⟨none, rfl⟩
      | some pair =>
        cases hsp : _start_to_bracket_pair t pair.1 with
        | none => simp only [hsp]; exact ⟨none, rfl⟩
        | some pr => simp only [hsp]; exact ⟨_, rfl⟩

theorem get_namespace_ranges_results_ok {src : List Char} {t : SourceTables} {pos : Nat}
    (hmk : mkSourceTables src = Except.ok (t, pos)) (cdefs : List ClassDef) :
    ∃ res, get_namespace_ranges_results t cdefs = Except.ok res := by
  rw [get_namespace_ranges_results]
  simp only [bind, Except.bind, pure, Except.pure]
  obtain ⟨res, hres⟩ := exceptFilterMap_ok_of_all
    (fun m _ => namespace_range_one_ok hmk m)
  rw [hres]
  exact ⟨_, rfl⟩

theorem find_function_prefix_one_ok {src : List Char} {t : SourceTables} {pos : Nat}
    (hmk : mkSourceTables src = Except.ok (t, pos))
    {it : CppSourceIterator} (htab : it.tables = t) (fa dO : Bool)
    (meta0 : IdentifierMeta) :
    ∃ o, find_function_prefix_one it fa dO meta0 = Except.ok o := by
  rw [ find_function_prefix_one]
  simp only [bind, Except.bind, pure, Except.pure]
  cases hopt : (if fa = true then (next_identifier it.tables meta0.stop).1
      else some meta0) with
  | none => simp only [hopt]; exact ⟨none, rfl⟩
  | some meta =>
    simp only [hopt]
    obtain ⟨r, posR2, hrp⟩ := next_bracket_ok hmk
      (show '(' ∈ open_brackets by decide) meta.stop
    have hrp2 : next_round it.tables meta.stop = Except.ok (r, posR2) := by
      rw [next_round, htab]
      exact hrp
    simp only [hrp2]
    cases r with
    | none => exact ⟨none, rfl⟩
    | some round_pair =>
      obtain ⟨tml, html⟩ := detect_template_ok hmk meta.start
      have html2 : detect_template it.tables meta.start = Except.ok tml := by
        rw [htab]
        exact html
      simp only [html2]
      cases hni : next_identifier it.tables posR2 with
      | mk ideno posI =>
        simp only [hni]
        split
        · exact ⟨none, rfl⟩
        · obtain ⟨rc, posC2, hcp⟩ := next_bracket_ok hmk
            (show lcurly ∈ open_brackets by decide) posI
          have hcp2 : next_curly it.tables posI = Except.ok (rc, posC2) := by
            rw [next_curly, htab]
            exact hcp
          simp only [hcp2]
          cases rc with
          | some curly_pair => exact ⟨_, rfl⟩
          | none =>
            by_cases hdo : dO = true
            · rw [if_pos hdo]
              cases hns : (next_semicolon it.tables posC2).1 with
              | some s => simp only [hns]; exact ⟨_, rfl⟩
              | none => simp only [hns]; exact ⟨none, rfl⟩
            · rw [if_neg hdo]
              exact ⟨none, rfl⟩

theorem find_function_prefix_ok {src : List Char} {t : SourceTables} {pos : Nat}
    (hmk : mkSourceTables src = Except.ok (t, pos))
    {it : CppSourceIterator} (htab : it.tables = t)
    (pfx : List Char) (fa fm dO : Bool) (cur : Cursor) :
    ∃ r, find_function_prefix it pfx fa fm dO cur = Except.ok r := by
  rw [ find_function_prefix]
  obtain ⟨res, hres⟩ : ∃ res,
      find_function_prefix_results it pfx fa fm dO = Except.ok res := by
    rw [ find_function_prefix_results]
    exact exceptFilterMap_ok_of_all (fun m _ => find_function_prefix_one_ok hmk htab fa dO m)
  rw [hres]
  exact ⟨_, rfl⟩

theorem construct_ok_build {src : List Char} {t : SourceTables} {pos : Nat}
    (hmk : mkSourceTables src = Except.ok (t, pos))
    (hall : ∀ m ∈ class_struct_metas t, ¬ class_assert_cond t m = true) :
    ∃ itc, construct src = Except.ok itc := by
  obtain ⟨cdefs, hcd⟩ := find_all_class_def_ok hmk hall
  obtain ⟨ns0, hns⟩ := get_namespace_ranges_results_ok hmk cdefs
  have hfac : find_all_class_def t (reset_move pos)
      = Except.ok (cdefs, class_scan_cursor t (reset_move pos)) := by
    rw [find_all_class_def, hcd]
    rfl
  have hgn : get_namespace_ranges t cdefs (class_scan_cursor t (reset_move pos))
      = Except.ok (ns0, class_scan_cursor t (reset_move pos)) := by
    rw [get_namespace_ranges, hns]
    rfl
  show ∃ itc, construct src = Except.ok itc
  simp only [construct, bind, Except.bind, hmk, hfac, hgn]
  exact ⟨_, rfl⟩

theorem construct_ok_inv {src : List Char} {it : CppSourceIterator} {cur : Cursor}
    (h : construct src = Except.ok (it, cur)) :
    ∃ t pos, mkSourceTables src = Except.ok (t, pos) ∧
      ∀ m ∈ class_struct_metas t, ¬ class_assert_cond t m = true := by
  obtain ⟨t, pos, cdefs, ns0, hmk, hcd, hns, _, _, _, _⟩ := construct_spec h
  refine ⟨t, pos, hmk, ?_⟩
  intro m hm hc
  have herr := process_class_meta_error hmk m hc
  exact exceptFilterMap_not_ok_of_mem _ hm herr cdefs hcd

theorem construct_error_shape {src : List Char} {e : PyErr}
    (h : construct src = Except.error e) :
    (∃ c p, e = PyErr.unbalanced_bracket c p ∧ p < src.length ∧ charAt src p = c ∧
      (c = ')' ∨ c = ']' ∨ c = rcurly)) ∨
    (∃ k, e = PyErr.unbalanced_end k ∧ k ∈ open_brackets) ∨
    e = PyErr.assertion_error := by
  rw [construct] at h
  cases hm : mkSourceTables src with
  | error e2 =>
    simp only [bind, Except.bind, hm] at h
    cases h
    rcases mkSourceTables_error_shape hm with h1 | h1
    · exact Or.inl h1
    · exact Or.inr (Or.inl h1)
  | ok tp =>
    obtain ⟨t, spos⟩ := tp
    simp only [bind, Except.bind, hm] at h
    cases hr : find_all_class_def t (reset_move spos) with
    | error e2 =>
      simp only [hr] at h
      cases h
      have hre : find_all_class_def_results t = Except.error e := by
        rw [find_all_class_def] at hr
        cases hr2 : find_all_class_def_results t with
        | error e3 =>
          rw [hr2] at hr
          cases hr
          rfl
        | ok l =>
          rw [hr2] at hr
          cases hr
      obtain ⟨m, hm2, hperr⟩ := exceptFilterMap_error_mem _ hre
      by_cases hcm : class_assert_cond t m = true
      · have hpe := process_class_meta_error hm m hcm
        have he2 := Except.error.inj (hperr.symm.trans hpe)
        exact Or.inr (Or.inr he2)
      · obtain ⟨o, ho⟩ := process_class_meta_ok hm m hcm
        rw [hperr] at ho
        cases ho
    | ok p1 =>
      obtain ⟨cdefs, cur1⟩ := p1
      simp only [hr] at h
      cases hg : get_namespace_ranges t cdefs cur1 with
      | error e2 =>
        simp only [hg] at h
        cases h
        have hge : get_namespace_ranges_results t cdefs = Except.error e := by
          rw [get_namespace_ranges] at hg
          cases hg2 : get_namespace_ranges_results t cdefs with
          | error e3 =>
            rw [hg2] at hg
            cases hg
            rfl
          | ok l =>
            rw [hg2] at hg
            cases hg
        obtain ⟨res, hres⟩ := get_namespace_ranges_results_ok hm cdefs
        rw [hres] at hge
        cases hge
      | ok p2 =>
        obtain ⟨ns0, cur2⟩ := p2
        simp only [hg] at h
        simp only [ _update_class_def_namespace, pure, Except.pure] at h
        cases h

/-- C5.  Construction succeeds exactly when the bracket scan succeeds and
no class/struct keyword occurrence is immediately followed by its recorded
`\x7b` with a `;` after it; the bracket scan's errors name a real closing
bracket character and its position, or an unclosed open-bracket kind at
end of scan; any construction error is one of those two bracket errors or
the AssertionError from find_identifier_range; and on a successfully
constructed iterator every discovery pass returns without raising. -/
theorem C5_theorem :
    ∀ src : List Char,
      ((∃ itc, construct src = Except.ok itc) ↔
        ∃ t pos, mkSourceTables src = Except.ok (t, pos) ∧
          ∀ m ∈ class_struct_metas t, ¬ class_assert_cond t m = true) ∧
      (∀ e, mkSourceTables src = Except.error e →
        (∃ c p, e = PyErr.unbalanced_bracket c p ∧ p < src.length ∧ charAt src p = c ∧
          (c = ')' ∨ c = ']' ∨ c = rcurly)) ∨
        (∃ k, e = PyErr.unbalanced_end k ∧ k ∈ open_brackets)) ∧
      (∀ e, construct src = Except.error e →
        (∃ c p, e = PyErr.unbalanced_bracket c p ∧ p < src.length ∧ charAt src p = c ∧
          (c = ')' ∨ c = ']' ∨ c = rcurly)) ∨
        (∃ k, e = PyErr.unbalanced_end k ∧ k ∈ open_brackets) ∨
        e = PyErr.assertion_error) ∧
      (∀ it cur, construct src = Except.ok (it, cur) →
        (∀ pfx fa fm dO c2, ∃ r, find_function_prefix it pfx fa fm dO c2 = Except.ok r) ∧
        (∀ c2, ∃ r, find_all_class_def it.tables c2 = Except.ok r) ∧
        (∀ cds c2, ∃ r, get_namespace_ranges it.tables cds c2 = Except.ok r)) := by
  intro src
  refine ⟨⟨?_, ?_⟩, ?_, ?_, ?_⟩
  · rintro ⟨itc, h⟩
    obtain ⟨it, cur⟩ := itc
    exact construct_ok_inv h
  · rintro ⟨t, pos, hmk, hall⟩
    exact construct_ok_build hmk hall
  · intro e h
    exact mkSourceTables_error_shape h
  · intro e h
    exact construct_error_shape h
  · intro it cur hcon
    obtain ⟨t, pos, cdefs, ns0, hmk, hcd, hns, htab, _, _, _⟩ := construct_spec hcon
    have hall : ∀ m ∈ class_struct_metas t, ¬ class_assert_cond t m = true := by
      obtain ⟨t2, pos2, hmk2, hall2⟩ := construct_ok_inv hcon
      rw [hmk] at hmk2
      cases hmk2
      exact hall2
    refine ⟨?_, ?_, ?_⟩
    · intro pfx fa fm dO c2
      exact find_function_prefix_ok hmk htab pfx fa fm dO c2
    · intro c2
      obtain ⟨res, hres⟩ := find_all_class_def_ok hmk hall
      rw [htab]
      refine ⟨(res, class_scan_cursor t c2), ?_⟩
      rw [find_all_class_def, hres]
      rfl
    · intro cds c2
      obtain ⟨res, hres⟩ := get_namespace_ranges_results_ok hmk cds
      rw [htab]
      refine ⟨(res, c2), ?_⟩
      rw [get_namespace_ranges, hres]
      rfl

/-- C5, witness: on the constructible source `class A\x7b\x7d;` the
discovery-totality part of the theorem applies, so a repeated
find_all_class_def pass from cursor position 0 returns without raising. -/
theorem C5_witness :
    ∃ r, find_all_class_def (iter_of c4src).tables (reset_move 0) = Except.ok r :=
  (((C5_theorem c4src).2.2.2 (iter_of c4src) (reset_move 5) (by rfl)).2.1) (reset_move 0)

/-- C1, counterexample.  The claim predicts that a `class` keyword followed
by a `\x7b` and with no `;` anywhere after it in the file still yields a
ClassDef.  On `class A \x7b\x7d` construction succeeds, the keyword occurs at
[0,5), a curly is recorded at 8, an identifier `A` lies between them, no
semicolon is recorded anywhere — and find_all_class_def emits nothing. -/
theorem C1_counterexample :
    (construct c1src).map (fun p =>
      (p.1._class_defs, p.1.tables.identifier_metas,
        assoc_get? p.1.tables.symbol_to_poses lcurly,
        assoc_get? p.1.tables.symbol_to_poses ';')) =
    Except.ok ([], [⟨chars "A", 6, 7⟩, ⟨chars "class", 0, 5⟩], some [8], some []) := by
  decide

/-- C2: the code is wrong.  The spec says a trailing `const`, `override` or
`final` after the parameter list is accepted; the code compares the
IdentifierMeta object (not its name) against the string set, so every
trailing identifier disqualifies.  On `int f_add(int a) const \x7b ... \x7d`
with prefix `f_`, the parameter list is found at (9,15), the trailing
identifier after it is exactly `const` — and find_function_prefix returns
an empty list instead of the FunctionDef the spec requires. -/
theorem C2_theorem :
    ((construct c2src).bind (fun p =>
        find_function_prefix p.1 (chars "f_") false false false p.2) =
      Except.ok ([], ⟨36, ⟨0, 0, 0⟩⟩))
    ∧ ((construct c2src).map (fun p =>
        ((next_identifier p.1.tables 16).1.map (fun m => (m.name, m.start, m.stop)))) =
      Except.ok (some (chars "const", 17, 22))) := by
  constructor
  · decide
  · decide

/-- C3, counterexample.  On the template source discovered via prefix
`MARK_`, exactly one FunctionDef is yielded, and it has neither
is_template = true nor local_id "add": the claim is false at this input. -/
theorem C3_counterexample :
    ((construct c3src).bind (fun p =>
        find_function_prefix p.1 (chars "MARK_") false false false p.2)).map
      (fun r => (r.1.length,
        r.1.any (fun fd => fd.is_template && fd.local_id == chars "add"))) =
    Except.ok (1, false) := by
  decide

/-- C3, amended.  `template <class T> T MARK_add(T a, T b) \x7b ... \x7d`
discovered via prefix `MARK_` yields exactly one FunctionDef; its
is_template field is false, because the backward search for the `template`
keyword only runs when a `;` or `\x7d` precedes the occurrence and here
neither does, and its local_id is "MARK_add" (the matched identifier
itself, prefix included) with no enclosing scope contributing. -/
theorem C3_theorem :
    (construct c3src).bind (fun p =>
        find_function_prefix p.1 (chars "MARK_") false false false p.2) =
    Except.ok ([⟨chars "MARK_add", 21, 29, 38, 40, 56, chars "MARK_add", false⟩],
      ⟨15, ⟨0, 0, 0⟩⟩) := by
  decide

/-- C4, counterexample.  find_all_class_def does not restore the cursor: on
the iterator for `class A\x7b\x7d;` with the cursor moved to position 0, the
pass leaves the cursor at position 5 (the end of the `class` keyword) with
zeroed counters, not at its value before the call. -/
theorem C4_counterexample :
    (((construct c4src).bind (fun p =>
        find_all_class_def p.1.tables ⟨0, ⟨0, 0, 0⟩⟩)).map (fun r => r.2) =
      Except.ok (⟨5, ⟨0, 0, 0⟩⟩ : Cursor))
    ∧ (⟨5, ⟨0, 0, 0⟩⟩ : Cursor) ≠ (⟨0, ⟨0, 0, 0⟩⟩ : Cursor) := by
  constructor
  · decide
  · decide

/-- C4, amended.  find_function_prefix, find_marked_identifier and
get_namespace_ranges return results that do not depend on the incoming
cursor and restore the cursor exactly.  find_all_class_def also computes
cursor-independent results, but instead of restoring the cursor it leaves
it at the end of the last class/struct keyword occurrence with zeroed
counters (class_scan_cursor); this effect is idempotent, and construction
itself leaves the cursor exactly at that fixed point, so repeated calls on
a freshly constructed iterator return identical results and preserve the
observable cursor state, while an iterator whose cursor was moved
elsewhere is not restored. -/
theorem C4_theorem :
    (∀ it pfx fa fm dO (c₁ c₂ : Cursor),
      ( find_function_prefix it pfx fa fm dO c₁).map Prod.fst =
        ( find_function_prefix it pfx fa fm dO c₂).map Prod.fst)
    ∧ (∀ it pfx fa fm dO (c : Cursor) res,
        find_function_prefix it pfx fa fm dO c = Except.ok res → res.2 = c)
    ∧ (∀ it mark (c₁ c₂ : Cursor),
        (find_marked_identifier it mark c₁).1 = (find_marked_identifier it mark c₂).1)
    ∧ (∀ it mark (c : Cursor), (find_marked_identifier it mark c).2 = c)
    ∧ (∀ t cds (c₁ c₂ : Cursor),
        (get_namespace_ranges t cds c₁).map Prod.fst =
          (get_namespace_ranges t cds c₂).map Prod.fst)
    ∧ (∀ t cds (c : Cursor) res,
        get_namespace_ranges t cds c = Except.ok res → res.2 = c)
    ∧ (∀ t (c₁ c₂ : Cursor),
        (find_all_class_def t c₁).map Prod.fst = (find_all_class_def t c₂).map Prod.fst)
    ∧ (∀ t (c : Cursor) res,
        find_all_class_def t c = Except.ok res → res.2 = class_scan_cursor t c)
    ∧ (∀ t (c : Cursor), class_scan_cursor t (class_scan_cursor t c) = class_scan_cursor t c)
    ∧ (∀ src it (c : Cursor), construct src = Except.ok (it, c) →
        class_scan_cursor it.tables c = c) := by
  have key : ∀ {β : Type} (x : Except PyErr β) (c : Cursor),
      (x.map (fun r => (r, c))).map Prod.fst = x := by
    intro β x c
    cases x <;> rfl
  have hidem : ∀ t (c : Cursor),
      class_scan_cursor t (class_scan_cursor t c) = class_scan_cursor t c := by
    intro t c
    rw [class_scan_cursor, class_scan_cursor]
    cases (class_struct_metas t).getLast? <;> rfl
  refine ⟨?_, ?_, fun it mark c₁ c₂ => rfl, fun it mark c => rfl, ?_, ?_, ?_, ?_, hidem, ?_⟩
  · intro it pfx fa fm dO c₁ c₂
    rw [ find_function_prefix, find_function_prefix, key, key]
  · intro it pfx fa fm dO c res h
    rw [ find_function_prefix] at h
    cases hr : find_function_prefix_results it pfx fa fm dO with
    | error e => rw [hr] at h; cases h
    | ok l => rw [hr] at h; cases h; rfl
  · intro t cds c₁ c₂
    rw [get_namespace_ranges, get_namespace_ranges, key, key]
  · intro t cds c res h
    rw [get_namespace_ranges] at h
    cases hr : get_namespace_ranges_results t cds with
    | error e => rw [hr] at h; cases h
    | ok l => rw [hr] at h; cases h; rfl
  · intro t c₁ c₂
    rw [find_all_class_def, find_all_class_def, key, key]
  · intro t c res h
    rw [find_all_class_def] at h
    cases hr : find_all_class_def_results t with
    | error e => rw [hr] at h; cases h
    | ok l => rw [hr] at h; cases h; rfl
  · intro src it c h
    rw [construct] at h
    cases hm : mkSourceTables src with
    | error e => rw [hm] at h; cases h
    | ok tp =>
      obtain ⟨t, spos⟩ := tp
      rw [hm] at h
      simp only [bind, Except.bind] at h
      cases hr : find_all_class_def t (reset_move spos) with
      | error e => rw [hr] at h; cases h
      | ok p1 =>
        obtain ⟨cdefs, cur1⟩ := p1
        simp only [hr] at h
        cases hg : get_namespace_ranges t cdefs cur1 with
        | error e => simp only [hg] at h; cases h
        | ok p2 =>
          obtain ⟨ns0, cur2⟩ := p2
          simp only [hg] at h
          simp only [pure, Except.pure, Except.ok.injEq, Prod.mk.injEq] at h
          obtain ⟨hit, hc⟩ := h
          have h1 : cur1 = class_scan_cursor t (reset_move spos) := by
            rw [find_all_class_def] at hr
            cases hr2 : find_all_class_def_results t with
            | error e => rw [hr2] at hr; cases hr
            | ok l => rw [hr2] at hr; cases hr; rfl
          have h2 : cur2 = cur1 := by
            rw [get_namespace_ranges] at hg
            cases hg2 : get_namespace_ranges_results t cdefs with
            | error e => rw [hg2] at hg; cases hg
            | ok l => rw [hg2] at hg; cases hg; rfl
          have htab : it.tables = t := by rw [← hit]
          rw [htab, ← hc, h2, h1]
          exact hidem t (reset_move spos)

/-- C4, witness: on the concrete source `class A\x7b\x7d;` the fixed-point
part of the theorem applies to the constructed iterator and cursor. -/
theorem C4_witness :
    class_scan_cursor (iter_of c4src).tables (⟨5, ⟨0, 0, 0⟩⟩ : Cursor) =
      (⟨5, ⟨0, 0, 0⟩⟩ : Cursor) :=
  C4_theorem.2.2.2.2.2.2.2.2.2 c4src (iter_of c4src) ⟨5, ⟨0, 0, 0⟩⟩ (by decide)

/-- C5, counterexample.  The claim says construction raises exactly when a
bracket is unbalanced outside ignore ranges.  On `class\x7b\x7d;` every
bracket is balanced — the table construction including the bracket scan
succeeds — yet constructing the iterator raises an AssertionError, because
the first recorded curly starts exactly at the end of the `class` keyword
and find_identifier_range asserts `end > start`. -/
theorem C5_counterexample :
    (mkSourceTables c5src).isOk = true
    ∧ construct c5src = Except.error PyErr.assertion_error := by
  constructor
  · decide
  · decide

/-- C7, counterexample.  On `a /*c*/ \x7b\x7d` the comment spans [2,7).  The
claim says every p with start ≤ p < end is skippable, including p equal to
the range's start, and that an ignore range interleaved with whitespace
between the cursor and the next significant character never changes a
primitive's result.  But skip_string_comment leaves position 2 (the
range's start) unmoved, and next_bracket from position 1 returns none at
position 2 even though the next significant character is the curly
recorded at 8. -/
theorem C7_counterexample :
    ((mkSourceTables c7src).map (fun tp =>
        (tp.1.ignore_ranges, skip_string_comment tp.1 2,
          assoc_get? tp.1.symbol_to_poses lcurly)) =
      Except.ok ([(2, 7)], 2, some [8]))
    ∧ ((mkSourceTables c7src).bind (fun tp => next_bracket tp.1 lcurly 1) =
      Except.ok (none, 2)) := by
  constructor
  · decide
  · decide

/-- C7, amended.  skip_string_comment treats a position p as skippable
exactly when p lies strictly inside an ignore range (start < p < end): it
then jumps to that range's end, and otherwise — including when p equals a
range's start offset, and at every position reached later by a
primitive's whitespace loop, which consults the ignore table only once at
entry — it leaves the position unchanged. -/
theorem C7_theorem :
    ∀ (src : List Char) (t : SourceTables) (pos0 : Nat),
      mkSourceTables src = Except.ok (t, pos0) →
      ∀ p, skip_string_comment t p =
        match find_strict_range t.ignore_ranges p with
        | some r => r.2
        | none => p := by
  intro src t pos0 h p
  obtain ⟨-, -, -, -, hir, his, -, -, -, -⟩ := mkSourceTables_spec h
  rw [skip_string_comment, his, hir]
  exact skip_ignore_eq _ (ignore_ranges_facts src).2
    (fun r hr => ((ignore_ranges_facts src).1 r hr).1) p

/-- C7, witness: the amended theorem applied to the comment source at
position 3, strictly inside the range [2,7), where the skip lands on 7. -/
theorem C7_witness :
    skip_string_comment (tables_of c7src) 3 = 7 :=
  (C7_theorem c7src (tables_of c7src) 10 (by decide) 3).trans (by decide)

/-- C8: confirmed.  For `class Outer \x7b namespace inner \x7b class Inner
\x7b int x; \x7d; \x7d \x7d;` the pipeline resolves Inner's local_id to
exactly "Outer::inner::Inner" (and Outer's to "Outer"); the per-definition
resolution concatenates the names of precisely the ranges strictly
containing the body, in list order, and the result is unchanged under
every permutation of the discovered range list, since resolution sorts the
ranges by start position first. -/
theorem C8_theorem :
    ((construct c8src).map (fun p =>
        p.1._class_defs.map (fun c => (c.name, c.local_id))) =
      Except.ok [(chars "Outer", chars "Outer"),
        (chars "Inner", chars "Outer::inner::Inner")])
    ∧ (∀ (ranges : List (List Char × Nat × Nat)) (cdef : ClassDef),
        (_update_one ranges cdef).local_id =
          join_colon (((ranges.filter (fun ns =>
            decide (ns.2.1 < cdef.body_start) && decide (cdef.body_end < ns.2.2))).map
            (fun ns => ns.1)) ++ [cdef.name]))
    ∧ (c8_discovered_ranges.permutations'.all (fun l =>
        (_update_one (py_sort (fun a b => decide (a.2.1 ≤ b.2.1)) l) c8_inner_cdef).local_id
          == chars "Outer::inner::Inner") = true) := by
  refine ⟨by decide, fun ranges cdef => rfl, by decide⟩

/-- C10: confirmed.  Constructing a CppSourceIterator on the empty source
succeeds, producing the iterator with empty token, ignore-range,
bracket-pair, class-def and namespace-range tables and an all-empty
symbol-occurrence index (empty_iter), and every discovery call on it —
 find_function_prefix with any prefix and flags, find_marked_identifier
with any mark, find_symbols_in_range with any tracked symbol and any
bounds — returns an empty result without error. -/
theorem C10_theorem :
    (construct ([] : List Char) = Except.ok (empty_iter, ⟨0, ⟨0, 0, 0⟩⟩))
    ∧ (∀ pfx fa fm dO cur, find_function_prefix empty_iter pfx fa fm dO cur =
        Except.ok ([], cur))
    ∧ (∀ mark cur, find_marked_identifier empty_iter mark cur = ([], cur))
    ∧ (∀ sym, sym ∈ AllSymbols → ∀ a b?,
        find_symbols_in_range empty_iter.tables sym a b? = Except.ok []) := by
  refine ⟨by decide, fun pfx fa fm dO cur => rfl, fun mark cur => rfl, ?_⟩
  intro sym h a b?
  fin_cases h <;> cases b? <;> rfl

/-- C10, witness: the theorem applied to the tracked symbol `;`. -/
theorem C10_witness :
    find_symbols_in_range empty_iter.tables ';' 0 none = Except.ok [] :=
  C10_theorem.2.2.2 ';' (by decide) 0 none

/-- C9: confirmed.  Parsing `class Foo \x7b public: CODEAI_EXPORT_INIT
Foo(int); int CODEAI_EXPORT add(int); \x7d;` with the constructor and the
method each preceded by the caller's marker yields exactly one exported
class, with qualified id "Foo", inits ["Foo::Foo"] and methods
["Foo::add"], no outside methods, and the source marked as containing an
export. -/
theorem C9_theorem :
    _parse_sources_get_pybind [c9src] (chars "CODEAI_EXPORT")
      (chars "CODEAI_EXPORT_INIT") (chars "CODEAI_EXPORT_SHARED_INIT")
      (chars "CODEAI_EXPORT_PROP") =
    Except.ok ([(chars "Foo",
      ⟨[chars "Foo::Foo"], [chars "Foo::add"], [], false, false⟩)], [], [0]) := by
  decide

end CcImport
